import Mathlib

/-!
Verification of libavstor's storage engine against its specification.

The definitions below are shallow embeddings of the C sources: pure
functions become Lean functions, the AVL routines (which use an explicit
back-trace stack in C) become structural recursions following the same
case analysis, machine integers become `Nat` with explicit `% 2^32`
where overflow is possible, and fallible code returns `Except`/`Option`.
-/

namespace Avstor

/-! ## Error codes (enum in avstor.h) -/

def AVSTOR_OK : Nat := 0
def AVSTOR_PARAM : Nat := 1
def AVSTOR_MISMATCH : Nat := 2
def AVSTOR_NOMEM : Nat := 3
def AVSTOR_NOTFOUND : Nat := 4
def AVSTOR_EXISTS : Nat := 5
def AVSTOR_IOERR : Nat := 6
def AVSTOR_CORRUPT : Nat := 7
def AVSTOR_INVOPER : Nat := 8
def AVSTOR_INTERNAL : Nat := 9
def AVSTOR_ABORT : Nat := 10

/-! ## Constants (from the engine source) -/

def PAGE_SIZE : Nat := 4096
def MAX_KEY_LEN : Nat := 240
def MAX_STRING_LEN : Nat := 250
def MAX_BINARY_LEN : Nat := 250
def MOD_ADLER : Nat := 65521

/-- 2^32, the modulus of the C `uint32_t` arithmetic. -/
def U32 : Nat := 4294967296

/-! ## Adler-32 page checksum (compute_page_checksum / update_page_checksum)

`compute_page_checksum` iterates `a = a + *cp++; b = b + a;` over the
4096 page bytes in `uint32_t` variables (so each addition is mod 2^32),
applies `% MOD_ADLER` once at the end, and returns `(b << 16) | a`. -/

/-- The byte loop of `compute_page_checksum`, with the `uint32_t`
wrap-around of the C variables made explicit. -/
def adler_loop : List Nat → Nat → Nat → Nat × Nat
  | [], a, b => (a, b)
  | c :: cs, a, b =>
    let a2 := (a + c) % U32
    let b2 := (b + a2) % U32
    adler_loop cs a2 b2

/-- compute_page_checksum: run the loop from a=1, b=0, reduce once
modulo MOD_ADLER, combine as (b << 16) | a. -/
def compute_page_checksum (page : List Nat) : Nat :=
  let ab := adler_loop page 1 0
  let a := ab.1 % MOD_ADLER
  let b := ab.2 % MOD_ADLER
  (b <<< 16) ||| a

/-- The page with its 4-byte checksum field (at offset 0) zeroed, as
`update_page_checksum` does before recomputing. -/
def set_checksum_zero (page : List Nat) : List Nat :=
  [0, 0, 0, 0] ++ page.drop 4

/-- update_page_checksum: zero the checksum field, then compute the
checksum of the resulting page image. -/
def update_page_checksum (page : List Nat) : Nat :=
  compute_page_checksum (set_checksum_zero page)

/-- Textbook Adler-32 byte loop: running sums reduced modulo 65521 at
every step (the definition in the spec's glossary). -/
def adler_loop_spec : List Nat → Nat → Nat → Nat × Nat
  | [], a, b => (a, b)
  | c :: cs, a, b =>
    let a2 := (a + c) % MOD_ADLER
    let b2 := (b + a2) % MOD_ADLER
    adler_loop_spec cs a2 b2

/-- Adler-32 as the spec defines it: per-byte modular sums, final value
(b << 16) | a. -/
def adler32_spec (page : List Nat) : Nat :=
  let ab := adler_loop_spec page 1 0
  (ab.2 <<< 16) ||| ab.1

/-- The checksum loop without any modulus, used to relate the two. -/
def adler_loop_pure : List Nat → Nat → Nat → Nat × Nat
  | [], a, b => (a, b)
  | c :: cs, a, b => adler_loop_pure cs (a + c) (b + (a + c))

lemma adler_loop_eq_pure : ∀ (bs : List Nat) (a b : Nat), (∀ x ∈ bs, x < 256) →
    a + 255 * bs.length < U32 → b + bs.length * (a + 255 * bs.length) < U32 →
    adler_loop bs a b = adler_loop_pure bs a b := by
  intro bs
  induction bs with
  | nil => intro a b _ _ _; rfl
  | cons c cs ih =>
    intro a b hb ha hbb
    have hc : c < 256 := hb c (by simp)
    have hlen : (c :: cs).length = cs.length + 1 := by simp
    rw [hlen] at ha hbb
    have hstep : a + 255 * cs.length + 255 ≤ a + 255 * (cs.length + 1) := by ring_nf; omega
    have h1 : a + c < U32 := by omega
    have hX : a + c + 255 * cs.length ≤ a + 255 * (cs.length + 1) := by omega
    have hmul : cs.length * (a + c + 255 * cs.length) ≤
        cs.length * (a + 255 * (cs.length + 1)) :=
      Nat.mul_le_mul_left _ hX
    have hone : a + 255 * (cs.length + 1) ≤ (cs.length + 1) * (a + 255 * (cs.length + 1)) := by
      have := Nat.le_mul_of_pos_left (a + 255 * (cs.length + 1)) (by omega : 0 < cs.length + 1)
      exact this
    have h2 : b + (a + c) < U32 := by
      have : b + (a + c) ≤ b + (a + 255 * (cs.length + 1)) := by omega
      have h3 : b + (a + 255 * (cs.length + 1)) ≤
          b + (cs.length + 1) * (a + 255 * (cs.length + 1)) := by omega
      omega
    show adler_loop cs ((a + c) % U32) ((b + (a + c) % U32) % U32) = _
    rw [Nat.mod_eq_of_lt h1, Nat.mod_eq_of_lt h2]
    have hmul2 : (cs.length + 1) * (a + 255 * (cs.length + 1)) =
        (a + 255 * (cs.length + 1)) + cs.length * (a + 255 * (cs.length + 1)) := by ring
    refine ih (a + c) (b + (a + c)) (fun x hx => hb x (by simp [hx])) (by omega) ?_
    have : b + (a + c) + cs.length * (a + c + 255 * cs.length) ≤
        b + (a + 255 * (cs.length + 1)) + cs.length * (a + 255 * (cs.length + 1)) := by omega
    omega

lemma adler_loop_pure_mod : ∀ (bs : List Nat) (a b : Nat),
    adler_loop_spec bs (a % MOD_ADLER) (b % MOD_ADLER)
      = ((adler_loop_pure bs a b).1 % MOD_ADLER, (adler_loop_pure bs a b).2 % MOD_ADLER) := by
  intro bs
  induction bs with
  | nil => intro a b; rfl
  | cons c cs ih =>
    intro a b
    show adler_loop_spec cs ((a % MOD_ADLER + c) % MOD_ADLER)
        ((b % MOD_ADLER + (a % MOD_ADLER + c) % MOD_ADLER) % MOD_ADLER) = _
    have e1 : (a % MOD_ADLER + c) % MOD_ADLER = (a + c) % MOD_ADLER :=
      Nat.mod_add_mod a MOD_ADLER c
    have e2 : (b % MOD_ADLER + (a % MOD_ADLER + c) % MOD_ADLER) % MOD_ADLER
        = (b + (a + c)) % MOD_ADLER := by
      rw [e1, Nat.add_mod_mod, Nat.mod_add_mod]
    rw [e2, e1]
    simpa [adler_loop_pure] using ih (a + c) (b + (a + c))

lemma set_checksum_zero_length (page : List Nat) (h : page.length = PAGE_SIZE) :
    (set_checksum_zero page).length = PAGE_SIZE := by
  simp [set_checksum_zero, h]
  rfl

lemma set_checksum_zero_bytes (page : List Nat) (h : ∀ x ∈ page, x < 256) :
    ∀ x ∈ set_checksum_zero page, x < 256 := by
  intro x hx
  simp [set_checksum_zero] at hx
  rcases hx with h0 | hmem
  · omega
  · exact h x (List.mem_of_mem_drop hmem)

/-- C9: For every 4096-byte page content, the checksum computed by
`update_page_checksum` (checksum field zeroed, single deferred modulo
after the loop) equals the per-byte modular Adler-32 of the zeroed page:
the intermediate 32-bit sums never overflow, so deferring the reduction
is sound. -/
theorem c9_checksum_matches_adler_spec (page : List Nat)
    (hlen : page.length = PAGE_SIZE) (hb : ∀ x ∈ page, x < 256) :
    update_page_checksum page = adler32_spec (set_checksum_zero page) := by
  have hql : (set_checksum_zero page).length = PAGE_SIZE := set_checksum_zero_length page hlen
  have hqb : ∀ x ∈ set_checksum_zero page, x < 256 := set_checksum_zero_bytes page hb
  unfold update_page_checksum compute_page_checksum adler32_spec
  have h1 : adler_loop (set_checksum_zero page) 1 0
      = adler_loop_pure (set_checksum_zero page) 1 0 := by
    refine adler_loop_eq_pure _ 1 0 hqb ?_ ?_ <;> rw [hql] <;> decide
  have h2 : adler_loop_spec (set_checksum_zero page) 1 0
      = ((adler_loop_pure (set_checksum_zero page) 1 0).1 % MOD_ADLER,
         (adler_loop_pure (set_checksum_zero page) 1 0).2 % MOD_ADLER) := by
    have := adler_loop_pure_mod (set_checksum_zero page) 1 0
    simpa using this
  rw [h1, h2]

/-- C9 witness: the theorem applied at the all-zero page. -/
theorem c9_checksum_matches_adler_spec_witness :
    (List.replicate PAGE_SIZE 0).length = PAGE_SIZE ∧
    update_page_checksum (List.replicate PAGE_SIZE 0)
      = adler32_spec (set_checksum_zero (List.replicate PAGE_SIZE 0)) := by
  refine ⟨by simp, c9_checksum_matches_adler_spec _ (by simp) ?_⟩
  intro x hx
  have := List.eq_of_mem_replicate hx
  omega

/-! ## The AVL tree operator

On disk an AVL node carries a 2-bit balance factor (stored BF+1), the
left/right `NodeRef`s and a name; the routines `insert_node` +
`balance_down` and `remove_node` + `balance_up` walk an explicit
back-trace stack of `{parent, comparison}` frames.  The embedding
replaces the offset/stack plumbing with structural recursion over an
inductive tree carrying the same stored balance factor; each branch
below mirrors one branch of the C routines.  `α` is the node payload
(value data); the caller-supplied total-order comparator is modelled by
the canonical order on `Nat` keys. -/

inductive VTree (α : Type) where
  | nil : VTree α
  | node (bf : Int) (key : Nat) (val : α) (l r : VTree α) : VTree α
deriving DecidableEq

namespace VTree

variable {α : Type}

def height : VTree α → Nat
  | .nil => 0
  | .node _ _ _ l r => max (height l) (height r) + 1

/-- BF(node); 0 for a null reference. -/
def bfOf : VTree α → Int
  | .nil => 0
  | .node bf _ _ _ _ => bf

/-- The AVL invariant of spec §3: at every node the stored balance
factor equals height(right) − height(left), lies in {-1,0,+1}, and
the two subtree heights differ by at most one. -/
def wfB : VTree α → Bool
  | .nil => true
  | .node bf _ _ l r =>
    decide (bf = (height r : Int) - (height l : Int)) &&
        decide (-1 ≤ bf) && decide (bf ≤ 1) &&
        decide ((height l : Int) - (height r : Int) ≤ 1) &&
        decide ((height r : Int) - (height l : Int) ≤ 1) &&
        wfB l && wfB r

/-- The caller-supplied comparator (`key->comparer`): a three-way
compare on names, modelled on `Nat`. -/
def cmp (a b : Nat) : Int := if a < b then -1 else if b < a then 1 else 0

/-- rotate_left(x, z): z = x->right; x->right := z->left; z->left := x;
BF(z)=0 ⇒ BF(x):=+1, BF(z):=-1, else both 0. -/
def rotate_left : VTree α → VTree α
  | .node _ kx vx lx (.node bfz kz vz t23 rz) =>
    let xbf : Int := if bfz = 0 then 1 else 0
    let zbf : Int := if bfz = 0 then -1 else 0
    .node zbf kz vz (.node xbf kx vx lx t23) rz
  | t => t

/-- rotate_right(x, z): z = x->left; x->left := z->right; z->right := x;
BF(z)=0 ⇒ BF(x):=-1, BF(z):=+1, else both 0. -/
def rotate_right : VTree α → VTree α
  | .node _ kx vx (.node bfz kz vz lz t23) rx =>
    let xbf : Int := if bfz = 0 then -1 else 0
    let zbf : Int := if bfz = 0 then 1 else 0
    .node zbf kz vz lz (.node xbf kx vx t23 rx)
  | t => t

/-- rotate_right_left(x, z): z = x->right, y = z->left; z->left := y->right;
y->right := z; x->right := y->left; y->left := x; BF per the three
BF(y) cases; BF(y) := 0. -/
def rotate_right_left : VTree α → VTree α
  | .node _ kx vx lx (.node _bfz kz vz (.node bfy ky vy t2 t3) rz) =>
    let xbf : Int := if bfy = 0 then 0 else if 0 < bfy then -1 else 0
    let zbf : Int := if bfy = 0 then 0 else if 0 < bfy then 0 else 1
    .node 0 ky vy (.node xbf kx vx lx t2) (.node zbf kz vz t3 rz)
  | t => t

/-- rotate_left_right(x, z): z = x->left, y = z->right; z->right := y->left;
y->left := z; x->left := y->right; y->right := x; BF per the three
BF(y) cases; BF(y) := 0. -/
def rotate_left_right : VTree α → VTree α
  | .node _ kx vx (.node _bfz kz vz lz (.node bfy ky vy t3 t2)) rx =>
    let xbf : Int := if bfy = 0 then 0 else if bfy < 0 then 1 else 0
    let zbf : Int := if bfy = 0 then 0 else if bfy < 0 then 0 else -1
    .node 0 ky vy (.node zbf kz vz lz t3) (.node xbf kx vx t2 rx)
  | t => t

/-- One step of `balance_up` for a frame with comp < 0 (the left
subtree of this ancestor lost one level).  Returns the new subtree and
whether the height decrease keeps propagating (the C loop's `continue`
versus `break`). -/
def balance_up_left (bf : Int) (key : Nat) (v : α) (l2 r : VTree α) : VTree α × Bool :=
  if 0 < bf then
    let b := bfOf r
    (if b < 0 then rotate_right_left (.node bf key v l2 r)
     else rotate_left (.node bf key v l2 r), b != 0)
  else if bf = 0 then (.node 1 key v l2 r, false)
  else (.node 0 key v l2 r, true)

/-- One step of `balance_up` for a frame with comp > 0 (the right
subtree of this ancestor lost one level). -/
def balance_up_right (bf : Int) (key : Nat) (v : α) (l r2 : VTree α) : VTree α × Bool :=
  if bf < 0 then
    let b := bfOf l
    (if 0 < b then rotate_left_right (.node bf key v l r2)
     else rotate_right (.node bf key v l r2), b != 0)
  else if bf = 0 then (.node (-1) key v l r2, false)
  else (.node 0 key v l r2, true)

/-- find_node_with_backtrace + insert_node + balance_down: descend by
the comparator, attach the new node with BF 0 at the null reference,
then rebalance along the back-trace; the Bool is "this subtree grew"
(the C loop keeps walking the stack exactly while it is true, and the
rotation and was-unbalanced cases stop it).  An equal key inserts
nothing (the create operations fail with EXISTS before insert_node). -/
def insert_node (k : Nat) (v : α) : VTree α → VTree α × Bool
  | .nil => (.node 0 k v .nil .nil, true)
  | .node bf key val l r =>
    let c := cmp k key
    if c = 0 then (.node bf key val l r, false)
    else if c < 0 then
      match insert_node k v l with
      | (l2, false) => (.node bf key val l2 r, false)
      | (l2, true) =>
        if bf = 0 then (.node (-1) key val l2 r, true)
        else if bf = 1 then (.node 0 key val l2 r, false)
        else
          (if bfOf l2 < 0 then rotate_right (.node bf key val l2 r)
           else rotate_left_right (.node bf key val l2 r), false)
    else
      match insert_node k v r with
      | (r2, false) => (.node bf key val l r2, false)
      | (r2, true) =>
        if bf = 0 then (.node 1 key val l r2, true)
        else if bf = -1 then (.node 0 key val l r2, false)
        else
          (if 0 < bfOf r2 then rotate_left (.node bf key val l r2)
           else rotate_right_left (.node bf key val l r2), false)

/-- The successor-splice loop of remove_node case 3: walk to the
leftmost node of the subtree pushing comp = -1 frames, remove it, and
rebalance each frame with `balance_up_left`.  Returns the removed
(key, value), the remaining subtree, and whether it lost a level. -/
def remove_min : VTree α → Option (Nat × α) × VTree α × Bool
  | .nil => (none, .nil, false)
  | .node _ key val .nil r => (some (key, val), r, true)
  | .node bf key val (.node bl kl vl ll rl) r =>
    match remove_min (.node bl kl vl ll rl) with
    | (m, l2, true) =>
      let p := balance_up_left bf key val l2 r
      (m, p.1, p.2)
    | (m, l2, false) => (m, .node bf key val l2 r, false)

/-- find_node_with_backtrace + remove_node + balance_up: descend to the
node, remove it by the three cases of remove_node (leaf / one child /
in-order successor splice carrying the removed node's BF), and
rebalance along the back-trace.  The Bool is "this subtree lost a
level". -/
def remove_node (k : Nat) : VTree α → VTree α × Bool
  | .nil => (.nil, false)
  | .node bf key val l r =>
    let c := cmp k key
    if c < 0 then
      match remove_node k l with
      | (l2, true) => balance_up_left bf key val l2 r
      | (l2, false) => (.node bf key val l2 r, false)
    else if 0 < c then
      match remove_node k r with
      | (r2, true) => balance_up_right bf key val l r2
      | (r2, false) => (.node bf key val l r2, false)
    else
      match l, r with
      | .nil, .nil => (.nil, true)
      | .nil, .node br kr vr lr rr => (.node br kr vr lr rr, true)
      | .node bl kl vl ll rl, .nil => (.node bl kl vl ll rl, true)
      | .node bl kl vl ll rl, .node br kr vr lr rr =>
        match remove_min (.node br kr vr lr rr) with
        | (some (sk, sv), r2, true) =>
          balance_up_right bf sk sv (.node bl kl vl ll rl) r2
        | (some (sk, sv), r2, false) =>
          (.node bf sk sv (.node bl kl vl ll rl) r2, false)
        | (none, _, _) => (.node bf key val l r, false)

/-- In-order key sequence of a tree. -/
def inorder : VTree α → List Nat
  | .nil => []
  | .node _ k _ l r => inorder l ++ k :: inorder r

/-- All keys of the tree satisfy `p`. -/
def allK (p : Nat → Bool) : VTree α → Bool
  | .nil => true
  | .node _ k _ l r => p k && allK p l && allK p r

/-- Binary-search-tree ordering under the comparator. -/
def bst : VTree α → Bool
  | .nil => true
  | .node _ k _ l r =>
    allK (fun x => decide (x < k)) l && allK (fun x => decide (k < x)) r && bst l && bst r

/-- find_key: plain comparator descent, returning the found node's
payload. -/
def find_key (k : Nat) : VTree α → Option α
  | .nil => none
  | .node _ key val l r =>
    let c := cmp k key
    if c = 0 then some val
    else if c < 0 then find_key k l
    else find_key k r

@[simp] lemma height_nil : height (VTree.nil : VTree α) = 0 := rfl

@[simp] lemma height_node (bf : Int) (k : Nat) (v : α) (l r : VTree α) :
    height (VTree.node bf k v l r) = max (height l) (height r) + 1 := rfl

@[simp] lemma wfB_nil : wfB (VTree.nil : VTree α) = true := rfl

lemma wfB_node_iff {bf : Int} {k : Nat} {v : α} {l r : VTree α} :
    wfB (VTree.node bf k v l r) = true ↔
      (bf = (height r : Int) - (height l : Int) ∧ -1 ≤ bf ∧ bf ≤ 1 ∧
       wfB l = true ∧ wfB r = true) := by
  simp only [wfB, Bool.and_eq_true, decide_eq_true_eq, and_assoc]
  constructor
  · rintro ⟨h1, h2, h3, _, _, h6, h7⟩
    exact ⟨h1, h2, h3, h6, h7⟩
  · rintro ⟨h1, h2, h3, h6, h7⟩
    exact ⟨h1, h2, h3, by omega, by omega, h6, h7⟩

lemma cmp_eq_zero_iff {a b : Nat} : cmp a b = 0 ↔ a = b := by
  unfold cmp; split_ifs <;> simp <;> omega

lemma cmp_neg_iff {a b : Nat} : cmp a b < 0 ↔ a < b := by
  unfold cmp; split_ifs <;> simp <;> omega

lemma cmp_pos_iff {a b : Nat} : 0 < cmp a b ↔ b < a := by
  unfold cmp; split_ifs <;> simp <;> omega

lemma rotate_left_ok {b bfz : Int} {k kz : Nat} {v vz : α} {lx t23 rz : VTree α}
    (hlx : wfB lx = true) (hz : wfB (VTree.node bfz kz vz t23 rz) = true)
    (hh : height (VTree.node bfz kz vz t23 rz) = height lx + 2)
    (hbfz : 0 ≤ bfz) :
    wfB (rotate_left (VTree.node b k v lx (VTree.node bfz kz vz t23 rz))) = true ∧
    height (rotate_left (VTree.node b k v lx (VTree.node bfz kz vz t23 rz)))
      = if bfz = 0 then height lx + 3 else height lx + 2 := by
  rw [wfB_node_iff] at hz
  obtain ⟨hbf, hb1, hb2, ht23, hrz⟩ := hz
  simp only [height_node] at hh
  simp only [rotate_left]
  refine ⟨?_, ?_⟩
  · rw [wfB_node_iff]
    refine ⟨?_, ?_, ?_, ?_, hrz⟩
    · simp only [height_node]; split_ifs <;> omega
    · split_ifs <;> omega
    · split_ifs <;> omega
    · rw [wfB_node_iff]
      refine ⟨?_, ?_, ?_, hlx, ht23⟩ <;> split_ifs <;> omega
  · simp only [height_node]; split_ifs <;> omega

lemma rotate_right_ok {b bfz : Int} {k kz : Nat} {v vz : α} {rx t23 lz : VTree α}
    (hrx : wfB rx = true) (hz : wfB (VTree.node bfz kz vz lz t23) = true)
    (hh : height (VTree.node bfz kz vz lz t23) = height rx + 2)
    (hbfz : bfz ≤ 0) :
    wfB (rotate_right (VTree.node b k v (VTree.node bfz kz vz lz t23) rx)) = true ∧
    height (rotate_right (VTree.node b k v (VTree.node bfz kz vz lz t23) rx))
      = if bfz = 0 then height rx + 3 else height rx + 2 := by
  rw [wfB_node_iff] at hz
  obtain ⟨hbf, hb1, hb2, hlz, ht23⟩ := hz
  simp only [height_node] at hh
  simp only [rotate_right]
  refine ⟨?_, ?_⟩
  · rw [wfB_node_iff]
    refine ⟨?_, ?_, ?_, hlz, ?_⟩
    · simp only [height_node]; split_ifs <;> omega
    · split_ifs <;> omega
    · split_ifs <;> omega
    · rw [wfB_node_iff]
      refine ⟨?_, ?_, ?_, ht23, hrx⟩ <;> split_ifs <;> omega
  · simp only [height_node]; split_ifs <;> omega

lemma rotate_right_left_ok {b bfz bfy : Int} {k kz ky : Nat} {v vz vy : α}
    {lx t2 t3 rz : VTree α}
    (hlx : wfB lx = true)
    (hz : wfB (VTree.node bfz kz vz (VTree.node bfy ky vy t2 t3) rz) = true)
    (hh : height (VTree.node bfz kz vz (VTree.node bfy ky vy t2 t3) rz) = height lx + 2)
    (hbfz : bfz < 0) :
    wfB (rotate_right_left
        (VTree.node b k v lx (VTree.node bfz kz vz (VTree.node bfy ky vy t2 t3) rz))) = true ∧
    height (rotate_right_left
        (VTree.node b k v lx (VTree.node bfz kz vz (VTree.node bfy ky vy t2 t3) rz)))
      = height lx + 2 := by
  rw [wfB_node_iff] at hz
  obtain ⟨hbf, hb1, hb2, hy, hrz⟩ := hz
  rw [wfB_node_iff] at hy
  obtain ⟨hbfy, hy1, hy2, ht2, ht3⟩ := hy
  simp only [height_node] at hh hbf
  simp only [rotate_right_left]
  refine ⟨?_, ?_⟩
  · rw [wfB_node_iff]
    refine ⟨?_, by omega, by omega, ?_, ?_⟩
    · simp only [height_node]; omega
    · rw [wfB_node_iff]
      refine ⟨?_, ?_, ?_, hlx, ht2⟩ <;> split_ifs <;> omega
    · rw [wfB_node_iff]
      refine ⟨?_, ?_, ?_, ht3, hrz⟩ <;> split_ifs <;> omega
  · simp only [height_node]; omega

lemma rotate_left_right_ok {b bfz bfy : Int} {k kz ky : Nat} {v vz vy : α}
    {rx t2 t3 lz : VTree α}
    (hrx : wfB rx = true)
    (hz : wfB (VTree.node bfz kz vz lz (VTree.node bfy ky vy t3 t2)) = true)
    (hh : height (VTree.node bfz kz vz lz (VTree.node bfy ky vy t3 t2)) = height rx + 2)
    (hbfz : 0 < bfz) :
    wfB (rotate_left_right
        (VTree.node b k v (VTree.node bfz kz vz lz (VTree.node bfy ky vy t3 t2)) rx)) = true ∧
    height (rotate_left_right
        (VTree.node b k v (VTree.node bfz kz vz lz (VTree.node bfy ky vy t3 t2)) rx))
      = height rx + 2 := by
  rw [wfB_node_iff] at hz
  obtain ⟨hbf, hb1, hb2, hlz, hy⟩ := hz
  rw [wfB_node_iff] at hy
  obtain ⟨hbfy, hy1, hy2, ht3, ht2⟩ := hy
  simp only [height_node] at hh hbf
  simp only [rotate_left_right]
  refine ⟨?_, ?_⟩
  · rw [wfB_node_iff]
    refine ⟨?_, by omega, by omega, ?_, ?_⟩
    · simp only [height_node]; omega
    · rw [wfB_node_iff]
      refine ⟨?_, ?_, ?_, hlz, ht3⟩ <;> split_ifs <;> omega
    · rw [wfB_node_iff]
      refine ⟨?_, ?_, ?_, ht2, hrx⟩ <;> split_ifs <;> omega
  · simp only [height_node]; omega

lemma balance_up_left_ok {bf : Int} {k : Nat} {v : α} {l2 r : VTree α}
    (hl : wfB l2 = true) (hr : wfB r = true)
    (hbf : bf = (height r : Int) - ((height l2 : Int) + 1))
    (hb1 : -1 ≤ bf) (hb2 : bf ≤ 1) :
    wfB (balance_up_left bf k v l2 r).1 = true ∧
    ((balance_up_left bf k v l2 r).2 = true →
      height (balance_up_left bf k v l2 r).1 + 1 = max (height l2 + 1) (height r) + 1) ∧
    ((balance_up_left bf k v l2 r).2 = false →
      height (balance_up_left bf k v l2 r).1 = max (height l2 + 1) (height r) + 1) := by
  simp only [balance_up_left]
  by_cases hbfpos : 0 < bf
  · simp only [if_pos hbfpos]
    have hhr : height r = height l2 + 2 := by omega
    cases r with
    | nil => simp only [height_nil] at hhr; omega
    | node br kr vr lr rr =>
      have hrw := hr
      rw [wfB_node_iff] at hrw
      obtain ⟨hbr, hbr1, hbr2, hlr, hrr⟩ := hrw
      simp only [bfOf]
      by_cases hbneg : br < 0
      · simp only [if_pos hbneg]
        have hlrh : height lr = height l2 + 1 := by
          simp only [height_node] at hhr; omega
        cases lr with
        | nil => simp only [height_nil] at hlrh; omega
        | node bq kq vq lq rq =>
          obtain ⟨hwf, hht⟩ :=
            rotate_right_left_ok (b := bf) (k := k) (v := v) hl hr hhr hbneg
          refine ⟨hwf, ?_, ?_⟩
          · intro _; rw [hht, hhr]; omega
          · intro hfalse
            have : br = 0 := by simpa using hfalse
            omega
      · simp only [if_neg hbneg]
        obtain ⟨hwf, hht⟩ :=
          rotate_left_ok (b := bf) (k := k) (v := v) hl hr hhr (by omega)
        refine ⟨hwf, ?_, ?_⟩
        · intro htrue
          have hne : br ≠ 0 := by simpa using htrue
          rw [hht, if_neg hne, hhr]; omega
        · intro hfalse
          have he : br = 0 := by simpa using hfalse
          rw [hht, if_pos he, hhr]; omega
  · simp only [if_neg hbfpos]
    by_cases hbf0 : bf = 0
    · simp only [if_pos hbf0]
      refine ⟨?_, ?_, ?_⟩
      · rw [wfB_node_iff]; exact ⟨by omega, by omega, by omega, hl, hr⟩
      · intro h; simp at h
      · intro _; simp only [height_node]; omega
    · simp only [if_neg hbf0]
      refine ⟨?_, ?_, ?_⟩
      · rw [wfB_node_iff]; exact ⟨by omega, by omega, by omega, hl, hr⟩
      · intro _; simp only [height_node]; omega
      · intro h; simp at h

lemma balance_up_right_ok {bf : Int} {k : Nat} {v : α} {l r2 : VTree α}
    (hl : wfB l = true) (hr : wfB r2 = true)
    (hbf : bf = ((height r2 : Int) + 1) - (height l : Int))
    (hb1 : -1 ≤ bf) (hb2 : bf ≤ 1) :
    wfB (balance_up_right bf k v l r2).1 = true ∧
    ((balance_up_right bf k v l r2).2 = true →
      height (balance_up_right bf k v l r2).1 + 1 = max (height l) (height r2 + 1) + 1) ∧
    ((balance_up_right bf k v l r2).2 = false →
      height (balance_up_right bf k v l r2).1 = max (height l) (height r2 + 1) + 1) := by
  simp only [balance_up_right]
  by_cases hbfneg : bf < 0
  · simp only [if_pos hbfneg]
    have hhl : height l = height r2 + 2 := by omega
    cases l with
    | nil => simp only [height_nil] at hhl; omega
    | node bl kl vl ll rl =>
      have hlw := hl
      rw [wfB_node_iff] at hlw
      obtain ⟨hbl, hbl1, hbl2, hll, hrl⟩ := hlw
      simp only [bfOf]
      by_cases hbpos : 0 < bl
      · simp only [if_pos hbpos]
        have hrlh : height rl = height r2 + 1 := by
          simp only [height_node] at hhl; omega
        cases rl with
        | nil => simp only [height_nil] at hrlh; omega
        | node bq kq vq lq rq =>
          obtain ⟨hwf, hht⟩ :=
            rotate_left_right_ok (b := bf) (k := k) (v := v) hr hl hhl hbpos
          refine ⟨hwf, ?_, ?_⟩
          · intro _; rw [hht, hhl]; omega
          · intro hfalse
            have : bl = 0 := by simpa using hfalse
            omega
      · simp only [if_neg hbpos]
        obtain ⟨hwf, hht⟩ :=
          rotate_right_ok (b := bf) (k := k) (v := v) hr hl hhl (by omega)
        refine ⟨hwf, ?_, ?_⟩
        · intro htrue
          have hne : bl ≠ 0 := by simpa using htrue
          rw [hht, if_neg hne, hhl]; omega
        · intro hfalse
          have he : bl = 0 := by simpa using hfalse
          rw [hht, if_pos he, hhl]; omega
  · simp only [if_neg hbfneg]
    by_cases hbf0 : bf = 0
    · simp only [if_pos hbf0]
      refine ⟨?_, ?_, ?_⟩
      · rw [wfB_node_iff]; exact ⟨by omega, by omega, by omega, hl, hr⟩
      · intro h; simp at h
      · intro _; simp only [height_node]; omega
    · simp only [if_neg hbf0]
      refine ⟨?_, ?_, ?_⟩
      · rw [wfB_node_iff]; exact ⟨by omega, by omega, by omega, hl, hr⟩
      · intro _; simp only [height_node]; omega
      · intro h; simp at h

theorem insert_node_ok (k : Nat) (v : α) :
    ∀ t : VTree α, wfB t = true →
      wfB (insert_node k v t).1 = true ∧
      ((insert_node k v t).2 = true →
        height (insert_node k v t).1 = height t + 1 ∧
        (height t = 0 ∨ bfOf (insert_node k v t).1 ≠ 0)) ∧
      ((insert_node k v t).2 = false → height (insert_node k v t).1 = height t) := by
  intro t
  induction t with
  | nil =>
    intro _
    refine ⟨?_, ?_, ?_⟩
    · rw [show (insert_node k v (VTree.nil : VTree α)).1 = .node 0 k v .nil .nil from rfl]
      rw [wfB_node_iff]
      exact ⟨by simp, by omega, by omega, rfl, rfl⟩
    · intro _
      exact ⟨rfl, Or.inl rfl⟩
    · intro h
      exact absurd h (by simp [insert_node])
  | node bf key val l r ihl ihr =>
    intro hwf
    rw [wfB_node_iff] at hwf
    obtain ⟨hbf, hb1, hb2, hwl, hwr⟩ := hwf
    by_cases hc0 : cmp k key = 0
    · have hres : insert_node k v (VTree.node bf key val l r)
          = (.node bf key val l r, false) := by
        simp only [insert_node, if_pos hc0]
      rw [hres]
      refine ⟨?_, ?_, ?_⟩
      · rw [wfB_node_iff]; exact ⟨hbf, hb1, hb2, hwl, hwr⟩
      · intro h; simp at h
      · intro _; rfl
    · by_cases hcneg : cmp k key < 0
      · obtain ⟨ihw, ihtrue, ihfalse⟩ := ihl hwl
        rcases hil : insert_node k v l with ⟨l2, g⟩
        simp only [hil] at ihw ihtrue ihfalse
        cases g with
        | false =>
          have hres : insert_node k v (VTree.node bf key val l r)
              = (.node bf key val l2 r, false) := by
            simp only [insert_node, if_neg hc0, if_pos hcneg, hil]
          rw [hres]
          have hh2 : height l2 = height l := ihfalse rfl
          refine ⟨?_, ?_, ?_⟩
          · rw [wfB_node_iff]
            exact ⟨by rw [hh2]; exact hbf, hb1, hb2, ihw, hwr⟩
          · intro h; simp at h
          · intro _; simp only [height_node, hh2]
        | true =>
          obtain ⟨hh2, hne⟩ := ihtrue rfl
          by_cases hbf0 : bf = 0
          · have hres : insert_node k v (VTree.node bf key val l r)
                = (.node (-1) key val l2 r, true) := by
              simp only [insert_node, if_neg hc0, if_pos hcneg, hil, if_pos hbf0]
            rw [hres]
            refine ⟨?_, ?_, ?_⟩
            · rw [wfB_node_iff]
              refine ⟨?_, by omega, by omega, ihw, hwr⟩
              rw [hh2]; omega
            · intro _
              refine ⟨?_, Or.inr (by simp [bfOf])⟩
              simp only [height_node]; omega
            · intro h; simp at h
          · by_cases hbf1 : bf = 1
            · have hres : insert_node k v (VTree.node bf key val l r)
                  = (.node 0 key val l2 r, false) := by
                simp only [insert_node, if_neg hc0, if_pos hcneg, hil, if_neg hbf0, if_pos hbf1]
              rw [hres]
              refine ⟨?_, ?_, ?_⟩
              · rw [wfB_node_iff]
                refine ⟨?_, by omega, by omega, ihw, hwr⟩
                rw [hh2]; omega
              · intro h; simp at h
              · intro _; simp only [height_node]; omega
            · have hbfm1 : bf = -1 := by omega
              have hlh : height l = height r + 1 := by omega
              have hl2h : height l2 = height r + 2 := by omega
              have hl2pos : height l ≠ 0 := by omega
              have hb2ne : bfOf l2 ≠ 0 := hne.resolve_left hl2pos
              cases l2 with
              | nil => simp [bfOf] at hb2ne
              | node b2 k2 v2 l2l l2r =>
                simp only [bfOf] at hb2ne
                by_cases hb2neg : b2 < 0
                · have hres : insert_node k v (VTree.node bf key val l r)
                      = (rotate_right (.node bf key val (.node b2 k2 v2 l2l l2r) r), false) := by
                    simp only [insert_node, if_neg hc0, if_pos hcneg, hil, if_neg hbf0,
                      if_neg hbf1, bfOf, if_pos hb2neg]
                  rw [hres]
                  obtain ⟨hwfr, hhtr⟩ :=
                    rotate_right_ok (b := bf) (k := key) (v := val) hwr ihw hl2h (by omega)
                  refine ⟨hwfr, ?_, ?_⟩
                  · intro h; simp at h
                  · intro _
                    rw [hhtr, if_neg hb2ne]
                    simp only [height_node]; omega
                · have hb2pos : 0 < b2 := by omega
                  have hwl2 := ihw
                  rw [wfB_node_iff] at hwl2
                  obtain ⟨hb2eq, _, _, hwl2l, hwl2r⟩ := hwl2
                  have hl2rh : height l2r = height r + 1 := by
                    simp only [height_node] at hl2h; omega
                  cases l2r with
                  | nil => simp only [height_nil] at hl2rh; omega
                  | node b3 k3 v3 l3 r3 =>
                    have hres : insert_node k v (VTree.node bf key val l r)
                        = (rotate_left_right
                            (.node bf key val
                              (.node b2 k2 v2 l2l (.node b3 k3 v3 l3 r3)) r), false) := by
                      simp only [insert_node, if_neg hc0, if_pos hcneg, hil, if_neg hbf0,
                        if_neg hbf1, bfOf, if_neg hb2neg]
                    rw [hres]
                    obtain ⟨hwfr, hhtr⟩ :=
                      rotate_left_right_ok (b := bf) (k := key) (v := val)
                        hwr ihw hl2h hb2pos
                    refine ⟨hwfr, ?_, ?_⟩
                    · intro h; simp at h
                    · intro _
                      rw [hhtr]
                      simp only [height_node]; omega
      · have hcpos : 0 < cmp k key := by
          rcases lt_trichotomy (cmp k key) 0 with h | h | h
          · exact absurd h hcneg
          · exact absurd h hc0
          · exact h
        obtain ⟨ihw, ihtrue, ihfalse⟩ := ihr hwr
        rcases hir : insert_node k v r with ⟨r2, g⟩
        simp only [hir] at ihw ihtrue ihfalse
        cases g with
        | false =>
          have hres : insert_node k v (VTree.node bf key val l r)
              = (.node bf key val l r2, false) := by
            simp only [insert_node, if_neg hc0, if_neg hcneg, hir]
          rw [hres]
          have hh2 : height r2 = height r := ihfalse rfl
          refine ⟨?_, ?_, ?_⟩
          · rw [wfB_node_iff]
            exact ⟨by rw [hh2]; exact hbf, hb1, hb2, hwl, ihw⟩
          · intro h; simp at h
          · intro _; simp only [height_node, hh2]
        | true =>
          obtain ⟨hh2, hne⟩ := ihtrue rfl
          by_cases hbf0 : bf = 0
          · have hres : insert_node k v (VTree.node bf key val l r)
                = (.node 1 key val l r2, true) := by
              simp only [insert_node, if_neg hc0, if_neg hcneg, hir, if_pos hbf0]
            rw [hres]
            refine ⟨?_, ?_, ?_⟩
            · rw [wfB_node_iff]
              refine ⟨?_, by omega, by omega, hwl, ihw⟩
              rw [hh2]; omega
            · intro _
              refine ⟨?_, Or.inr (by simp [bfOf])⟩
              simp only [height_node]; omega
            · intro h; simp at h
          · by_cases hbfm1 : bf = -1
            · have hres : insert_node k v (VTree.node bf key val l r)
                  = (.node 0 key val l r2, false) := by
                simp only [insert_node, if_neg hc0, if_neg hcneg, hir, if_neg hbf0,
                  if_pos hbfm1]
              rw [hres]
              refine ⟨?_, ?_, ?_⟩
              · rw [wfB_node_iff]
                refine ⟨?_, by omega, by omega, hwl, ihw⟩
                rw [hh2]; omega
              · intro h; simp at h
              · intro _; simp only [height_node]; omega
            · have hbf1 : bf = 1 := by omega
              have hrh : height r = height l + 1 := by omega
              have hr2h : height r2 = height l + 2 := by omega
              have hrpos : height r ≠ 0 := by omega
              have hb2ne : bfOf r2 ≠ 0 := hne.resolve_left hrpos
              cases r2 with
              | nil => simp [bfOf] at hb2ne
              | node b2 k2 v2 r2l r2r =>
                simp only [bfOf] at hb2ne
                by_cases hb2pos : 0 < b2
                · have hres : insert_node k v (VTree.node bf key val l r)
                      = (rotate_left (.node bf key val l (.node b2 k2 v2 r2l r2r)), false) := by
                    simp only [insert_node, if_neg hc0, if_neg hcneg, hir, if_neg hbf0,
                      if_neg hbfm1, bfOf, if_pos hb2pos]
                  rw [hres]
                  obtain ⟨hwfr, hhtr⟩ :=
                    rotate_left_ok (b := bf) (k := key) (v := val) hwl ihw hr2h (by omega)
                  refine ⟨hwfr, ?_, ?_⟩
                  · intro h; simp at h
                  · intro _
                    rw [hhtr, if_neg hb2ne]
                    simp only [height_node]; omega
                · have hb2neg : b2 < 0 := by omega
                  have hwr2 := ihw
                  rw [wfB_node_iff] at hwr2
                  obtain ⟨hb2eq, _, _, hwr2l, hwr2r⟩ := hwr2
                  have hr2lh : height r2l = height l + 1 := by
                    simp only [height_node] at hr2h; omega
                  cases r2l with
                  | nil => simp only [height_nil] at hr2lh; omega
                  | node b3 k3 v3 l3 r3 =>
                    have hres : insert_node k v (VTree.node bf key val l r)
                        = (rotate_right_left
                            (.node bf key val l
                              (.node b2 k2 v2 (.node b3 k3 v3 l3 r3) r2r)), false) := by
                      simp only [insert_node, if_neg hc0, if_neg hcneg, hir, if_neg hbf0,
                        if_neg hbfm1, bfOf, if_neg hb2pos]
                    rw [hres]
                    obtain ⟨hwfr, hhtr⟩ :=
                      rotate_right_left_ok (b := bf) (k := key) (v := val)
                        hwl ihw hr2h hb2neg
                    refine ⟨hwfr, ?_, ?_⟩
                    · intro h; simp at h
                    · intro _
                      rw [hhtr]
                      simp only [height_node]; omega

theorem remove_min_ok :
    ∀ t : VTree α, wfB t = true →
      wfB (remove_min t).2.1 = true ∧
      ((remove_min t).2.2 = true → height (remove_min t).2.1 + 1 = height t) ∧
      ((remove_min t).2.2 = false → height (remove_min t).2.1 = height t) ∧
      (t ≠ .nil → ∃ p, (remove_min t).1 = some p) := by
  intro t
  induction t with
  | nil =>
    intro _
    refine ⟨rfl, ?_, ?_, ?_⟩
    · intro h; simp [remove_min] at h
    · intro _; rfl
    · intro h; exact absurd rfl h
  | node bf key val l r ihl _ =>
    intro hwf
    rw [wfB_node_iff] at hwf
    obtain ⟨hbf, hb1, hb2, hwl, hwr⟩ := hwf
    cases l with
    | nil =>
      refine ⟨hwr, ?_, ?_, ?_⟩
      · intro _; simp only [remove_min, height_node, height_nil]; omega
      · intro h; simp [remove_min] at h
      · intro _; exact ⟨(key, val), rfl⟩
    | node bl kl vl ll rl =>
      obtain ⟨ihw, ihtrue, ihfalse, ihsome⟩ := ihl hwl
      rcases hm : remove_min (VTree.node bl kl vl ll rl) with ⟨m, l2, s⟩
      simp only [hm] at ihw ihtrue ihfalse ihsome
      cases s with
      | true =>
        have hh2 : height l2 + 1 = height (VTree.node bl kl vl ll rl) := ihtrue rfl
        simp only [height_node] at hh2 hbf
        have hres : remove_min (VTree.node bf key val (VTree.node bl kl vl ll rl) r)
            = (m, (balance_up_left bf key val l2 r).1, (balance_up_left bf key val l2 r).2) := by
          simp only [remove_min, hm]
        rw [hres]
        obtain ⟨hwfb, hbt, hbfalse⟩ :=
          balance_up_left_ok (k := key) (v := val) ihw hwr (by omega) hb1 hb2
        refine ⟨hwfb, ?_, ?_, ?_⟩
        · intro ht
          have := hbt ht
          simp only [height_node]; omega
        · intro hf
          have := hbfalse hf
          simp only [height_node]; omega
        · intro _
          obtain ⟨p, hp⟩ := ihsome (by intro h; cases h)
          exact ⟨p, by rw [hp]⟩
      | false =>
        have hh2 : height l2 = height (VTree.node bl kl vl ll rl) := ihfalse rfl
        simp only [height_node] at hh2 hbf
        have hres : remove_min (VTree.node bf key val (VTree.node bl kl vl ll rl) r)
            = (m, .node bf key val l2 r, false) := by
          simp only [remove_min, hm]
        rw [hres]
        refine ⟨?_, ?_, ?_, ?_⟩
        · rw [wfB_node_iff]
          refine ⟨by omega, hb1, hb2, ihw, hwr⟩
        · intro h; simp at h
        · intro _; simp only [height_node]; omega
        · intro _
          obtain ⟨p, hp⟩ := ihsome (by intro h; cases h)
          exact ⟨p, by rw [hp]⟩

theorem remove_node_ok (k : Nat) :
    ∀ t : VTree α, wfB t = true →
      wfB (remove_node k t).1 = true ∧
      ((remove_node k t).2 = true → height (remove_node k t).1 + 1 = height t) ∧
      ((remove_node k t).2 = false → height (remove_node k t).1 = height t) := by
  intro t
  induction t with
  | nil =>
    intro _
    refine ⟨rfl, ?_, ?_⟩
    · intro h; simp [remove_node] at h
    · intro _; rfl
  | node bf key val l r ihl ihr =>
    intro hwf
    rw [wfB_node_iff] at hwf
    obtain ⟨hbf, hb1, hb2, hwl, hwr⟩ := hwf
    by_cases hcneg : cmp k key < 0
    · obtain ⟨ihw, ihtrue, ihfalse⟩ := ihl hwl
      rcases hrl : remove_node k l with ⟨l2, s⟩
      simp only [hrl] at ihw ihtrue ihfalse
      cases s with
      | true =>
        have hh2 : height l2 + 1 = height l := ihtrue rfl
        have hres : remove_node k (VTree.node bf key val l r)
            = balance_up_left bf key val l2 r := by
          simp only [remove_node, if_pos hcneg, hrl]
        rw [hres]
        obtain ⟨hwfb, hbt, hbfalse⟩ :=
          balance_up_left_ok (k := key) (v := val) ihw hwr (by omega) hb1 hb2
        refine ⟨hwfb, ?_, ?_⟩
        · intro ht
          have := hbt ht
          simp only [height_node]; omega
        · intro hf
          have := hbfalse hf
          simp only [height_node]; omega
      | false =>
        have hh2 : height l2 = height l := ihfalse rfl
        have hres : remove_node k (VTree.node bf key val l r)
            = (.node bf key val l2 r, false) := by
          simp only [remove_node, if_pos hcneg, hrl]
        rw [hres]
        refine ⟨?_, ?_, ?_⟩
        · rw [wfB_node_iff]
          exact ⟨by rw [hh2]; exact hbf, hb1, hb2, ihw, hwr⟩
        · intro h; simp at h
        · intro _; simp only [height_node]; rw [hh2]
    · by_cases hcpos : 0 < cmp k key
      · obtain ⟨ihw, ihtrue, ihfalse⟩ := ihr hwr
        rcases hrr : remove_node k r with ⟨r2, s⟩
        simp only [hrr] at ihw ihtrue ihfalse
        cases s with
        | true =>
          have hh2 : height r2 + 1 = height r := ihtrue rfl
          have hres : remove_node k (VTree.node bf key val l r)
              = balance_up_right bf key val l r2 := by
            simp only [remove_node, if_neg hcneg, if_pos hcpos, hrr]
          rw [hres]
          obtain ⟨hwfb, hbt, hbfalse⟩ :=
            balance_up_right_ok (k := key) (v := val) hwl ihw (by omega) hb1 hb2
          refine ⟨hwfb, ?_, ?_⟩
          · intro ht
            have := hbt ht
            simp only [height_node]; omega
          · intro hf
            have := hbfalse hf
            simp only [height_node]; omega
        | false =>
          have hh2 : height r2 = height r := ihfalse rfl
          have hres : remove_node k (VTree.node bf key val l r)
              = (.node bf key val l r2, false) := by
            simp only [remove_node, if_neg hcneg, if_pos hcpos, hrr]
          rw [hres]
          refine ⟨?_, ?_, ?_⟩
          · rw [wfB_node_iff]
            exact ⟨by rw [hh2]; exact hbf, hb1, hb2, hwl, ihw⟩
          · intro h; simp at h
          · intro _; simp only [height_node]; rw [hh2]
      · cases l with
        | nil =>
          cases r with
          | nil =>
            have hres : remove_node k (VTree.node bf key val VTree.nil VTree.nil)
                = (.nil, true) := by
              simp only [remove_node, if_neg hcneg, if_neg hcpos]
            rw [hres]
            refine ⟨rfl, ?_, ?_⟩
            · intro _; simp only [height_node, height_nil]; omega
            · intro h; simp at h
          | node br kr vr lr rr =>
            have hres : remove_node k (VTree.node bf key val VTree.nil (VTree.node br kr vr lr rr))
                = (.node br kr vr lr rr, true) := by
              simp only [remove_node, if_neg hcneg, if_neg hcpos]
            rw [hres]
            refine ⟨hwr, ?_, ?_⟩
            · intro _; simp only [height_node, height_nil]; omega
            · intro h; simp at h
        | node bl kl vl ll rl =>
          cases r with
          | nil =>
            have hres : remove_node k (VTree.node bf key val (VTree.node bl kl vl ll rl) VTree.nil)
                = (.node bl kl vl ll rl, true) := by
              simp only [remove_node, if_neg hcneg, if_neg hcpos]
            rw [hres]
            refine ⟨hwl, ?_, ?_⟩
            · intro _; simp only [height_node, height_nil]; omega
            · intro h; simp at h
          | node br kr vr lr rr =>
            obtain ⟨hmw, hmtrue, hmfalse, hmsome⟩ :=
              remove_min_ok (VTree.node br kr vr lr rr) hwr
            obtain ⟨p, hp⟩ := hmsome (by intro h; cases h)
            rcases hm : remove_min (VTree.node br kr vr lr rr) with ⟨m, r2, s⟩
            simp only [hm] at hmw hmtrue hmfalse hp
            rcases p with ⟨sk, sv⟩
            subst hp
            cases s with
            | true =>
              have hh2 : height r2 + 1 = height (VTree.node br kr vr lr rr) := hmtrue rfl
              simp only [height_node] at hh2 hbf
              have hres : remove_node k
                  (VTree.node bf key val (VTree.node bl kl vl ll rl) (VTree.node br kr vr lr rr))
                  = balance_up_right bf sk sv (VTree.node bl kl vl ll rl) r2 := by
                simp only [remove_node, if_neg hcneg, if_neg hcpos, hm]
              rw [hres]
              obtain ⟨hwfb, hbt, hbfalse⟩ :=
                balance_up_right_ok (k := sk) (v := sv) hwl hmw (by simp only [height_node]; omega) hb1 hb2
              refine ⟨hwfb, ?_, ?_⟩
              · intro ht
                have := hbt ht
                simp only [height_node] at this ⊢; omega
              · intro hf
                have := hbfalse hf
                simp only [height_node] at this ⊢; omega
            | false =>
              have hh2 : height r2 = height (VTree.node br kr vr lr rr) := hmfalse rfl
              simp only [height_node] at hh2 hbf
              have hres : remove_node k
                  (VTree.node bf key val (VTree.node bl kl vl ll rl) (VTree.node br kr vr lr rr))
                  = (.node bf sk sv (VTree.node bl kl vl ll rl) r2, false) := by
                simp only [remove_node, if_neg hcneg, if_neg hcpos, hm]
              rw [hres]
              refine ⟨?_, ?_, ?_⟩
              · rw [wfB_node_iff]
                refine ⟨by simp only [height_node]; omega, hb1, hb2, hwl, hmw⟩
              · intro h; simp at h
              · intro _; simp only [height_node]; omega

@[simp] lemma inorder_nil : inorder (VTree.nil : VTree α) = [] := rfl

@[simp] lemma inorder_node (bf : Int) (k : Nat) (v : α) (l r : VTree α) :
    inorder (VTree.node bf k v l r) = inorder l ++ k :: inorder r := rfl

lemma inorder_rotate_left (t : VTree α) : inorder (rotate_left t) = inorder t := by
  cases t with
  | nil => rfl
  | node bf k v l r =>
    cases r with
    | nil => rfl
    | node bfz kz vz t23 rz => simp [rotate_left]

lemma inorder_rotate_right (t : VTree α) : inorder (rotate_right t) = inorder t := by
  cases t with
  | nil => rfl
  | node bf k v l r =>
    cases l with
    | nil => rfl
    | node bfz kz vz lz t23 => simp [rotate_right]

lemma inorder_rotate_right_left (t : VTree α) : inorder (rotate_right_left t) = inorder t := by
  cases t with
  | nil => rfl
  | node bf k v l r =>
    cases r with
    | nil => rfl
    | node bfz kz vz y rz =>
      cases y with
      | nil => rfl
      | node bfy ky vy t2 t3 => simp [rotate_right_left]

lemma inorder_rotate_left_right (t : VTree α) : inorder (rotate_left_right t) = inorder t := by
  cases t with
  | nil => rfl
  | node bf k v l r =>
    cases l with
    | nil => rfl
    | node bfz kz vz lz y =>
      cases y with
      | nil => rfl
      | node bfy ky vy t3 t2 => simp [rotate_left_right]

lemma inorder_balance_up_left (bf : Int) (key : Nat) (v : α) (l2 r : VTree α) :
    inorder (balance_up_left bf key v l2 r).1 = inorder l2 ++ key :: inorder r := by
  unfold balance_up_left
  by_cases h1 : 0 < bf
  · simp only [if_pos h1]
    by_cases h2 : bfOf r < 0
    · simp [if_pos h2, inorder_rotate_right_left]
    · simp [if_neg h2, inorder_rotate_left]
  · by_cases h2 : bf = 0 <;> simp [h1, h2]

lemma inorder_balance_up_right (bf : Int) (key : Nat) (v : α) (l r2 : VTree α) :
    inorder (balance_up_right bf key v l r2).1 = inorder l ++ key :: inorder r2 := by
  unfold balance_up_right
  by_cases h1 : bf < 0
  · simp only [if_pos h1]
    by_cases h2 : 0 < bfOf l
    · simp [if_pos h2, inorder_rotate_left_right]
    · simp [if_neg h2, inorder_rotate_right]
  · by_cases h2 : bf = 0 <;> simp [h1, h2]

lemma remove_min_inorder :
    ∀ t : VTree α, t ≠ .nil →
      ∃ km vm, (remove_min t).1 = some (km, vm) ∧
        inorder t = km :: inorder (remove_min t).2.1 := by
  intro t
  induction t with
  | nil => intro h; exact absurd rfl h
  | node bf key val l r ihl _ =>
    intro _
    cases l with
    | nil => exact ⟨key, val, rfl, by simp [remove_min]⟩
    | node bl kl vl ll rl =>
      obtain ⟨km, vm, h1, h2⟩ := ihl (by intro h; cases h)
      rcases hm : remove_min (VTree.node bl kl vl ll rl) with ⟨m, l2, s⟩
      simp only [hm] at h1 h2
      cases s with
      | true =>
        refine ⟨km, vm, ?_, ?_⟩
        · simp only [remove_min, hm]; exact h1
        · simp only [remove_min, hm, inorder_balance_up_left, inorder_node, h2]
          simp
      | false =>
        refine ⟨km, vm, ?_, ?_⟩
        · simp only [remove_min, hm]; exact h1
        · simp only [remove_min, hm, inorder_node, h2]
          simp

lemma allK_iff (p : Nat → Bool) :
    ∀ t : VTree α, allK p t = true ↔ ∀ x ∈ inorder t, p x = true := by
  intro t
  induction t with
  | nil => simp [allK]
  | node bf k v l r ihl ihr =>
    simp only [allK, Bool.and_eq_true, ihl, ihr, inorder_node]
    constructor
    · rintro ⟨⟨hk, hl⟩, hr⟩ x hx
      rcases List.mem_append.mp hx with h | h
      · exact hl x h
      · rcases List.mem_cons.mp h with h | h
        · rw [h]; exact hk
        · exact hr x h
    · intro h
      refine ⟨⟨h k (by simp), fun x hx => h x (by simp [hx])⟩, fun x hx => h x (by simp [hx])⟩

lemma bst_node_iff {bf : Int} {k : Nat} {v : α} {l r : VTree α} :
    bst (VTree.node bf k v l r) = true ↔
      allK (fun x => decide (x < k)) l = true ∧ allK (fun x => decide (k < x)) r = true ∧
      bst l = true ∧ bst r = true := by
  simp only [bst, Bool.and_eq_true, and_assoc]

lemma bst_iff_pairwise : ∀ t : VTree α, bst t = true ↔ (inorder t).Pairwise (· < ·) := by
  intro t
  induction t with
  | nil => simp [bst]
  | node bf k v l r ihl ihr =>
    rw [bst_node_iff, ihl, ihr, inorder_node, List.pairwise_append]
    simp only [List.pairwise_cons, allK_iff, decide_eq_true_eq]
    constructor
    · rintro ⟨hal, har, hpl, hpr⟩
      refine ⟨hpl, ⟨har, hpr⟩, ?_⟩
      intro a ha b hb
      rcases List.mem_cons.mp hb with h | h
      · rw [h]; exact hal a ha
      · exact lt_trans (hal a ha) (har b h)
    · rintro ⟨hpl, ⟨har, hpr⟩, hcross⟩
      refine ⟨?_, har, hpl, hpr⟩
      intro a ha
      exact hcross a ha k (by simp)

lemma inorder_remove_node (k : Nat) :
    ∀ t : VTree α, bst t = true →
      inorder (remove_node k t).1 = (inorder t).filter (fun x => decide (x ≠ k)) := by
  intro t
  induction t with
  | nil => intro _; rfl
  | node bf key val l r ihl ihr =>
    intro hb
    rw [bst_node_iff] at hb
    obtain ⟨hal, har, hbl, hbr⟩ := hb
    rw [allK_iff] at hal har
    simp only [decide_eq_true_eq] at hal har
    by_cases hcneg : cmp k key < 0
    · have hkk : k < key := cmp_neg_iff.mp hcneg
      rcases hrl : remove_node k l with ⟨l2, s⟩
      have hl2 : inorder l2 = (inorder l).filter (fun x => decide (x ≠ k)) := by
        have := ihl hbl; rw [hrl] at this; exact this
      have hkeep : (key :: inorder r).filter (fun x => decide (x ≠ k)) = key :: inorder r := by
        rw [List.filter_eq_self]
        intro a ha
        rcases List.mem_cons.mp ha with h | h
        · simp [h]; omega
        · have := har a h; simp; omega
      have hsplit : (inorder (VTree.node bf key val l r)).filter (fun x => decide (x ≠ k))
          = (inorder l).filter (fun x => decide (x ≠ k)) ++ key :: inorder r := by
        rw [inorder_node, List.filter_append, hkeep]
      rw [hsplit]
      cases s with
      | true =>
        have hres : remove_node k (VTree.node bf key val l r)
            = balance_up_left bf key val l2 r := by
          simp only [remove_node, if_pos hcneg, hrl]
        rw [hres, inorder_balance_up_left, hl2]
      | false =>
        have hres : remove_node k (VTree.node bf key val l r)
            = (.node bf key val l2 r, false) := by
          simp only [remove_node, if_pos hcneg, hrl]
        rw [hres]
        simp only [inorder_node, hl2]
    · by_cases hcpos : 0 < cmp k key
      · have hkk : key < k := cmp_pos_iff.mp hcpos
        rcases hrr : remove_node k r with ⟨r2, s⟩
        have hr2 : inorder r2 = (inorder r).filter (fun x => decide (x ≠ k)) := by
          have := ihr hbr; rw [hrr] at this; exact this
        have hkeepl : (inorder l).filter (fun x => decide (x ≠ k)) = inorder l := by
          rw [List.filter_eq_self]
          intro a ha
          have := hal a ha; simp; omega
        have hkeepk : key ≠ k := by omega
        have hsplit : (inorder (VTree.node bf key val l r)).filter (fun x => decide (x ≠ k))
            = inorder l ++ key :: (inorder r).filter (fun x => decide (x ≠ k)) := by
          rw [inorder_node, List.filter_append, hkeepl]
          congr 1
          simp [List.filter_cons, hkeepk]
        rw [hsplit]
        cases s with
        | true =>
          have hres : remove_node k (VTree.node bf key val l r)
              = balance_up_right bf key val l r2 := by
            simp only [remove_node, if_neg hcneg, if_pos hcpos, hrr]
          rw [hres, inorder_balance_up_right, hr2]
        | false =>
          have hres : remove_node k (VTree.node bf key val l r)
              = (.node bf key val l r2, false) := by
            simp only [remove_node, if_neg hcneg, if_pos hcpos, hrr]
          rw [hres]
          simp only [inorder_node, hr2]
      · have hkk : k = key := by
          have h1 := cmp_neg_iff (a := k) (b := key)
          have h2 := cmp_pos_iff (a := k) (b := key)
          omega
        subst hkk
        have hkeepl : (inorder l).filter (fun x => decide (x ≠ k)) = inorder l := by
          rw [List.filter_eq_self]
          intro a ha
          have := hal a ha; simp; omega
        have hkeepr : (inorder r).filter (fun x => decide (x ≠ k)) = inorder r := by
          rw [List.filter_eq_self]
          intro a ha
          have := har a ha; simp; omega
        have hsplit : (inorder (VTree.node bf k val l r)).filter (fun x => decide (x ≠ k))
            = inorder l ++ inorder r := by
          rw [inorder_node, List.filter_append, hkeepl]
          congr 1
          simp [List.filter_cons, hkeepr]
          intro a ha
          have := har a ha
          omega
        rw [hsplit]
        have hcc : ¬ cmp k k < 0 := by rw [cmp_neg_iff]; omega
        have hcc2 : ¬ 0 < cmp k k := by rw [cmp_pos_iff]; omega
        cases l with
        | nil =>
          cases r with
          | nil =>
            have hres : remove_node k (VTree.node bf k val VTree.nil VTree.nil)
                = (.nil, true) := by
              simp only [remove_node, if_neg hcc, if_neg hcc2]
            rw [hres]; rfl
          | node br kr vr lr rr =>
            have hres : remove_node k
                (VTree.node bf k val VTree.nil (VTree.node br kr vr lr rr))
                = (.node br kr vr lr rr, true) := by
              simp only [remove_node, if_neg hcc, if_neg hcc2]
            rw [hres]; simp
        | node bl kl vl ll rl =>
          cases r with
          | nil =>
            have hres : remove_node k
                (VTree.node bf k val (VTree.node bl kl vl ll rl) VTree.nil)
                = (.node bl kl vl ll rl, true) := by
              simp only [remove_node, if_neg hcc, if_neg hcc2]
            rw [hres]; simp
          | node br kr vr lr rr =>
            obtain ⟨sk, sv, hsome, hinr⟩ :=
              remove_min_inorder (VTree.node br kr vr lr rr) (by intro h; cases h)
            rcases hm : remove_min (VTree.node br kr vr lr rr) with ⟨m, r2, s⟩
            simp only [hm] at hsome hinr
            subst hsome
            cases s with
            | true =>
              have hres : remove_node k
                  (VTree.node bf k val (VTree.node bl kl vl ll rl) (VTree.node br kr vr lr rr))
                  = balance_up_right bf sk sv (VTree.node bl kl vl ll rl) r2 := by
                simp only [remove_node, if_neg hcc, if_neg hcc2, hm]
              rw [hres, inorder_balance_up_right, hinr]
            | false =>
              have hres : remove_node k
                  (VTree.node bf k val (VTree.node bl kl vl ll rl) (VTree.node br kr vr lr rr))
                  = (.node bf sk sv (VTree.node bl kl vl ll rl) r2, false) := by
                simp only [remove_node, if_neg hcc, if_neg hcc2, hm]
              rw [hres]
              simp only [inorder_node, hinr]

lemma bst_remove_node (k : Nat) (t : VTree α) (h : bst t = true) :
    bst (remove_node k t).1 = true := by
  have hio := inorder_remove_node k t h
  rw [bst_iff_pairwise] at h ⊢
  rw [hio]
  exact h.sublist (List.filter_sublist _)

lemma find_key_isSome_iff (k : Nat) :
    ∀ t : VTree α, bst t = true → ((find_key k t).isSome = true ↔ k ∈ inorder t) := by
  intro t
  induction t with
  | nil => intro _; simp [find_key]
  | node bf key val l r ihl ihr =>
    intro hb
    rw [bst_node_iff] at hb
    obtain ⟨hal, har, hbl, hbr⟩ := hb
    rw [allK_iff] at hal har
    simp only [decide_eq_true_eq] at hal har
    by_cases hc0 : cmp k key = 0
    · have : k = key := cmp_eq_zero_iff.mp hc0
      subst this
      simp [find_key, hc0]
    · by_cases hcneg : cmp k key < 0
      · have hkk : k < key := cmp_neg_iff.mp hcneg
        have hres : find_key k (VTree.node bf key val l r) = find_key k l := by
          simp only [find_key, if_neg hc0, if_pos hcneg]
        rw [hres, ihl hbl, inorder_node]
        constructor
        · intro h; exact List.mem_append.mpr (Or.inl h)
        · intro h
          rcases List.mem_append.mp h with h | h
          · exact h
          · rcases List.mem_cons.mp h with h | h
            · omega
            · have := har k h; omega
      · have hkk : key < k := by
          have h1 := cmp_neg_iff (a := k) (b := key)
          have h2 := cmp_pos_iff (a := k) (b := key)
          have h3 := cmp_eq_zero_iff (a := k) (b := key)
          omega
        have hres : find_key k (VTree.node bf key val l r) = find_key k r := by
          simp only [find_key, if_neg hc0, if_neg hcneg]
        rw [hres, ihr hbr, inorder_node]
        constructor
        · intro h; exact List.mem_append.mpr (Or.inr (List.mem_cons.mpr (Or.inr h)))
        · intro h
          rcases List.mem_append.mp h with h | h
          · have := hal k h; omega
          · rcases List.mem_cons.mp h with h | h
            · omega
            · exact h

lemma find_key_remove_self (k : Nat) (t : VTree α) (h : bst t = true) :
    find_key k (remove_node k t).1 = none := by
  have hb2 := bst_remove_node k t h
  have hio := inorder_remove_node k t h
  rw [← Option.not_isSome_iff_eq_none]
  intro hs
  have := (find_key_isSome_iff k _ hb2).mp hs
  rw [hio] at this
  have := List.mem_filter.mp this
  simp at this

/-- Writing a new payload into the node with key `k` without touching
the tree structure (the in-place mutation of a found node's data
through its pinned page pointer). -/
def set_val (k : Nat) (v : α) : VTree α → VTree α
  | .nil => .nil
  | .node bf key val l r =>
    let c := cmp k key
    if c = 0 then .node bf key v l r
    else if c < 0 then .node bf key val (set_val k v l) r
    else .node bf key val l (set_val k v r)

lemma find_key_set_val_self (k : Nat) (v : α) :
    ∀ t : VTree α, find_key k (set_val k v t) = (find_key k t).map (fun _ => v) := by
  intro t
  induction t with
  | nil => rfl
  | node bf key val l r ihl ihr =>
    by_cases hc0 : cmp k key = 0
    · simp only [set_val, find_key, if_pos hc0]
      rfl
    · by_cases hcneg : cmp k key < 0
      · simp only [set_val, find_key, if_neg hc0, if_pos hcneg]
        exact ihl
      · simp only [set_val, find_key, if_neg hc0, if_neg hcneg]
        exact ihr

end VTree

open VTree in
/-- C2: Every tree operation of the store -- insert_node followed by
balance_down and remove_node followed by balance_up, including all four
rotation cases -- preserves the AVL invariant: at every node the stored
balance factor equals height(right) − height(left), lies in {-1,0,+1},
and the two subtree heights differ by at most one (all checked by
`wfB`). -/
theorem c2_avl_invariant_preserved {α : Type} (k : Nat) (v : α) (t : VTree α)
    (h : wfB t = true) :
    wfB (insert_node k v t).1 = true ∧ wfB (remove_node k t).1 = true :=
  ⟨(insert_node_ok k v t h).1, (remove_node_ok k t h).1⟩

open VTree in
/-- C2 witness: the theorem applied to a concrete three-node balanced
tree, inserting key 3 and removing key 5. -/
theorem c2_avl_invariant_preserved_witness :
    wfB ((.node 0 5 () (.node 0 2 () .nil .nil) (.node 0 8 () .nil .nil)) : VTree Unit)
      = true ∧
    (wfB (insert_node 3 ()
        ((.node 0 5 () (.node 0 2 () .nil .nil) (.node 0 8 () .nil .nil)) : VTree Unit)).1
      = true ∧
     wfB (remove_node 5
        ((.node 0 5 () (.node 0 2 () .nil .nil) (.node 0 8 () .nil .nil)) : VTree Unit)).1
      = true) :=
  ⟨by decide, c2_avl_invariant_preserved 3 ()
    (.node 0 5 () (.node 0 2 () .nil .nil) (.node 0 8 () .nil .nil)) (by decide)⟩

/-- All payloads of the tree satisfy `p`. -/
def VTree.allV {α : Type} (p : α → Bool) : VTree α → Bool
  | .nil => true
  | .node _ _ v l r => p v && VTree.allV p l && VTree.allV p r

lemma VTree.find_key_allV {α : Type} {p : α → Bool} {k : Nat} :
    ∀ {t : VTree α} {v : α}, VTree.find_key k t = some v → VTree.allV p t = true →
      p v = true := by
  intro t
  induction t with
  | nil => intro v h; cases h
  | node bf key val l r ihl ihr =>
    intro v hf ha
    simp only [VTree.allV, Bool.and_eq_true] at ha
    obtain ⟨⟨hv, hl⟩, hr⟩ := ha
    by_cases hc0 : VTree.cmp k key = 0
    · simp only [VTree.find_key, if_pos hc0] at hf
      cases hf; exact hv
    · by_cases hcneg : VTree.cmp k key < 0
      · simp only [VTree.find_key, if_neg hc0, if_pos hcneg] at hf
        exact ihl hf hl
      · simp only [VTree.find_key, if_neg hc0, if_neg hcneg] at hf
        exact ihr hf hr

/-! ## Key validation and the create/delete operations (C5, C6, C7, C10) -/

/-- is_invalid_avstor_key(key): `(key)->len > MAX_KEY_LEN` -- the only
key validation the operations perform. -/
def is_invalid_avstor_key (len : Nat) : Bool := decide (MAX_KEY_LEN < len)

/-- memchr(str, 0, szbuf): index of the first NUL byte among the first
szbuf bytes, none if absent. -/
def memchr0 : List Nat → Nat → Option Nat
  | _, 0 => none
  | [], _ => none
  | c :: cs, n + 1 => if c = 0 then some 0 else (memchr0 cs n).map (· + 1)

/-- strlen_l(str, szbuf): strnlen replacement; returns szbuf when no
NUL occurs within szbuf bytes. -/
def strlen_l (str : List Nat) (szbuf : Nat) : Nat :=
  match memchr0 str szbuf with
  | none => szbuf
  | some i => i

/-- The length gate of avstor_create_string and avstor_update_string:
`len = strlen_l(value, MAX_STRING_LEN + 1) + 1`, rejected with PARAM
iff `len == MAX_STRING_LEN + 1`.  The second component is the payload
size passed on to create_var_value / update_var_value and stored in the
node's vvar.length byte (trailing NUL included). -/
def avstor_create_string_gate (value : List Nat) : Option Nat × Nat :=
  let len := strlen_l value (MAX_STRING_LEN + 1) + 1
  (if len = MAX_STRING_LEN + 1 then some AVSTOR_PARAM else none, len)

/-- The fixed data of a node as far as delete is concerned: a key
node's two AVL root references (0 = null reference), a link node's
target offset, or any other value node. -/
inductive NData where
  | keyd (subkey_root value_root : Nat) : NData
  | link (target : Nat) : NData
  | plain : NData
deriving DecidableEq

/-- The state avstor_delete operates on: the selected AVL tree of the
parent (each node carrying its file offset and fixed data) and the
header's back-link tree (entries keyed by target offset, each carrying
its values tree of link entries keyed by link offset). -/
structure Store where
  tree : VTree (Nat × NData)
  root_links : VTree (VTree Unit)
deriving DecidableEq

/-- exists_link_to_node: find_key on the header's back-link tree keyed
by the node's own offset. -/
def exists_link_to_node (bl : VTree (VTree Unit)) (ofs : Nat) : Bool :=
  (VTree.find_key ofs bl).isSome

/-- delete_backlink: find the back-link entry keyed by the link's
target; delete the link's entry (keyed by the link node's offset) from
the entry's values tree; if that values tree is now empty, delete the
entry itself from the back-link tree. -/
def delete_backlink (bl : VTree (VTree Unit)) (target ofs : Nat) : VTree (VTree Unit) :=
  match VTree.find_key target bl with
  | none => bl
  | some vt =>
    let vt2 := (VTree.remove_node ofs vt).1
    if vt2 = .nil then (VTree.remove_node target bl).1
    else VTree.set_val target vt2 bl

/-- avstor_delete after the parent lookup: find the named node; fail
with INVOPER if it is a key with a nonempty subkey or value tree; fail
with INVOPER if any link targets it (back-link tree lookup); otherwise
delete the back-link first when the node is a link, then remove the
node. -/
def avstor_delete (s : Store) (k : Nat) : Nat × Store :=
  match VTree.find_key k s.tree with
  | none => (AVSTOR_NOTFOUND, s)
  | some (ofs, nd) =>
    if (match nd with
        | NData.keyd sr vr => decide (sr ≠ 0) || decide (vr ≠ 0)
        | _ => false) then
      (AVSTOR_INVOPER, s)
    else if exists_link_to_node s.root_links ofs then (AVSTOR_INVOPER, s)
    else
      (AVSTOR_OK,
       { tree := (VTree.remove_node k s.tree).1,
         root_links :=
           match nd with
           | NData.link target => delete_backlink s.root_links target ofs
           | _ => s.root_links })

/-- avstor_create_key after the parent lookup: validate the key
length; search the subtree; when the key already exists, return EXISTS
but still write the existing node's offset into *out_key; otherwise
insert a fresh key node.  `out0` is the prior content of the caller's
non-null *out_key; the returned Nat is its content afterwards. -/
def avstor_create_key (klen k : Nat) (tree : VTree (Nat × NData)) (newofs out0 : Nat) :
    Nat × VTree (Nat × NData) × Nat :=
  if is_invalid_avstor_key klen then (AVSTOR_PARAM, tree, out0)
  else
    match VTree.find_key k tree with
    | some (ofs, _) => (AVSTOR_EXISTS, tree, ofs)
    | none =>
      (AVSTOR_OK, (VTree.insert_node k (newofs, NData.keyd 0 0) tree).1, newofs)

/-- avstor_create_int32 after the parent lookup: same gate and search,
but on EXISTS the function throws before touching *out_value, leaving
it unmodified (create_var_value, create_fixed64_value and
avstor_create_link share this shape). -/
def avstor_create_int32 (klen k : Nat) (tree : VTree (Nat × NData)) (newofs out0 : Nat) :
    Nat × VTree (Nat × NData) × Nat :=
  if is_invalid_avstor_key klen then (AVSTOR_PARAM, tree, out0)
  else
    match VTree.find_key k tree with
    | some _ => (AVSTOR_EXISTS, tree, out0)
    | none => (AVSTOR_OK, (VTree.insert_node k (newofs, NData.plain) tree).1, newofs)

lemma delete_backlink_found {bl : VTree (VTree Unit)} {target ofs : Nat} {vt : VTree Unit}
    (h : VTree.find_key target bl = some vt) :
    delete_backlink bl target ofs
      = (if (VTree.remove_node ofs vt).1 = .nil then (VTree.remove_node target bl).1
         else VTree.set_val target (VTree.remove_node ofs vt).1 bl) := by
  unfold delete_backlink
  rw [h]

open VTree in
/-- C5: avstor_delete returns INVOPER and leaves the store unchanged
for a key node with any child keys or values and for any node that is
the target of a link (back-link tree lookup); when the deleted node is
a link, its back-link entry is removed in the same operation, and the
back-link parent key as well once its values tree becomes empty. -/
theorem c5_delete_protection (s : Store) (k : Nat)
    (hbl : bst s.root_links = true)
    (hinner : VTree.allV (fun vt => bst vt) s.root_links = true) :
    (∀ ofs sr vr, find_key k s.tree = some (ofs, NData.keyd sr vr) → sr ≠ 0 ∨ vr ≠ 0 →
        avstor_delete s k = (AVSTOR_INVOPER, s)) ∧
    (∀ ofs nd, find_key k s.tree = some (ofs, nd) →
        exists_link_to_node s.root_links ofs = true →
        (match nd with | NData.keyd sr vr => sr = 0 ∧ vr = 0 | _ => True) →
        avstor_delete s k = (AVSTOR_INVOPER, s)) ∧
    (∀ ofs target, find_key k s.tree = some (ofs, NData.link target) →
        exists_link_to_node s.root_links ofs = false →
        (avstor_delete s k).1 = AVSTOR_OK ∧
        (∀ vt, find_key target s.root_links = some vt →
          ((remove_node ofs vt).1 = VTree.nil →
              find_key target (avstor_delete s k).2.root_links = none) ∧
          ((remove_node ofs vt).1 ≠ VTree.nil →
              find_key target (avstor_delete s k).2.root_links
                = some (remove_node ofs vt).1 ∧
              find_key ofs (remove_node ofs vt).1 = none))) := by
  refine ⟨?_, ?_, ?_⟩
  · intro ofs sr vr hf hne
    have hcond : (decide (sr ≠ 0) || decide (vr ≠ 0)) = true := by
      rcases hne with h | h <;> simp [h]
    simp only [avstor_delete, hf, hcond, if_true]
  · intro ofs nd hf hex _
    simp only [avstor_delete, hf, hex]
    split_ifs <;> rfl
  · intro ofs target hf hex
    have hres : avstor_delete s k
        = (AVSTOR_OK,
           { tree := (remove_node k s.tree).1,
             root_links := delete_backlink s.root_links target ofs }) := by
      simp only [avstor_delete, hf, Bool.false_eq_true, if_false, hex]
    rw [hres]
    refine ⟨rfl, ?_⟩
    intro vt hvt
    have hvtb : bst vt = true := VTree.find_key_allV hvt hinner
    constructor
    · intro hnil
      show find_key target (delete_backlink s.root_links target ofs) = none
      rw [delete_backlink_found hvt, if_pos hnil]
      exact find_key_remove_self target s.root_links hbl
    · intro hnotnil
      constructor
      · show find_key target (delete_backlink s.root_links target ofs)
            = some (remove_node ofs vt).1
        rw [delete_backlink_found hvt, if_neg hnotnil, find_key_set_val_self, hvt]
        rfl
      · exact find_key_remove_self ofs vt hvtb

open VTree in
/-- C5 witness: a store holding a link node (offset 100, target 200)
and its back-link entry; the theorem applied there. -/
theorem c5_delete_protection_witness :
    bst ((.node 0 200 (.node 0 100 () .nil .nil) .nil .nil) : VTree (VTree Unit)) = true ∧
    VTree.allV (fun vt => bst vt)
      ((.node 0 200 (.node 0 100 () .nil .nil) .nil .nil) : VTree (VTree Unit)) = true ∧
    ((∀ ofs sr vr, find_key 1
        ((.node 0 1 (100, NData.link 200) .nil .nil) : VTree (Nat × NData))
          = some (ofs, NData.keyd sr vr) → sr ≠ 0 ∨ vr ≠ 0 →
        avstor_delete
          ⟨.node 0 1 (100, NData.link 200) .nil .nil,
           .node 0 200 (.node 0 100 () .nil .nil) .nil .nil⟩ 1
          = (AVSTOR_INVOPER,
             ⟨.node 0 1 (100, NData.link 200) .nil .nil,
              .node 0 200 (.node 0 100 () .nil .nil) .nil .nil⟩)) ∧
     (∀ ofs nd, find_key 1
        ((.node 0 1 (100, NData.link 200) .nil .nil) : VTree (Nat × NData))
          = some (ofs, nd) →
        exists_link_to_node
          ((.node 0 200 (.node 0 100 () .nil .nil) .nil .nil) : VTree (VTree Unit)) ofs
          = true →
        (match nd with | NData.keyd sr vr => sr = 0 ∧ vr = 0 | _ => True) →
        avstor_delete
          ⟨.node 0 1 (100, NData.link 200) .nil .nil,
           .node 0 200 (.node 0 100 () .nil .nil) .nil .nil⟩ 1
          = (AVSTOR_INVOPER,
             ⟨.node 0 1 (100, NData.link 200) .nil .nil,
              .node 0 200 (.node 0 100 () .nil .nil) .nil .nil⟩)) ∧
     (∀ ofs target, find_key 1
        ((.node 0 1 (100, NData.link 200) .nil .nil) : VTree (Nat × NData))
          = some (ofs, NData.link target) →
        exists_link_to_node
          ((.node 0 200 (.node 0 100 () .nil .nil) .nil .nil) : VTree (VTree Unit)) ofs
          = false →
        (avstor_delete
          ⟨.node 0 1 (100, NData.link 200) .nil .nil,
           .node 0 200 (.node 0 100 () .nil .nil) .nil .nil⟩ 1).1 = AVSTOR_OK ∧
        (∀ vt, find_key target
            ((.node 0 200 (.node 0 100 () .nil .nil) .nil .nil) : VTree (VTree Unit))
            = some vt →
          ((remove_node ofs vt).1 = VTree.nil →
              find_key target
                (avstor_delete
                  ⟨.node 0 1 (100, NData.link 200) .nil .nil,
                   .node 0 200 (.node 0 100 () .nil .nil) .nil .nil⟩ 1).2.root_links
                = none) ∧
          ((remove_node ofs vt).1 ≠ VTree.nil →
              find_key target
                (avstor_delete
                  ⟨.node 0 1 (100, NData.link 200) .nil .nil,
                   .node 0 200 (.node 0 100 () .nil .nil) .nil .nil⟩ 1).2.root_links
                = some (remove_node ofs vt).1 ∧
              find_key ofs (remove_node ofs vt).1 = none)))) :=
  ⟨by decide, by decide,
   c5_delete_protection
     ⟨.node 0 1 (100, NData.link 200) .nil .nil,
      .node 0 200 (.node 0 100 () .nil .nil) .nil .nil⟩ 1 (by decide) (by decide)⟩

open VTree in
/-- C6 counterexample: a zero-length key is not rejected --
avstor_create_key with key length 0 proceeds and returns OK, not
PARAM, contradicting the claim that every operation rejects empty
keys. -/
theorem c6_zero_length_key_not_rejected :
    (avstor_create_key 0 1 VTree.nil 4096 0).1 = AVSTOR_OK ∧
    (avstor_create_key 0 1 VTree.nil 4096 0).1 ≠ AVSTOR_PARAM := by decide

open VTree in
/-- C6 amended: the only key validation is `len > 240`: every key of
length at most 240 -- including length exactly 240 and the empty key --
is accepted, and every longer key fails with PARAM. -/
theorem c6_key_length_gate (klen k newofs out0 : Nat) :
    (avstor_create_key klen k VTree.nil newofs out0).1
      = (if MAX_KEY_LEN < klen then AVSTOR_PARAM else AVSTOR_OK) ∧
    is_invalid_avstor_key klen = decide (MAX_KEY_LEN < klen) := by
  refine ⟨?_, rfl⟩
  by_cases h : MAX_KEY_LEN < klen
  · simp [avstor_create_key, is_invalid_avstor_key, h]
  · simp [avstor_create_key, is_invalid_avstor_key, h, VTree.find_key]

set_option maxRecDepth 4000 in
/-- C7: the string length gate is off by one at the top: a string of
249 bytes (+NUL) passes, one of exactly 250 bytes fails with PARAM,
but a string of 251 or more non-NUL bytes slips through the
`len == MAX_STRING_LEN + 1` comparison (strlen_l saturates at 251, so
len = 252) and is stored with payload size 252 > MAX_STRING_LEN. -/
theorem c7_overlong_string_accepted :
    (avstor_create_string_gate (List.replicate 251 65 ++ [0])).1 = none ∧
    (avstor_create_string_gate (List.replicate 251 65 ++ [0])).2 = 252 ∧
    MAX_STRING_LEN < 252 ∧
    (avstor_create_string_gate (List.replicate 249 65 ++ [0])).1 = none ∧
    (avstor_create_string_gate (List.replicate 249 65 ++ [0])).2 = 250 ∧
    (avstor_create_string_gate (List.replicate 250 65 ++ [0])).1 = some AVSTOR_PARAM := by
  decide

open VTree in
/-- C10: when the key already exists, avstor_create_key returns EXISTS
and writes the existing node's offset into *out_key, while
avstor_create_int32 returns EXISTS leaving *out_value unmodified. -/
theorem c10_exists_out_param (klen k newofs out0 ofs : Nat) (nd : NData)
    (tree : VTree (Nat × NData))
    (hklen : klen ≤ MAX_KEY_LEN)
    (hfind : find_key k tree = some (ofs, nd)) :
    avstor_create_key klen k tree newofs out0 = (AVSTOR_EXISTS, tree, ofs) ∧
    avstor_create_int32 klen k tree newofs out0 = (AVSTOR_EXISTS, tree, out0) := by
  have hval : is_invalid_avstor_key klen = false := by
    simp [is_invalid_avstor_key]; omega
  constructor
  · simp only [avstor_create_key, hval, Bool.false_eq_true, if_false, hfind]
  · simp only [avstor_create_int32, hval, Bool.false_eq_true, if_false, hfind]

open VTree in
/-- C10 witness: the theorem applied to a one-node tree that already
holds key 7 at offset 4200. -/
theorem c10_exists_out_param_witness :
    (3 : Nat) ≤ MAX_KEY_LEN ∧
    find_key 7 ((.node 0 7 (4200, NData.plain) .nil .nil) : VTree (Nat × NData))
      = some (4200, NData.plain) ∧
    (avstor_create_key 3 7 (.node 0 7 (4200, NData.plain) .nil .nil) 8192 0
        = (AVSTOR_EXISTS, .node 0 7 (4200, NData.plain) .nil .nil, 4200) ∧
     avstor_create_int32 3 7 (.node 0 7 (4200, NData.plain) .nil .nil) 8192 0
        = (AVSTOR_EXISTS, .node 0 7 (4200, NData.plain) .nil .nil, 0)) :=
  ⟨by decide, by decide,
   c10_exists_out_param 3 7 8192 0 4200 NData.plain
     (.node 0 7 (4200, NData.plain) .nil .nil) (by decide) (by decide)⟩

/-! ## The in-order cursor (C8)

`avstor_inorder` carries an explicit stack of node offsets, a
descending flag, and no pins between calls.  The embedding replaces
offsets by the subtrees rooted at the pushed nodes; `inorder_next`'s
descend-and-push loop becomes `inorder_push_spine`. -/

section Cursor

open VTree

variable {α : Type}

def keyOf : VTree α → Nat
  | .nil => 0
  | .node _ k _ _ _ => k

def leftOf : VTree α → VTree α
  | .nil => .nil
  | .node _ _ _ l _ => l

def rightOf : VTree α → VTree α
  | .nil => .nil
  | .node _ _ _ _ r => r

/-- The while-loop of inorder_next: while the reference is non-null,
push the node and follow its left child (right child when
descending). -/
def inorder_push_spine (desc : Bool) : VTree α → List (VTree α) → List (VTree α)
  | .nil, st => st
  | .node bf k v l r, st =>
    if desc then inorder_push_spine desc r (.node bf k v l r :: st)
    else inorder_push_spine desc l (.node bf k v l r :: st)

/-- inorder_next(st, ofs, out_node): push the spine of ofs, then the
stack top (left in place, not popped) is the emitted node; NOTFOUND
with an emptied stack when nothing is left. -/
def inorder_next (desc : Bool) (st : List (VTree α)) (t : VTree α) :
    Nat × List (VTree α) × Option Nat :=
  match inorder_push_spine desc t st with
  | [] => (AVSTOR_NOTFOUND, [], none)
  | u :: st2 => (AVSTOR_OK, u :: st2, some (keyOf u))

/-- avstor_inorder_first with no seek key: inorder_next from the
subtree root with an empty stack. -/
def avstor_inorder_first_nokey (desc : Bool) (t : VTree α) :
    Nat × List (VTree α) × Option Nat :=
  inorder_next desc [] t

/-- avstor_inorder_next: NOTFOUND on an empty stack; otherwise pop the
top and run inorder_next on its right child (left when descending). -/
def avstor_inorder_next (desc : Bool) (st : List (VTree α)) :
    Nat × List (VTree α) × Option Nat :=
  match st with
  | [] => (AVSTOR_NOTFOUND, [], none)
  | u :: st2 => inorder_next desc st2 (if desc then leftOf u else rightOf u)

/-- find_node_for_inorder: descend comparing with the key, pushing
every node that is at-or-beyond the key in iteration direction
((is_descending ? -comp : comp) <= 0); stop with the node on
equality. -/
def find_node_for_inorder (desc : Bool) (k : Nat) :
    VTree α → List (VTree α) → Option (VTree α) × List (VTree α)
  | .nil, st => (none, st)
  | .node bf key v l r, st =>
    let comp := VTree.cmp k key
    let st2 := if (if desc then -comp else comp) ≤ 0
               then VTree.node bf key v l r :: st else st
    if comp = 0 then (some (.node bf key v l r), st2)
    else if comp < 0 then find_node_for_inorder desc k l st2
    else find_node_for_inorder desc k r st2

/-- avstor_inorder_first with a seek key: the found node, or the stack
top (the next node at-or-beyond the key), or NOTFOUND on an empty
stack. -/
def avstor_inorder_first_key (desc : Bool) (k : Nat) (t : VTree α) :
    Nat × List (VTree α) × Option Nat :=
  match find_node_for_inorder desc k t [] with
  | (some u, st) => (AVSTOR_OK, st, some (keyOf u))
  | (none, st) =>
    match st with
    | [] => (AVSTOR_NOTFOUND, [], none)
    | u :: st2 => (AVSTOR_OK, u :: st2, some (keyOf u))

/-- Drive avstor_inorder_next to exhaustion, collecting the emitted
keys. -/
def cursor_collect (desc : Bool) : Nat → List (VTree α) → List Nat
  | 0, _ => []
  | fuel + 1, st =>
    match avstor_inorder_next desc st with
    | (_, st2, some k) => k :: cursor_collect desc fuel st2
    | (_, _, none) => []

/-- The full emitted sequence: the node reported by
avstor_inorder_first (no key) followed by all avstor_inorder_next
outputs. -/
def cursor_run (desc : Bool) (fuel : Nat) (t : VTree α) : List Nat :=
  match avstor_inorder_first_nokey desc t with
  | (_, st, some k) => k :: cursor_collect desc fuel st
  | (_, _, none) => []

/-- What one stack entry still owes the iteration: its own key, then
its not-yet-visited child subtree in iteration order. -/
def entry_out (desc : Bool) (u : VTree α) : List Nat :=
  if desc then keyOf u :: (inorder (leftOf u)).reverse
  else keyOf u :: inorder (rightOf u)

/-- Everything the iteration will still emit from this stack. -/
def stack_flat (desc : Bool) (st : List (VTree α)) : List Nat :=
  (st.map (entry_out desc)).flatten

/-- Every stack entry is a real node. -/
def all_nodes (st : List (VTree α)) : Prop := ∀ u ∈ st, u ≠ VTree.nil

@[simp] lemma stack_flat_nil (desc : Bool) : stack_flat desc ([] : List (VTree α)) = [] := rfl

@[simp] lemma stack_flat_cons (desc : Bool) (u : VTree α) (st : List (VTree α)) :
    stack_flat desc (u :: st) = entry_out desc u ++ stack_flat desc st := rfl

lemma stack_flat_push_spine (desc : Bool) :
    ∀ (t : VTree α) (st : List (VTree α)),
      stack_flat desc (inorder_push_spine desc t st)
        = (if desc then (inorder t).reverse else inorder t) ++ stack_flat desc st := by
  intro t
  induction t with
  | nil => intro st; simp [inorder_push_spine]
  | node bf k v l r ihl ihr =>
    intro st
    cases desc with
    | false =>
      rw [show inorder_push_spine false (VTree.node bf k v l r) st
            = inorder_push_spine false l (.node bf k v l r :: st) from rfl, ihl]
      simp [entry_out, keyOf, rightOf]
    | true =>
      rw [show inorder_push_spine true (VTree.node bf k v l r) st
            = inorder_push_spine true r (.node bf k v l r :: st) from rfl, ihr]
      simp [entry_out, keyOf, leftOf, List.reverse_append]

lemma all_nodes_push_spine (desc : Bool) :
    ∀ (t : VTree α) (st : List (VTree α)), all_nodes st →
      all_nodes (inorder_push_spine desc t st) := by
  intro t
  induction t with
  | nil => intro st h; exact h
  | node bf k v l r ihl ihr =>
    intro st h
    have h2 : all_nodes (VTree.node bf k v l r :: st) := by
      intro u hu
      rcases List.mem_cons.mp hu with h3 | h3
      · rw [h3]; intro hc; cases hc
      · exact h u h3
    cases desc with
    | false =>
      rw [show inorder_push_spine false (VTree.node bf k v l r) st
            = inorder_push_spine false l (.node bf k v l r :: st) from rfl]
      exact ihl _ h2
    | true =>
      rw [show inorder_push_spine true (VTree.node bf k v l r) st
            = inorder_push_spine true r (.node bf k v l r :: st) from rfl]
      exact ihr _ h2

lemma entry_out_eq (desc : Bool) (u : VTree α) :
    entry_out desc u
      = keyOf u ::
        (if desc then (VTree.inorder (leftOf u)).reverse else VTree.inorder (rightOf u)) := by
  cases desc <;> rfl

lemma cursor_collect_eq (desc : Bool) :
    ∀ (fuel : Nat) (st : List (VTree α)), all_nodes st →
      (stack_flat desc st).length ≤ fuel + 1 →
      cursor_collect desc fuel st = (stack_flat desc st).drop 1 := by
  intro fuel
  induction fuel with
  | zero =>
    intro st _ hlen
    cases st with
    | nil => rfl
    | cons u st2 =>
      show ([] : List Nat) = _
      exact (List.drop_eq_nil_of_le hlen).symm
  | succ fuel ih =>
    intro st hn hlen
    cases st with
    | nil => rfl
    | cons u st2 =>
      have hpush := stack_flat_push_spine desc (if desc then leftOf u else rightOf u) st2
      have hdir : (if desc then (VTree.inorder (if desc then leftOf u else rightOf u)).reverse
            else VTree.inorder (if desc then leftOf u else rightOf u))
          = (if desc then (VTree.inorder (leftOf u)).reverse
             else VTree.inorder (rightOf u)) := by
        cases desc <;> rfl
      rw [hdir] at hpush
      have hflat : stack_flat desc (u :: st2)
          = keyOf u ::
            ((if desc then (VTree.inorder (leftOf u)).reverse
              else VTree.inorder (rightOf u)) ++ stack_flat desc st2) := by
        rw [stack_flat_cons, entry_out_eq]
        simp
      cases hm : inorder_push_spine desc (if desc then leftOf u else rightOf u) st2 with
      | nil =>
        rw [hm] at hpush
        have hD : ((if desc then (VTree.inorder (leftOf u)).reverse
              else VTree.inorder (rightOf u)) ++ stack_flat desc st2) = [] := by
          simp only [stack_flat_nil] at hpush
          exact hpush.symm
        have hres : cursor_collect desc (fuel + 1) (u :: st2) = [] := by
          simp only [cursor_collect, avstor_inorder_next, inorder_next, hm]
        rw [hres, hflat]
        simp [hD]
      | cons w st4 =>
        have hres : cursor_collect desc (fuel + 1) (u :: st2)
            = keyOf w :: cursor_collect desc fuel (w :: st4) := by
          simp only [cursor_collect, avstor_inorder_next, inorder_next, hm]
        have hn4 : all_nodes (w :: st4) := by
          rw [← hm]
          exact all_nodes_push_spine desc _ _ (fun x hx => hn x (by simp [hx]))
        have hflat4 : stack_flat desc (w :: st4)
            = (if desc then (VTree.inorder (leftOf u)).reverse
               else VTree.inorder (rightOf u)) ++ stack_flat desc st2 := by
          rw [← hm, hpush]
        have hlen4 : (stack_flat desc (w :: st4)).length ≤ fuel + 1 := by
          rw [hflat4]
          rw [hflat] at hlen
          simp only [List.length_cons] at hlen
          omega
        have hih := ih (w :: st4) hn4 hlen4
        have hheadw : stack_flat desc (w :: st4) = keyOf w :: (stack_flat desc (w :: st4)).drop 1 := by
          rw [stack_flat_cons, entry_out_eq]
          simp
        rw [hres, hih, hflat]
        simp only [List.drop_succ_cons, List.drop_zero]
        rw [← hflat4, hheadw]
        simp

lemma cursor_run_eq (desc : Bool) (t : VTree α) (fuel : Nat)
    (hfuel : (VTree.inorder t).length ≤ fuel + 1) :
    cursor_run desc fuel t
      = (if desc then (VTree.inorder t).reverse else VTree.inorder t) := by
  unfold cursor_run avstor_inorder_first_nokey inorder_next
  have hpush := stack_flat_push_spine desc t []
  have hnodes := all_nodes_push_spine desc t ([] : List (VTree α)) (fun u hu => absurd hu (by simp))
  cases hm : inorder_push_spine desc t [] with
  | nil =>
    rw [hm] at hpush
    simp only [stack_flat_nil, List.append_nil] at hpush
    rw [← hpush]
  | cons w st4 =>
    rw [hm] at hpush hnodes
    simp only [stack_flat_nil, List.append_nil] at hpush
    have hlen4 : (stack_flat desc (w :: st4)).length ≤ fuel + 1 := by
      rw [hpush]
      cases desc <;> simp <;> omega
    have hcol := cursor_collect_eq desc fuel (w :: st4) hnodes hlen4
    have hheadw : stack_flat desc (w :: st4)
        = keyOf w :: (stack_flat desc (w :: st4)).drop 1 := by
      rw [stack_flat_cons, entry_out_eq]
      simp
    show keyOf w :: cursor_collect desc fuel (w :: st4) = _
    rw [hcol, ← hpush, hheadw]
    simp

/-- The emitted sequence when the cursor is started with a seek key. -/
def cursor_run_key (desc : Bool) (k : Nat) (fuel : Nat) (t : VTree α) : List Nat :=
  match avstor_inorder_first_key desc k t with
  | (_, st, some k1) => k1 :: cursor_collect desc fuel st
  | (_, _, none) => []

lemma find_node_asc_eq (k : Nat) (bf : Int) (key : Nat) (v : α) (l r : VTree α)
    (st : List (VTree α)) :
    find_node_for_inorder false k (VTree.node bf key v l r) st
      = (if VTree.cmp k key = 0
         then (some (VTree.node bf key v l r),
               if VTree.cmp k key ≤ 0 then VTree.node bf key v l r :: st else st)
         else if VTree.cmp k key < 0
           then find_node_for_inorder false k l
                (if VTree.cmp k key ≤ 0 then VTree.node bf key v l r :: st else st)
           else find_node_for_inorder false k r
                (if VTree.cmp k key ≤ 0 then VTree.node bf key v l r :: st else st)) := rfl

lemma find_node_desc_eq (k : Nat) (bf : Int) (key : Nat) (v : α) (l r : VTree α)
    (st : List (VTree α)) :
    find_node_for_inorder true k (VTree.node bf key v l r) st
      = (if VTree.cmp k key = 0
         then (some (VTree.node bf key v l r),
               if -VTree.cmp k key ≤ 0 then VTree.node bf key v l r :: st else st)
         else if VTree.cmp k key < 0
           then find_node_for_inorder true k l
                (if -VTree.cmp k key ≤ 0 then VTree.node bf key v l r :: st else st)
           else find_node_for_inorder true k r
                (if -VTree.cmp k key ≤ 0 then VTree.node bf key v l r :: st else st)) := rfl

lemma seek_flat_asc (k : Nat) :
    ∀ (t : VTree α) (st : List (VTree α)), VTree.bst t = true →
      stack_flat false ((find_node_for_inorder false k t st).2)
        = (VTree.inorder t).filter (fun x => decide (k ≤ x)) ++ stack_flat false st ∧
      (all_nodes st → all_nodes (find_node_for_inorder false k t st).2) ∧
      (∀ u, (find_node_for_inorder false k t st).1 = some u →
        ∃ rest, (find_node_for_inorder false k t st).2 = u :: rest ∧ keyOf u = k) := by
  intro t
  induction t with
  | nil =>
    intro st _
    refine ⟨by simp [find_node_for_inorder], fun h => h, ?_⟩
    intro u hu
    cases hu
  | node bf key v l r ihl ihr =>
    intro st hb
    rw [VTree.bst_node_iff] at hb
    obtain ⟨hal, har, hbl, hbr⟩ := hb
    rw [VTree.allK_iff] at hal har
    simp only [decide_eq_true_eq] at hal har
    by_cases hc0 : VTree.cmp k key = 0
    · have hkk : k = key := VTree.cmp_eq_zero_iff.mp hc0
      have hres : find_node_for_inorder false k (VTree.node bf key v l r) st
          = (some (.node bf key v l r), .node bf key v l r :: st) := by
        rw [find_node_asc_eq, if_pos hc0, if_pos (show VTree.cmp k key ≤ 0 by omega)]
      rw [hres]
      refine ⟨?_, ?_, ?_⟩
      · have hfl : (VTree.inorder l).filter (fun x => decide (k ≤ x)) = [] := by
          rw [List.filter_eq_nil_iff]
          intro a ha
          have := hal a ha
          simp; omega
        have hfr : (VTree.inorder r).filter (fun x => decide (k ≤ x)) = VTree.inorder r := by
          rw [List.filter_eq_self]
          intro a ha
          have := har a ha
          simp; omega
        have hfk : (decide (k ≤ key)) = true := by simp; omega
        simp only [VTree.inorder_node, List.filter_append, hfl, List.filter_cons, hfk,
          if_true, hfr, stack_flat_cons, entry_out_eq]
        simp [rightOf, keyOf, hkk]
      · intro hn u hu
        rcases List.mem_cons.mp hu with h | h
        · rw [h]; intro hc; cases hc
        · exact hn u h
      · intro u hu
        cases hu
        exact ⟨st, rfl, hkk.symm⟩
    · by_cases hcneg : VTree.cmp k key < 0
      · have hkk : k < key := VTree.cmp_neg_iff.mp hcneg
        have hres : find_node_for_inorder false k (VTree.node bf key v l r) st
            = find_node_for_inorder false k l (.node bf key v l r :: st) := by
          rw [find_node_asc_eq, if_neg hc0, if_pos hcneg,
            if_pos (show VTree.cmp k key ≤ 0 by omega)]
        rw [hres]
        obtain ⟨ih1, ih2, ih3⟩ := ihl (VTree.node bf key v l r :: st) hbl
        refine ⟨?_, ?_, ih3⟩
        · rw [ih1]
          have hfr : (VTree.inorder r).filter (fun x => decide (k ≤ x)) = VTree.inorder r := by
            rw [List.filter_eq_self]
            intro a ha
            have := har a ha
            simp; omega
          have hfk : (decide (k ≤ key)) = true := by simp; omega
          simp only [VTree.inorder_node, List.filter_append, List.filter_cons, hfk, if_true,
            hfr, stack_flat_cons, entry_out_eq]
          simp [rightOf, keyOf]
        · intro hn
          refine ih2 ?_
          intro u hu
          rcases List.mem_cons.mp hu with h | h
          · rw [h]; intro hc; cases hc
          · exact hn u h
      · have hkk : key < k := by
          have h1 := VTree.cmp_neg_iff (a := k) (b := key)
          have h2 := VTree.cmp_pos_iff (a := k) (b := key)
          have h3 := VTree.cmp_eq_zero_iff (a := k) (b := key)
          omega
        have hcpos : 0 < VTree.cmp k key := VTree.cmp_pos_iff.mpr hkk
        have hres : find_node_for_inorder false k (VTree.node bf key v l r) st
            = find_node_for_inorder false k r st := by
          rw [find_node_asc_eq, if_neg hc0, if_neg hcneg,
            if_neg (show ¬ VTree.cmp k key ≤ 0 by omega)]
        rw [hres]
        obtain ⟨ih1, ih2, ih3⟩ := ihr st hbr
        refine ⟨?_, ih2, ih3⟩
        rw [ih1]
        have hfl : (VTree.inorder l).filter (fun x => decide (k ≤ x)) = [] := by
          rw [List.filter_eq_nil_iff]
          intro a ha
          have := hal a ha
          simp; omega
        have hfk : (decide (k ≤ key)) = false := by simp; omega
        simp only [VTree.inorder_node, List.filter_append, hfl, List.filter_cons, hfk]
        simp

lemma seek_flat_desc (k : Nat) :
    ∀ (t : VTree α) (st : List (VTree α)), VTree.bst t = true →
      stack_flat true ((find_node_for_inorder true k t st).2)
        = (VTree.inorder t).reverse.filter (fun x => decide (x ≤ k)) ++ stack_flat true st ∧
      (all_nodes st → all_nodes (find_node_for_inorder true k t st).2) ∧
      (∀ u, (find_node_for_inorder true k t st).1 = some u →
        ∃ rest, (find_node_for_inorder true k t st).2 = u :: rest ∧ keyOf u = k) := by
  intro t
  induction t with
  | nil =>
    intro st _
    refine ⟨by simp [find_node_for_inorder], fun h => h, ?_⟩
    intro u hu
    cases hu
  | node bf key v l r ihl ihr =>
    intro st hb
    rw [VTree.bst_node_iff] at hb
    obtain ⟨hal, har, hbl, hbr⟩ := hb
    rw [VTree.allK_iff] at hal har
    simp only [decide_eq_true_eq] at hal har
    have hrev : (VTree.inorder (VTree.node bf key v l r)).reverse
        = (VTree.inorder r).reverse ++ key :: (VTree.inorder l).reverse := by
      simp [List.reverse_append]
    by_cases hc0 : VTree.cmp k key = 0
    · have hkk : k = key := VTree.cmp_eq_zero_iff.mp hc0
      have hres : find_node_for_inorder true k (VTree.node bf key v l r) st
          = (some (.node bf key v l r), .node bf key v l r :: st) := by
        rw [find_node_desc_eq, if_pos hc0, if_pos (show -VTree.cmp k key ≤ 0 by omega)]
      rw [hres]
      refine ⟨?_, ?_, ?_⟩
      · have hfr : ((VTree.inorder r).reverse).filter (fun x => decide (x ≤ k)) = [] := by
          rw [List.filter_eq_nil_iff]
          intro a ha
          have := har a (List.mem_reverse.mp ha)
          simp; omega
        have hfl : ((VTree.inorder l).reverse).filter (fun x => decide (x ≤ k))
            = (VTree.inorder l).reverse := by
          rw [List.filter_eq_self]
          intro a ha
          have := hal a (List.mem_reverse.mp ha)
          simp; omega
        have hfk : (decide (key ≤ k)) = true := by simp; omega
        rw [hrev]
        simp only [List.filter_append, hfr, List.filter_cons, hfk, if_true, hfl,
          stack_flat_cons, entry_out_eq]
        simp [leftOf, keyOf, hkk]
      · intro hn u hu
        rcases List.mem_cons.mp hu with h | h
        · rw [h]; intro hc; cases hc
        · exact hn u h
      · intro u hu
        cases hu
        exact ⟨st, rfl, hkk.symm⟩
    · by_cases hcneg : VTree.cmp k key < 0
      · have hkk : k < key := VTree.cmp_neg_iff.mp hcneg
        have hres : find_node_for_inorder true k (VTree.node bf key v l r) st
            = find_node_for_inorder true k l st := by
          rw [find_node_desc_eq, if_neg hc0, if_pos hcneg,
            if_neg (show ¬ -VTree.cmp k key ≤ 0 by omega)]
        rw [hres]
        obtain ⟨ih1, ih2, ih3⟩ := ihl st hbl
        refine ⟨?_, ih2, ih3⟩
        rw [ih1, hrev]
        have hfr : ((VTree.inorder r).reverse).filter (fun x => decide (x ≤ k)) = [] := by
          rw [List.filter_eq_nil_iff]
          intro a ha
          have := har a (List.mem_reverse.mp ha)
          simp; omega
        have hfk : (decide (key ≤ k)) = false := by simp; omega
        simp only [List.filter_append, hfr, List.filter_cons, hfk]
        simp
      · have hkk : key < k := by
          have h1 := VTree.cmp_neg_iff (a := k) (b := key)
          have h2 := VTree.cmp_pos_iff (a := k) (b := key)
          have h3 := VTree.cmp_eq_zero_iff (a := k) (b := key)
          omega
        have hcpos : 0 < VTree.cmp k key := VTree.cmp_pos_iff.mpr hkk
        have hres : find_node_for_inorder true k (VTree.node bf key v l r) st
            = find_node_for_inorder true k r (.node bf key v l r :: st) := by
          rw [find_node_desc_eq, if_neg hc0, if_neg hcneg,
            if_pos (show -VTree.cmp k key ≤ 0 by omega)]
        rw [hres]
        obtain ⟨ih1, ih2, ih3⟩ := ihr (VTree.node bf key v l r :: st) hbr
        refine ⟨?_, ?_, ih3⟩
        · rw [ih1, hrev]
          have hfl : ((VTree.inorder l).reverse).filter (fun x => decide (x ≤ k))
              = (VTree.inorder l).reverse := by
            rw [List.filter_eq_self]
            intro a ha
            have := hal a (List.mem_reverse.mp ha)
            simp; omega
          have hfk : (decide (key ≤ k)) = true := by simp; omega
          simp only [List.filter_append, List.filter_cons, hfk, if_true, hfl,
            stack_flat_cons, entry_out_eq]
          simp [leftOf, keyOf]
        · intro hn
          refine ih2 ?_
          intro u hu
          rcases List.mem_cons.mp hu with h | h
          · rw [h]; intro hc; cases hc
          · exact hn u h

lemma stack_flat_head (desc : Bool) (u : VTree α) (rest : List (VTree α)) :
    stack_flat desc (u :: rest) = keyOf u :: (stack_flat desc (u :: rest)).drop 1 := by
  rw [stack_flat_cons, entry_out_eq]
  simp

lemma first_key_asc (k : Nat) (t : VTree α) (hb : VTree.bst t = true) (fuel : Nat)
    (hfuel : (VTree.inorder t).length ≤ fuel + 1) :
    cursor_run_key false k fuel t
      = (VTree.inorder t).filter (fun x => decide (k ≤ x)) ∧
    (avstor_inorder_first_key false k t).1
      = (if (VTree.inorder t).filter (fun x => decide (k ≤ x)) = []
         then AVSTOR_NOTFOUND else AVSTOR_OK) ∧
    (avstor_inorder_first_key false k t).2.2
      = ((VTree.inorder t).filter (fun x => decide (k ≤ x))).head? := by
  obtain ⟨hflat, hnodes, hfound⟩ := seek_flat_asc k t [] hb
  have hn2 := hnodes (fun u hu => absurd hu (by simp))
  simp only [stack_flat_nil, List.append_nil] at hflat
  have hlenf : ((VTree.inorder t).filter (fun x => decide (k ≤ x))).length ≤ fuel + 1 :=
    le_trans (List.length_filter_le _ _) hfuel
  rcases hF : find_node_for_inorder false k t [] with ⟨res, st⟩
  simp only [hF] at hflat hn2 hfound
  cases res with
  | some u =>
    obtain ⟨rest, hst, _⟩ := hfound u rfl
    subst hst
    have h1 : avstor_inorder_first_key false k t = (AVSTOR_OK, u :: rest, some (keyOf u)) := by
      simp only [avstor_inorder_first_key, hF]
    have hcol := cursor_collect_eq false fuel (u :: rest) hn2 (by rw [hflat]; exact hlenf)
    have hrun : cursor_run_key false k fuel t = keyOf u :: cursor_collect false fuel (u :: rest) := by
      simp only [cursor_run_key, h1]
    rw [hrun, hcol, ← hflat, ← stack_flat_head]
    refine ⟨rfl, ?_, ?_⟩
    · rw [h1, stack_flat_cons, entry_out_eq]
      simp
    · rw [h1, stack_flat_head]
      simp
  | none =>
    cases st with
    | nil =>
      have h1 : avstor_inorder_first_key false k t = (AVSTOR_NOTFOUND, [], none) := by
        simp only [avstor_inorder_first_key, hF]
      have hemp : (VTree.inorder t).filter (fun x => decide (k ≤ x)) = [] := by
        rw [← hflat]; rfl
      rw [hemp]
      refine ⟨?_, ?_, ?_⟩
      · simp only [cursor_run_key, h1]
      · rw [h1]; simp
      · rw [h1]; simp
    | cons u rest =>
      have h1 : avstor_inorder_first_key false k t = (AVSTOR_OK, u :: rest, some (keyOf u)) := by
        simp only [avstor_inorder_first_key, hF]
      have hcol := cursor_collect_eq false fuel (u :: rest) hn2 (by rw [hflat]; exact hlenf)
      have hrun : cursor_run_key false k fuel t
          = keyOf u :: cursor_collect false fuel (u :: rest) := by
        simp only [cursor_run_key, h1]
      rw [hrun, hcol, ← hflat, ← stack_flat_head]
      refine ⟨rfl, ?_, ?_⟩
      · rw [h1, stack_flat_cons, entry_out_eq]
        simp
      · rw [h1, stack_flat_head]
        simp

lemma first_key_desc (k : Nat) (t : VTree α) (hb : VTree.bst t = true) (fuel : Nat)
    (hfuel : (VTree.inorder t).length ≤ fuel + 1) :
    cursor_run_key true k fuel t
      = (VTree.inorder t).reverse.filter (fun x => decide (x ≤ k)) ∧
    (avstor_inorder_first_key true k t).1
      = (if (VTree.inorder t).reverse.filter (fun x => decide (x ≤ k)) = []
         then AVSTOR_NOTFOUND else AVSTOR_OK) ∧
    (avstor_inorder_first_key true k t).2.2
      = ((VTree.inorder t).reverse.filter (fun x => decide (x ≤ k))).head? := by
  obtain ⟨hflat, hnodes, hfound⟩ := seek_flat_desc k t [] hb
  have hn2 := hnodes (fun u hu => absurd hu (by simp))
  simp only [stack_flat_nil, List.append_nil] at hflat
  have hlenf : ((VTree.inorder t).reverse.filter (fun x => decide (x ≤ k))).length ≤ fuel + 1 := by
    refine le_trans (le_trans (List.length_filter_le _ _) ?_) hfuel
    simp
  rcases hF : find_node_for_inorder true k t [] with ⟨res, st⟩
  simp only [hF] at hflat hn2 hfound
  cases res with
  | some u =>
    obtain ⟨rest, hst, _⟩ := hfound u rfl
    subst hst
    have h1 : avstor_inorder_first_key true k t = (AVSTOR_OK, u :: rest, some (keyOf u)) := by
      simp only [avstor_inorder_first_key, hF]
    have hcol := cursor_collect_eq true fuel (u :: rest) hn2 (by rw [hflat]; exact hlenf)
    have hrun : cursor_run_key true k fuel t = keyOf u :: cursor_collect true fuel (u :: rest) := by
      simp only [cursor_run_key, h1]
    rw [hrun, hcol, ← hflat, ← stack_flat_head]
    refine ⟨rfl, ?_, ?_⟩
    · rw [h1, stack_flat_cons, entry_out_eq]
      simp
    · rw [h1, stack_flat_head]
      simp
  | none =>
    cases st with
    | nil =>
      have h1 : avstor_inorder_first_key true k t = (AVSTOR_NOTFOUND, [], none) := by
        simp only [avstor_inorder_first_key, hF]
      have hemp : (VTree.inorder t).reverse.filter (fun x => decide (x ≤ k)) = [] := by
        rw [← hflat]; rfl
      rw [hemp]
      refine ⟨?_, ?_, ?_⟩
      · simp only [cursor_run_key, h1]
      · rw [h1]; simp
      · rw [h1]; simp
    | cons u rest =>
      have h1 : avstor_inorder_first_key true k t = (AVSTOR_OK, u :: rest, some (keyOf u)) := by
        simp only [avstor_inorder_first_key, hF]
      have hcol := cursor_collect_eq true fuel (u :: rest) hn2 (by rw [hflat]; exact hlenf)
      have hrun : cursor_run_key true k fuel t
          = keyOf u :: cursor_collect true fuel (u :: rest) := by
        simp only [cursor_run_key, h1]
      rw [hrun, hcol, ← hflat, ← stack_flat_head]
      refine ⟨rfl, ?_, ?_⟩
      · rw [h1, stack_flat_cons, entry_out_eq]
        simp
      · rw [h1, stack_flat_head]
        simp

end Cursor

open VTree in
/-- C8: For every BST-ordered tree, the cursor started by
avstor_inorder_first and advanced by avstor_inorder_next emits exactly
the tree's keys in ascending comparator order (the in-order sequence,
which is strictly sorted), the DESCENDING flag yields exactly the
reverse order, and an exhausted cursor returns NOTFOUND.  With a seek
key the cursor starts at the node equal to the key if present and
otherwise at the smallest node greater (ascending) or the largest node
smaller (descending), returning NOTFOUND when no such node exists; the
keys it goes on to emit are exactly those at-or-beyond the seek key. -/
theorem c8_inorder_cursor {α : Type} (t : VTree α) (hb : bst t = true) :
    (∀ fuel, (inorder t).length ≤ fuel + 1 → cursor_run false fuel t = inorder t) ∧
    (∀ fuel, (inorder t).length ≤ fuel + 1 →
      cursor_run true fuel t = (inorder t).reverse) ∧
    (inorder t).Pairwise (· < ·) ∧
    avstor_inorder_next false ([] : List (VTree α)) = (AVSTOR_NOTFOUND, [], none) ∧
    avstor_inorder_next true ([] : List (VTree α)) = (AVSTOR_NOTFOUND, [], none) ∧
    (∀ k fuel, (inorder t).length ≤ fuel + 1 →
      cursor_run_key false k fuel t = (inorder t).filter (fun x => decide (k ≤ x)) ∧
      (avstor_inorder_first_key false k t).1
        = (if (inorder t).filter (fun x => decide (k ≤ x)) = []
           then AVSTOR_NOTFOUND else AVSTOR_OK) ∧
      (avstor_inorder_first_key false k t).2.2
        = ((inorder t).filter (fun x => decide (k ≤ x))).head?) ∧
    (∀ k fuel, (inorder t).length ≤ fuel + 1 →
      cursor_run_key true k fuel t
        = (inorder t).reverse.filter (fun x => decide (x ≤ k)) ∧
      (avstor_inorder_first_key true k t).1
        = (if (inorder t).reverse.filter (fun x => decide (x ≤ k)) = []
           then AVSTOR_NOTFOUND else AVSTOR_OK) ∧
      (avstor_inorder_first_key true k t).2.2
        = ((inorder t).reverse.filter (fun x => decide (x ≤ k))).head?) := by
  refine ⟨?_, ?_, ?_, rfl, rfl, ?_, ?_⟩
  · intro fuel hfuel
    simpa using cursor_run_eq false t fuel hfuel
  · intro fuel hfuel
    simpa using cursor_run_eq true t fuel hfuel
  · exact (bst_iff_pairwise t).mp hb
  · intro k fuel hfuel
    exact first_key_asc k t hb fuel hfuel
  · intro k fuel hfuel
    exact first_key_desc k t hb fuel hfuel

open VTree in
/-- C8 witness: the theorem applied to a concrete three-key tree. -/
theorem c8_inorder_cursor_witness :
    bst ((.node 0 5 () (.node 0 2 () .nil .nil) (.node 0 8 () .nil .nil)) : VTree Unit)
      = true ∧
    cursor_run false 3
        ((.node 0 5 () (.node 0 2 () .nil .nil) (.node 0 8 () .nil .nil)) : VTree Unit)
      = [2, 5, 8] :=
  ⟨by decide,
   by
    have h := (c8_inorder_cursor
      ((.node 0 5 () (.node 0 2 () .nil .nil) (.node 0 8 () .nil .nil)) : VTree Unit)
      (by decide)).1 3 (by decide)
    rw [h]
    decide⟩

/-! ## Page cache state, commit and rollback (C1, C3)

The cache is rows of items; an item maps a file offset (0 = available)
to a page frame; the header page lives outside the rows with a shadow
copy (`old_header`) refreshed by commit and restored by rollback.
Writes are recorded as an event trace so that ordering (header written
last, fsync at the end) is visible. -/

/-- An in-memory page frame: file offset, dirty flag (PAGE_DIRTY of the
status byte), pin count, page bytes (4-byte checksum field leading). -/
structure Frame where
  page_offset : Nat
  dirty : Bool
  lock_count : Int
  body : List Nat
deriving DecidableEq

/-- A cache item: its frame (none = no frame in this slot) and the
mapped file offset (0 = available). -/
structure Item where
  frame : Option Frame
  offset : Nat
deriving DecidableEq

/-- The page cache plus the always-resident header and shadow header. -/
structure CacheState where
  rows : List (List Item)
  header : Frame
  old_header : Frame
deriving DecidableEq

/-- The state the commit/rollback path sees: cache plus on-disk page
content by page offset. -/
structure DbState where
  cache : CacheState
  disk : Nat → List Nat

/-- An I/O event. -/
inductive Ev where
  | write (ofs : Nat) (body : List Nat) : Ev
  | fsync : Ev
deriving DecidableEq

/-- Store a 32-bit checksum value into the page's leading checksum
field (little endian bytes). -/
def put_checksum (body : List Nat) (ck : Nat) : List Nat :=
  [ck % 256, ck / 256 % 256, ck / 65536 % 256, ck / 16777216 % 256] ++ body.drop 4

/-- The page image `update_page_checksum` produces: checksum over the
page with the field zeroed, stored back into the field. -/
def checksummed (body : List Nat) : List Nat :=
  put_checksum body (update_page_checksum body)

/-- write_page: nothing for a clean page; otherwise clear the dirty
bit, recompute the checksum, and write positionally -- re-setting the
dirty bit and reporting IOERR when the write fails (`wfail` says which
offsets fail). -/
def write_page (wfail : Nat → Bool) (f : Frame) : Nat × Frame × List Ev :=
  if f.dirty then
    let f1 : Frame := { f with dirty := false, body := checksummed f.body }
    if wfail f.page_offset then
      (AVSTOR_IOERR, { f1 with dirty := true }, [])
    else
      (AVSTOR_OK, f1, [Ev.write f1.page_offset f1.body])
  else (AVSTOR_OK, f, [])

/-- The per-row item loop of avstor_commit: stop at the first frameless
slot, abort on the first write_page failure. -/
def commit_items (wfail : Nat → Bool) : List Item → Nat × List Item × List Ev
  | [] => (AVSTOR_OK, [], [])
  | item :: rest =>
    match item.frame with
    | none => (AVSTOR_OK, item :: rest, [])
    | some f =>
      let w := write_page wfail f
      if w.1 = AVSTOR_OK then
        let c := commit_items wfail rest
        (c.1, { item with frame := some w.2.1 } :: c.2.1, w.2.2 ++ c.2.2)
      else (w.1, { item with frame := some w.2.1 } :: rest, w.2.2)

/-- The row loop of avstor_commit. -/
def commit_rows (wfail : Nat → Bool) : List (List Item) → Nat × List (List Item) × List Ev
  | [] => (AVSTOR_OK, [], [])
  | row :: rows =>
    let c := commit_items wfail row
    if c.1 = AVSTOR_OK then
      let cs := commit_rows wfail rows
      (cs.1, c.2.1 :: cs.2.1, c.2.2 ++ cs.2.2)
    else (c.1, c.2.1 :: rows, c.2.2)

/-- Replay a trace of events onto the disk. -/
def apply_ev (d : Nat → List Nat) : Ev → Nat → List Nat
  | Ev.write ofs body => fun o => if o = ofs then body else d o
  | Ev.fsync => d

def apply_trace (d : Nat → List Nat) : List Ev → Nat → List Nat
  | [] => d
  | e :: es => apply_trace (apply_ev d e) es

/-- avstor_commit: write every dirty cached page row by row, then the
header page, then fsync when `flush` was requested, and on success copy
the in-memory header over the shadow header.  Any failure aborts with
that error (the TRY/CATCH of the source). -/
def avstor_commit (wfail : Nat → Bool) (fsync_ok : Bool) (db : DbState) (flush : Bool) :
    Nat × DbState × List Ev :=
  let c := commit_rows wfail db.cache.rows
  if c.1 ≠ AVSTOR_OK then
    (c.1,
     { cache := { db.cache with rows := c.2.1 }, disk := apply_trace db.disk c.2.2 },
     c.2.2)
  else
    let w := write_page wfail db.cache.header
    let tr := c.2.2 ++ w.2.2
    if w.1 ≠ AVSTOR_OK then
      (w.1,
       { cache := { db.cache with rows := c.2.1, header := w.2.1 },
         disk := apply_trace db.disk tr },
       tr)
    else if flush && !fsync_ok then
      (AVSTOR_IOERR,
       { cache := { db.cache with rows := c.2.1, header := w.2.1 },
         disk := apply_trace db.disk (tr ++ [Ev.fsync]) },
       tr ++ [Ev.fsync])
    else
      (AVSTOR_OK,
       { cache := { rows := c.2.1, header := w.2.1, old_header := w.2.1 },
         disk := apply_trace db.disk (tr ++ if flush then [Ev.fsync] else []) },
       tr ++ if flush then [Ev.fsync] else [])

/-- The dense-prefix layout invariant of a cache row: no frame-carrying
slot follows a frameless one (lookup and commit both stop at the first
frameless slot). -/
def denseb : List Item → Bool
  | [] => true
  | item :: rest =>
    match item.frame with
    | none => rest.all (fun it => it.frame == none)
    | some _ => denseb rest

/-- The write events commit owes one row: one positional write of the
checksummed image per dirty frame of the dense prefix, in order. -/
def row_writes : List Item → List Ev
  | [] => []
  | item :: rest =>
    match item.frame with
    | none => []
    | some f =>
      (if f.dirty then [Ev.write f.page_offset (checksummed f.body)] else [])
        ++ row_writes rest

/-- The write events commit owes the header page. -/
def header_writes (f : Frame) : List Ev :=
  if f.dirty then [Ev.write f.page_offset (checksummed f.body)] else []

lemma commit_items_ok (wfail : Nat → Bool) :
    ∀ items : List Item, denseb items = true → (commit_items wfail items).1 = AVSTOR_OK →
      (commit_items wfail items).2.2 = row_writes items ∧
      (∀ it ∈ (commit_items wfail items).2.1, ∀ f, it.frame = some f → f.dirty = false) := by
  intro items
  induction items with
  | nil =>
    intro _ _
    exact ⟨rfl, by intro it h; cases h⟩
  | cons item rest ih =>
    intro hd hok
    cases hf : item.frame with
    | none =>
      have hall : ∀ it ∈ rest, it.frame = none := by
        simp only [denseb, hf] at hd
        intro it hit
        have := List.all_eq_true.mp hd it hit
        simpa using this
      have hres : commit_items wfail (item :: rest) = (AVSTOR_OK, item :: rest, []) := by
        simp only [commit_items, hf]
      rw [hres]
      refine ⟨by simp [row_writes, hf], ?_⟩
      intro it hit f hfr
      rcases List.mem_cons.mp hit with h | h
      · rw [h] at hfr; rw [hfr] at hf; cases hf
      · rw [hall it h] at hfr; cases hfr
    | some f =>
      simp only [denseb, hf] at hd
      rw [show commit_items wfail (item :: rest)
          = (let w := write_page wfail f
             if w.1 = AVSTOR_OK then
               let c := commit_items wfail rest
               (c.1, { item with frame := some w.2.1 } :: c.2.1, w.2.2 ++ c.2.2)
             else (w.1, { item with frame := some w.2.1 } :: rest, w.2.2))
        from by simp only [commit_items, hf]] at hok ⊢
      by_cases hdirty : f.dirty = true
      · by_cases hwf : wfail f.page_offset = true
        · have hw : write_page wfail f
              = (AVSTOR_IOERR, { f with dirty := true, body := checksummed f.body }, []) := by
            simp only [write_page, hdirty, if_true, hwf]
          rw [hw] at hok
          simp [AVSTOR_IOERR, AVSTOR_OK] at hok
        · have hw : write_page wfail f
              = (AVSTOR_OK, { f with dirty := false, body := checksummed f.body },
                 [Ev.write f.page_offset (checksummed f.body)]) := by
            simp only [write_page, hdirty, if_true, hwf]
            simp
          rw [hw] at hok ⊢
          simp only [if_pos rfl] at hok ⊢
          obtain ⟨ih1, ih2⟩ := ih hd hok
          refine ⟨by simp [row_writes, hf, hdirty, ih1], ?_⟩
          intro it hit g hg
          rcases List.mem_cons.mp hit with h | h
          · rw [h] at hg
            simp at hg
            rw [← hg]
          · exact ih2 it h g hg
      · have hdf : f.dirty = false := by
          cases hh : f.dirty
          · rfl
          · exact absurd hh hdirty
        have hw : write_page wfail f = (AVSTOR_OK, f, []) := by
          simp only [write_page, hdf]
          simp
        rw [hw] at hok ⊢
        simp only [if_pos rfl] at hok ⊢
        obtain ⟨ih1, ih2⟩ := ih hd hok
        refine ⟨by simp [row_writes, hf, hdf, ih1], ?_⟩
        intro it hit g hg
        rcases List.mem_cons.mp hit with h | h
        · rw [h] at hg
          simp at hg
          rw [← hg]
          exact hdf
        · exact ih2 it h g hg

lemma commit_items_err (wfail : Nat → Bool) :
    ∀ items : List Item, (commit_items wfail items).1 ≠ AVSTOR_OK →
      (commit_items wfail items).1 = AVSTOR_IOERR := by
  intro items
  induction items with
  | nil => intro h; exact absurd rfl h
  | cons item rest ih =>
    intro h
    cases hf : item.frame with
    | none =>
      rw [show commit_items wfail (item :: rest) = (AVSTOR_OK, item :: rest, [])
        from by simp only [commit_items, hf]] at h
      exact absurd rfl h
    | some f =>
      rw [show commit_items wfail (item :: rest)
          = (let w := write_page wfail f
             if w.1 = AVSTOR_OK then
               let c := commit_items wfail rest
               (c.1, { item with frame := some w.2.1 } :: c.2.1, w.2.2 ++ c.2.2)
             else (w.1, { item with frame := some w.2.1 } :: rest, w.2.2))
        from by simp only [commit_items, hf]] at h ⊢
      by_cases hwok : (write_page wfail f).1 = AVSTOR_OK
      · simp only [hwok, if_pos rfl] at h ⊢
        exact ih h
      · simp only [if_neg hwok] at h ⊢
        unfold write_page at hwok ⊢
        split_ifs at hwok ⊢ with h1 h2
        · rfl
        · exact absurd rfl hwok
        · exact absurd rfl hwok

lemma commit_rows_ok (wfail : Nat → Bool) :
    ∀ rows : List (List Item), (∀ row ∈ rows, denseb row = true) →
      (commit_rows wfail rows).1 = AVSTOR_OK →
      (commit_rows wfail rows).2.2 = (rows.map row_writes).flatten ∧
      (∀ row ∈ (commit_rows wfail rows).2.1, ∀ it ∈ row, ∀ f, it.frame = some f →
        f.dirty = false) := by
  intro rows
  induction rows with
  | nil =>
    intro _ _
    exact ⟨rfl, by intro row h; cases h⟩
  | cons row rest ih =>
    intro hd hok
    rw [show commit_rows wfail (row :: rest)
        = (let c := commit_items wfail row
           if c.1 = AVSTOR_OK then
             let cs := commit_rows wfail rest
             (cs.1, c.2.1 :: cs.2.1, c.2.2 ++ cs.2.2)
           else (c.1, c.2.1 :: rest, c.2.2))
      from by simp only [commit_rows]] at hok ⊢
    by_cases hrok : (commit_items wfail row).1 = AVSTOR_OK
    · simp only [hrok, if_pos rfl] at hok ⊢
      obtain ⟨h1, h2⟩ := commit_items_ok wfail row (hd row (by simp)) hrok
      obtain ⟨ih1, ih2⟩ := ih (fun r hr => hd r (by simp [hr])) hok
      refine ⟨by simp [h1, ih1], ?_⟩
      intro r hr it hit f hf
      rcases List.mem_cons.mp hr with h | h
      · rw [h] at hit
        exact h2 it hit f hf
      · exact ih2 r h it hit f hf
    · simp only [if_neg hrok] at hok
      exact absurd hok hrok

lemma commit_rows_err (wfail : Nat → Bool) :
    ∀ rows : List (List Item), (commit_rows wfail rows).1 ≠ AVSTOR_OK →
      (commit_rows wfail rows).1 = AVSTOR_IOERR := by
  intro rows
  induction rows with
  | nil => intro h; exact absurd rfl h
  | cons row rest ih =>
    intro h
    rw [show commit_rows wfail (row :: rest)
        = (let c := commit_items wfail row
           if c.1 = AVSTOR_OK then
             let cs := commit_rows wfail rest
             (cs.1, c.2.1 :: cs.2.1, c.2.2 ++ cs.2.2)
           else (c.1, c.2.1 :: rest, c.2.2))
      from by simp only [commit_rows]] at h ⊢
    by_cases hrok : (commit_items wfail row).1 = AVSTOR_OK
    · simp only [hrok, if_pos rfl] at h ⊢
      exact ih h
    · simp only [if_neg hrok] at h ⊢
      exact commit_items_err wfail row hrok

/-- rollback on one cache item: for a frame mapped to a real page
offset, a dirty page's item is invalidated, its offset zeroed, and the pin
count is forced to zero. -/
def rollback_item (it : Item) : Item :=
  match it.frame with
  | some f =>
    if f.page_offset ≠ 0 then
      { frame := some { f with lock_count := 0 },
        offset := if f.dirty then 0 else it.offset }
    else it
  | none => it

/-- rollback: invalidate every dirty mapped cache item, zero all pin
counts, and restore the shadow header over the live header. -/
def rollback (c : CacheState) : CacheState :=
  { rows := c.rows.map (List.map rollback_item),
    header := c.old_header,
    old_header := c.old_header }

/-- The TRY/CATCH skeleton every public write operation runs under: the
body either finishes (OK) or throws an error code; in the latter case
rollback runs before the global lock is released. -/
def run_write_op (body : DbState → Except (Nat × DbState) DbState) (db : DbState) :
    Nat × DbState :=
  match body db with
  | Except.ok db2 => (AVSTOR_OK, db2)
  | Except.error e => (e.1, { e.2 with cache := rollback e.2.cache })

/-- A cache item only maps an offset it actually holds a frame for. -/
def item_coherent (it : Item) : Prop :=
  it.offset ≠ 0 → ∃ f, it.frame = some f ∧ f.page_offset = it.offset ∧ f.page_offset ≠ 0

/-- The committed-state invariant the engine maintains between writes:
every clean cached frame agrees byte for byte with the disk. -/
def cache_inv (db : DbState) : Prop :=
  ∀ row ∈ db.cache.rows, ∀ it ∈ row,
    item_coherent it ∧ ∀ f, it.frame = some f → f.dirty = false → f.body = db.disk f.page_offset

/-- C1: every public write operation either returns OK, or returns
exactly one error code and leaves the database in its pre-call
committed state: rollback restores the shadow header into the live
header and invalidates every dirty mapped item, so every still-mapped
cache item is clean and equal to the on-disk page. -/
theorem c1_error_path_rolls_back
    (body : DbState → Except (Nat × DbState) DbState) (db : DbState)
    (hbody : ∀ e, body db = Except.error e →
      cache_inv e.2 ∧ e.2.cache.old_header = db.cache.old_header ∧ e.1 ≠ AVSTOR_OK) :
    (run_write_op body db).1 = AVSTOR_OK ∨
    ((run_write_op body db).1 ≠ AVSTOR_OK ∧
     (run_write_op body db).2.cache.header = db.cache.old_header ∧
     (run_write_op body db).2.cache.old_header = db.cache.old_header ∧
     (∀ row ∈ (run_write_op body db).2.cache.rows, ∀ it ∈ row,
        it.offset ≠ 0 → ∃ f, it.frame = some f ∧ f.dirty = false ∧ f.lock_count = 0 ∧
          f.body = (run_write_op body db).2.disk it.offset)) := by
  cases hb : body db with
  | ok db2 =>
    left
    simp [run_write_op, hb]
  | error e =>
    right
    obtain ⟨hinv, hold, hne⟩ := hbody e hb
    have hr : run_write_op body db = (e.1, { e.2 with cache := rollback e.2.cache }) := by
      simp [run_write_op, hb]
    rw [hr]
    refine ⟨hne, hold, hold, ?_⟩
    intro row hrow it hit hofs
    simp only [rollback, List.mem_map] at hrow
    obtain ⟨row0, hrow0, hrme⟩ := hrow
    rw [← hrme] at hit
    obtain ⟨it0, hit0, hite⟩ := List.mem_map.mp hit
    obtain ⟨hcoh, hclean⟩ := hinv row0 hrow0 it0 hit0
    cases hf : it0.frame with
    | none =>
      rw [show it = it0 from by rw [← hite]; simp [rollback_item, hf]] at hofs
      obtain ⟨f, hfr, _⟩ := hcoh hofs
      rw [hf] at hfr
      cases hfr
    | some f =>
      by_cases hpo : f.page_offset ≠ 0
      · have hitv :
            it = { frame := some { f with lock_count := 0 },
                   offset := if f.dirty then 0 else it0.offset } := by
          rw [← hite]; simp [rollback_item, hf, hpo]
        cases hdirty : f.dirty with
        | true =>
          rw [hitv] at hofs
          simp [hdirty] at hofs
        | false =>
          refine ⟨{ f with lock_count := 0 }, by rw [hitv], hdirty, rfl, ?_⟩
          have hofs0 : it.offset = it0.offset := by rw [hitv]; simp [hdirty]
          have hmatch := hclean f hf hdirty
          rw [hofs0] at hofs ⊢
          obtain ⟨g, hg, hgo, _⟩ := hcoh hofs
          rw [hf] at hg
          cases hg
          rw [hmatch, hgo]
      · push_neg at hpo
        have hitv : it = it0 := by rw [← hite]; simp [rollback_item, hf, hpo]
        rw [hitv] at hofs ⊢
        obtain ⟨g, hg, hgo, hgo0⟩ := hcoh hofs
        rw [hf] at hg
        cases hg
        exact absurd hpo hgo0

/-- C1 witness: a body that fails with IOERR on a state holding one
dirty mapped page; after run_write_op the header equals the shadow and
no mapped dirty item survives. -/
theorem c1_error_path_rolls_back_witness :
    (let h0 : Frame := ⟨0, false, 0, []⟩
     let f1 : Frame := ⟨4096, true, 1, [7]⟩
     let db : DbState :=
       { cache := { rows := [[⟨some f1, 4096⟩]], header := ⟨0, true, 0, [9]⟩,
                    old_header := h0 },
         disk := fun _ => [] }
     let body : DbState → Except (Nat × DbState) DbState :=
       fun s => Except.error (AVSTOR_IOERR, s)
     (run_write_op body db).1 ≠ AVSTOR_OK ∧
     (run_write_op body db).2.cache.header = db.cache.old_header ∧
     (run_write_op body db).2.cache.old_header = db.cache.old_header ∧
     (∀ row ∈ (run_write_op body db).2.cache.rows, ∀ it ∈ row,
        it.offset ≠ 0 → ∃ f, it.frame = some f ∧ f.dirty = false ∧ f.lock_count = 0 ∧
          f.body = (run_write_op body db).2.disk it.offset)) := by
  intro h0 f1 db body
  have h := c1_error_path_rolls_back body db (by
    intro e he
    cases he
    refine ⟨?_, rfl, by decide⟩
    intro row hrow it hit
    simp only [List.mem_singleton] at hrow
    rw [hrow] at hit
    simp only [List.mem_singleton] at hit
    rw [hit]
    constructor
    · intro _
      exact ⟨f1, rfl, rfl, by decide⟩
    · intro f hf hdirty
      cases hf
      cases hdirty)
  rcases h with h | h
  · exact absurd (by simpa [run_write_op, body] using h) (by decide : AVSTOR_IOERR ≠ AVSTOR_OK)
  · exact h

lemma write_page_clean (wfail : Nat → Bool) (f : Frame) (h : f.dirty = false) :
    write_page wfail f = (AVSTOR_OK, f, []) := by
  simp [write_page, h]

lemma write_page_dirty_ok (wfail : Nat → Bool) (f : Frame) (h : f.dirty = true)
    (h2 : wfail f.page_offset = false) :
    write_page wfail f
      = (AVSTOR_OK, { f with dirty := false, body := checksummed f.body },
         [Ev.write f.page_offset (checksummed f.body)]) := by
  simp [write_page, h, h2]

lemma write_page_dirty_fail (wfail : Nat → Bool) (f : Frame) (h : f.dirty = true)
    (h2 : wfail f.page_offset = true) :
    write_page wfail f
      = (AVSTOR_IOERR, { f with dirty := true, body := checksummed f.body }, []) := by
  simp only [write_page, h, if_true, h2]

lemma write_page_ok (wfail : Nat → Bool) (f : Frame)
    (h : (write_page wfail f).1 = AVSTOR_OK) :
    (write_page wfail f).2.2 = header_writes f ∧ (write_page wfail f).2.1.dirty = false := by
  cases hdirty : f.dirty with
  | false =>
    rw [write_page_clean wfail f hdirty]
    exact ⟨by simp [header_writes, hdirty], hdirty⟩
  | true =>
    cases hwf : wfail f.page_offset with
    | false =>
      rw [write_page_dirty_ok wfail f hdirty hwf]
      exact ⟨by simp [header_writes, hdirty], rfl⟩
    | true =>
      rw [write_page_dirty_fail wfail f hdirty hwf] at h
      simp [AVSTOR_IOERR, AVSTOR_OK] at h

lemma write_page_err (wfail : Nat → Bool) (f : Frame)
    (h : (write_page wfail f).1 ≠ AVSTOR_OK) :
    (write_page wfail f).1 = AVSTOR_IOERR := by
  cases hdirty : f.dirty with
  | false =>
    rw [write_page_clean wfail f hdirty] at h
    exact absurd rfl h
  | true =>
    cases hwf : wfail f.page_offset with
    | false =>
      rw [write_page_dirty_ok wfail f hdirty hwf] at h
      exact absurd rfl h
    | true =>
      rw [write_page_dirty_fail wfail f hdirty hwf]

lemma write_page_no_fsync (wfail : Nat → Bool) (f : Frame) :
    Ev.fsync ∉ (write_page wfail f).2.2 := by
  cases hdirty : f.dirty with
  | false => rw [write_page_clean wfail f hdirty]; simp
  | true =>
    cases hwf : wfail f.page_offset with
    | false => rw [write_page_dirty_ok wfail f hdirty hwf]; simp
    | true => rw [write_page_dirty_fail wfail f hdirty hwf]; simp

lemma commit_items_no_fsync (wfail : Nat → Bool) :
    ∀ items : List Item, Ev.fsync ∉ (commit_items wfail items).2.2 := by
  intro items
  induction items with
  | nil => simp [commit_items]
  | cons item rest ih =>
    cases hf : item.frame with
    | none =>
      rw [show commit_items wfail (item :: rest) = (AVSTOR_OK, item :: rest, [])
        from by simp only [commit_items, hf]]
      simp
    | some f =>
      rw [show commit_items wfail (item :: rest)
          = (let w := write_page wfail f
             if w.1 = AVSTOR_OK then
               let c := commit_items wfail rest
               (c.1, { item with frame := some w.2.1 } :: c.2.1, w.2.2 ++ c.2.2)
             else (w.1, { item with frame := some w.2.1 } :: rest, w.2.2))
        from by simp only [commit_items, hf]]
      by_cases hwok : (write_page wfail f).1 = AVSTOR_OK
      · simp only [hwok, if_pos rfl]
        intro hmem
        rcases List.mem_append.mp hmem with h | h
        · exact write_page_no_fsync wfail f h
        · exact ih h
      · simp only [if_neg hwok]
        exact write_page_no_fsync wfail f

lemma commit_rows_no_fsync (wfail : Nat → Bool) :
    ∀ rows : List (List Item), Ev.fsync ∉ (commit_rows wfail rows).2.2 := by
  intro rows
  induction rows with
  | nil => simp [commit_rows]
  | cons row rest ih =>
    rw [show commit_rows wfail (row :: rest)
        = (let c := commit_items wfail row
           if c.1 = AVSTOR_OK then
             let cs := commit_rows wfail rest
             (cs.1, c.2.1 :: cs.2.1, c.2.2 ++ cs.2.2)
           else (c.1, c.2.1 :: rest, c.2.2))
      from by simp only [commit_rows]]
    by_cases hrok : (commit_items wfail row).1 = AVSTOR_OK
    · simp only [hrok, if_pos rfl]
      intro hmem
      rcases List.mem_append.mp hmem with h | h
      · exact commit_items_no_fsync wfail row h
      · exact ih h
    · simp only [if_neg hrok]
      exact commit_items_no_fsync wfail row

lemma avstor_commit_rows_fail_eq (wfail : Nat → Bool) (fsync_ok : Bool) (db : DbState)
    (flush : Bool) (hc : (commit_rows wfail db.cache.rows).1 ≠ AVSTOR_OK) :
    avstor_commit wfail fsync_ok db flush
      = ((commit_rows wfail db.cache.rows).1,
         { cache := { db.cache with rows := (commit_rows wfail db.cache.rows).2.1 },
           disk := apply_trace db.disk (commit_rows wfail db.cache.rows).2.2 },
         (commit_rows wfail db.cache.rows).2.2) := by
  simp only [avstor_commit]
  rw [if_pos hc]

lemma avstor_commit_header_fail_eq (wfail : Nat → Bool) (fsync_ok : Bool) (db : DbState)
    (flush : Bool) (hc : (commit_rows wfail db.cache.rows).1 = AVSTOR_OK)
    (hw : (write_page wfail db.cache.header).1 ≠ AVSTOR_OK) :
    avstor_commit wfail fsync_ok db flush
      = ((write_page wfail db.cache.header).1,
         { cache := { db.cache with
                        rows := (commit_rows wfail db.cache.rows).2.1,
                        header := (write_page wfail db.cache.header).2.1 },
           disk := apply_trace db.disk
             ((commit_rows wfail db.cache.rows).2.2
              ++ (write_page wfail db.cache.header).2.2) },
         (commit_rows wfail db.cache.rows).2.2
           ++ (write_page wfail db.cache.header).2.2) := by
  simp only [avstor_commit]
  rw [if_neg (fun hn => hn hc), if_pos hw]

lemma avstor_commit_fsync_fail_eq (wfail : Nat → Bool) (fsync_ok : Bool) (db : DbState)
    (flush : Bool) (hc : (commit_rows wfail db.cache.rows).1 = AVSTOR_OK)
    (hw : (write_page wfail db.cache.header).1 = AVSTOR_OK)
    (hb : (flush && !fsync_ok) = true) :
    avstor_commit wfail fsync_ok db flush
      = (AVSTOR_IOERR,
         { cache := { db.cache with
                        rows := (commit_rows wfail db.cache.rows).2.1,
                        header := (write_page wfail db.cache.header).2.1 },
           disk := apply_trace db.disk
             ((commit_rows wfail db.cache.rows).2.2
              ++ (write_page wfail db.cache.header).2.2 ++ [Ev.fsync]) },
         (commit_rows wfail db.cache.rows).2.2
           ++ (write_page wfail db.cache.header).2.2 ++ [Ev.fsync]) := by
  simp only [avstor_commit]
  rw [if_neg (fun hn => hn hc), if_neg (fun hn => hn hw), if_pos hb]

lemma avstor_commit_success_eq (wfail : Nat → Bool) (fsync_ok : Bool) (db : DbState)
    (flush : Bool) (hc : (commit_rows wfail db.cache.rows).1 = AVSTOR_OK)
    (hw : (write_page wfail db.cache.header).1 = AVSTOR_OK)
    (hb : (flush && !fsync_ok) = false) :
    avstor_commit wfail fsync_ok db flush
      = (AVSTOR_OK,
         { cache := { rows := (commit_rows wfail db.cache.rows).2.1,
                      header := (write_page wfail db.cache.header).2.1,
                      old_header := (write_page wfail db.cache.header).2.1 },
           disk := apply_trace db.disk
             ((commit_rows wfail db.cache.rows).2.2
              ++ (write_page wfail db.cache.header).2.2
              ++ if flush then [Ev.fsync] else []) },
         (commit_rows wfail db.cache.rows).2.2
           ++ (write_page wfail db.cache.header).2.2
           ++ if flush then [Ev.fsync] else []) := by
  simp only [avstor_commit]
  rw [if_neg (fun hn => hn hc), if_neg (fun hn => hn hw), if_neg (by simp [hb])]

/-- C3: avstor_commit emits, in order, one checksummed positional write
per dirty frame of each cache row, then the header-page write, then
fsync exactly when flush was requested; a failing write re-sets the
dirty bit and yields IOERR; on success every cached frame and the
header are clean, the shadow header becomes a copy of the live header,
and the disk is the replay of the emitted trace; fsync never runs
without flush. -/
theorem c3_commit_order_and_effects
    (wfail : Nat → Bool) (fsync_ok : Bool) (db : DbState) (flush : Bool)
    (hd : ∀ row ∈ db.cache.rows, denseb row = true) :
    (∀ f : Frame, f.dirty = true → wfail f.page_offset = true →
       write_page wfail f
         = (AVSTOR_IOERR, { f with dirty := true, body := checksummed f.body }, [])) ∧
    ((avstor_commit wfail fsync_ok db flush).1 = AVSTOR_OK →
       (avstor_commit wfail fsync_ok db flush).2.2
         = (db.cache.rows.map row_writes).flatten
           ++ header_writes db.cache.header
           ++ (if flush then [Ev.fsync] else []) ∧
       (avstor_commit wfail fsync_ok db flush).2.1.cache.old_header
         = (avstor_commit wfail fsync_ok db flush).2.1.cache.header ∧
       (∀ row ∈ (avstor_commit wfail fsync_ok db flush).2.1.cache.rows, ∀ it ∈ row,
          ∀ f, it.frame = some f → f.dirty = false) ∧
       (avstor_commit wfail fsync_ok db flush).2.1.cache.header.dirty = false ∧
       (avstor_commit wfail fsync_ok db flush).2.1.disk
         = apply_trace db.disk (avstor_commit wfail fsync_ok db flush).2.2) ∧
    ((avstor_commit wfail fsync_ok db flush).1 ≠ AVSTOR_OK →
       (avstor_commit wfail fsync_ok db flush).1 = AVSTOR_IOERR ∧
       (avstor_commit wfail fsync_ok db flush).2.1.cache.old_header
         = db.cache.old_header) ∧
    (Ev.fsync ∈ (avstor_commit wfail fsync_ok db flush).2.2 → flush = true) := by
  refine ⟨fun f h1 h2 => write_page_dirty_fail wfail f h1 h2, ?_, ?_, ?_⟩
  · intro hok
    by_cases hc : (commit_rows wfail db.cache.rows).1 = AVSTOR_OK
    · by_cases hw : (write_page wfail db.cache.header).1 = AVSTOR_OK
      · cases hb : (flush && !fsync_ok) with
        | true =>
          rw [avstor_commit_fsync_fail_eq wfail fsync_ok db flush hc hw hb] at hok
          simp [AVSTOR_IOERR, AVSTOR_OK] at hok
        | false =>
          obtain ⟨hcr1, hcr2⟩ := commit_rows_ok wfail db.cache.rows hd hc
          obtain ⟨hwp1, hwp2⟩ := write_page_ok wfail db.cache.header hw
          rw [avstor_commit_success_eq wfail fsync_ok db flush hc hw hb]
          refine ⟨?_, rfl, hcr2, hwp2, rfl⟩
          rw [hcr1, hwp1]
      · rw [avstor_commit_header_fail_eq wfail fsync_ok db flush hc hw] at hok
        exact absurd hok hw
    · rw [avstor_commit_rows_fail_eq wfail fsync_ok db flush hc] at hok
      exact absurd hok hc
  · intro hne
    by_cases hc : (commit_rows wfail db.cache.rows).1 = AVSTOR_OK
    · by_cases hw : (write_page wfail db.cache.header).1 = AVSTOR_OK
      · cases hb : (flush && !fsync_ok) with
        | false =>
          rw [avstor_commit_success_eq wfail fsync_ok db flush hc hw hb] at hne
          exact absurd rfl hne
        | true =>
          rw [avstor_commit_fsync_fail_eq wfail fsync_ok db flush hc hw hb]
          exact ⟨rfl, rfl⟩
      · rw [avstor_commit_header_fail_eq wfail fsync_ok db flush hc hw]
        exact ⟨write_page_err wfail db.cache.header hw, rfl⟩
    · rw [avstor_commit_rows_fail_eq wfail fsync_ok db flush hc]
      exact ⟨commit_rows_err wfail db.cache.rows hc, rfl⟩
  · intro hmem
    cases flush with
    | true => rfl
    | false =>
      exfalso
      by_cases hc : (commit_rows wfail db.cache.rows).1 = AVSTOR_OK
      · by_cases hw : (write_page wfail db.cache.header).1 = AVSTOR_OK
        · cases hb : (false && !fsync_ok) with
          | true => simp at hb
          | false =>
            rw [avstor_commit_success_eq wfail fsync_ok db false hc hw hb] at hmem
            rcases List.mem_append.mp hmem with h | h
            · rcases List.mem_append.mp h with h2 | h2
              · exact commit_rows_no_fsync wfail db.cache.rows h2
              · exact write_page_no_fsync wfail db.cache.header h2
            · revert h
              decide
        · rw [avstor_commit_header_fail_eq wfail fsync_ok db false hc hw] at hmem
          rcases List.mem_append.mp hmem with h | h
          · exact commit_rows_no_fsync wfail db.cache.rows h
          · exact write_page_no_fsync wfail db.cache.header h
      · rw [avstor_commit_rows_fail_eq wfail fsync_ok db false hc] at hmem
        exact commit_rows_no_fsync wfail db.cache.rows hmem

/-- C3 witness: one dirty cached page and a dirty header, no write
failures, flush requested: the trace is the page write, then the
header write, then fsync. -/
theorem c3_commit_order_and_effects_witness :
    (avstor_commit (fun _ => false) true
        { cache := { rows := [[⟨some ⟨4096, true, 0, [1]⟩, 4096⟩]],
                     header := ⟨0, true, 0, [2]⟩, old_header := ⟨0, false, 0, [3]⟩ },
          disk := fun _ => [] } true).2.2
      = [Ev.write 4096 (checksummed [1]), Ev.write 0 (checksummed [2]), Ev.fsync] := by
  have h := c3_commit_order_and_effects (fun _ => false) true
      { cache := { rows := [[⟨some ⟨4096, true, 0, [1]⟩, 4096⟩]],
                   header := ⟨0, true, 0, [2]⟩, old_header := ⟨0, false, 0, [3]⟩ },
        disk := fun _ => [] } true
      (by intro row hrow; simp only [List.mem_singleton] at hrow; rw [hrow]; rfl)
  have h2 := h.2.1 (by decide)
  rw [h2.1]
  decide

/-! ## Byte-level page model: resize_node, update/get of var values (C4)

A data page is modelled by its fixed fields (`top`, `index_freelist`,
`index_count`) plus the page bytes as a function from page-relative
offset to byte value.  The slot array starts at byte 26
(`offsetof(AvPage, index)`), node storage grows downward from
PAGE_SIZE; a node handle is the page offset of its slot, the slot
holds the node offset.  Node header layout (32-bit build): hdr u16 at
0, index u16 at 2, left u32 at 4, right u32 at 8, szname u8 at 12,
name at 13 (SIZE_NODE_HDR). -/

/-- Page-relative byte memory. -/
def Mem : Type := Nat → Nat

def store8 (m : Mem) (a v : Nat) : Mem :=
  fun x => if x = a then v else m x

/-- Little-endian 16-bit load, as the native u16 access of the C. -/
def load16 (m : Mem) (a : Nat) : Nat :=
  m a + 256 * m (a + 1)

def store16 (m : Mem) (a v : Nat) : Mem :=
  store8 (store8 m a (v % 256)) (a + 1) (v / 256 % 256)

/-- memmove as its functional contract: the destination region gets
the source bytes as they were before the call. -/
def memmove (m : Mem) (dest src n : Nat) : Mem :=
  fun x => if dest ≤ x ∧ x < dest + n then m (src + (x - dest)) else m x

def memset (m : Mem) (a v n : Nat) : Mem :=
  fun x => if a ≤ x ∧ x < a + n then v else m x

/-- memcpy from a caller buffer given as a byte list. -/
def memcpy (m : Mem) (dest : Nat) (buf : List Nat) : Mem :=
  fun x => if dest ≤ x ∧ x < dest + buf.length then buf.getD (x - dest) 0 else m x

def SIZE_NODE_HDR : Nat := 13

/-- align_node(sz) = ((sz)+3) & ~0x3u. -/
def align_node (sz : Nat) : Nat :=
  (((sz + 3) % U32) / 4) * 4

/-- get_node_size(node) = ((node->hdr & NODE_SIZEMASK) >> 4u),
NODE_SIZEMASK = 0xFFC0. -/
def get_node_size (m : Mem) (nofs : Nat) : Nat :=
  ((load16 m nofs) &&& 0xFFC0) >>> 4

/-- NODE_TYPE(node) = ((node->hdr & NODE_TYPEMASK) >> 2),
NODE_TYPEMASK = 0x3C. -/
def NODE_TYPE (m : Mem) (nofs : Nat) : Nat :=
  ((load16 m nofs) &&& 0x3C) >>> 2

/-- set_node_size: hdr = (hdr & ~NODE_SIZEMASK) | (uint16_t)(nodesz << 4). -/
def set_node_size (m : Mem) (nofs sz : Nat) : Mem :=
  store16 m nofs ((((load16 m nofs) &&& 0x3F) ||| ((sz <<< 4) % 65536)) % 65536)

/-- The data-page state: the fixed header fields the resize path uses,
and the page bytes (slot array from byte 26 and node storage up to
PAGE_SIZE).  Checksum/status fields live outside this region and are
not touched by resize/update/get. -/
structure AvPage where
  top : Nat
  index_freelist : Nat
  index_count : Nat
  mem : Mem

/-- get_page_free_space; INVALID_INDEX = 0, offsetof(AvPage, index) = 26. -/
def get_page_free_space (pg : AvPage) : Nat :=
  let bottom := align_node (26 + 2 * pg.index_count
      + (if pg.index_freelist = 0 then 2 else 0))
  if bottom < pg.top then pg.top - bottom else 0

/-- The index-adjust loop at the end of resize_node: walk the moved
nodes from dest to next, adding (oldsize - newsize) to each one's slot
(int arithmetic stored back through a uint16, hence mod 65536).  Fuel
bounds the iteration count of the C while loop. -/
def resize_adjust (oldsize newsize next : Nat) : Nat → Mem → Nat → Mem
  | 0, m, _ => m
  | fuel + 1, m, cur =>
    if cur < next then
      let slot := load16 m (cur + 2)
      let m1 := store16 m slot ((load16 m slot + oldsize + 65536 - newsize) % 65536)
      resize_adjust oldsize newsize next fuel m1 (cur + get_node_size m1 cur)
    else m

/-- resize_node.  Takes the node offset, returns the new node offset;
`none` models the THROW(AVSTOR_INTERNAL) on insufficient page space.
Unsigned subtractions that cannot underflow once the free-space guard
has passed are written as Nat subtraction. -/
def resize_node (pg : AvPage) (nofs newsize : Nat) : Option (AvPage × Nat) :=
  let oldsize := get_node_size pg.mem nofs
  if newsize = oldsize then some (pg, nofs)
  else
    let page_free := get_page_free_space pg
    if newsize > oldsize ∧ newsize - oldsize > page_free then none
    else
      let newtop := pg.top + oldsize - newsize
      let next := nofs + oldsize
      let idx := load16 pg.mem (nofs + 2)
      let pg1 :=
        if newsize = 0 then
          if idx = 26 - 2 + pg.index_count * 2 then
            { pg with mem := store16 pg.mem idx 0, index_count := pg.index_count - 1 }
          else
            { pg with mem := store16 pg.mem idx pg.index_freelist, index_freelist := idx }
        else pg
      let count := nofs - pg.top
      let m1 := set_node_size pg1.mem nofs newsize
      let m2 :=
        if newsize < oldsize then
          memset (memmove m1 newtop pg.top (count + newsize)) pg.top 0 (oldsize - newsize)
        else
          memset (memmove m1 newtop pg.top (count + oldsize))
            (nofs + oldsize - (newsize - oldsize)) 0 (newsize - oldsize)
      let m3 := resize_adjust oldsize newsize next PAGE_SIZE m2 newtop
      some ({ pg1 with top := newtop, mem := m3 }, nofs + oldsize - newsize)

/-- update_var_value for a var-value node (string/binary, szdata = 1):
locate the node through its slot, resize when the payload size
changes, store the length byte and copy the payload. -/
def update_var_value (pg : AvPage) (slot : Nat) (buf : List Nat) (type : Nat) :
    Except Nat AvPage :=
  let m := pg.mem
  let nofs := load16 m slot
  if nofs = 0 then Except.error AVSTOR_INVOPER
  else if NODE_TYPE m nofs ≠ type then Except.error AVSTOR_MISMATCH
  else
    let szdata := 1
    let szname := m (nofs + 12)
    let dofs := nofs + SIZE_NODE_HDR + szname
    let len := m dofs
    let szbuf := buf.length
    if szbuf ≠ len then
      match resize_node pg nofs (align_node (SIZE_NODE_HDR + szname + szdata + szbuf)) with
      | none => Except.error AVSTOR_INTERNAL
      | some (pg1, nofs1) =>
        let szname1 := pg1.mem (nofs1 + 12)
        let dofs1 := nofs1 + SIZE_NODE_HDR + szname1
        let m1 := store8 pg1.mem dofs1 (szbuf % 256)
        Except.ok { pg1 with mem := memcpy m1 (dofs1 + szdata) buf }
    else
      Except.ok { pg with mem := memcpy m (dofs + szdata) buf }

/-- get_var_value: returns (copied bytes, out_bytes, out_length). -/
def get_var_value (pg : AvPage) (slot szbuf type : Nat) :
    Except Nat (List Nat × Nat × Nat) :=
  let m := pg.mem
  let nofs := load16 m slot
  if nofs = 0 then Except.error AVSTOR_INVOPER
  else if NODE_TYPE m nofs ≠ type then Except.error AVSTOR_MISMATCH
  else
    let szdata := 1
    let szname := m (nofs + 12)
    let dofs := nofs + SIZE_NODE_HDR + szname
    let len := m dofs
    let bytes_copied := if len > szbuf then szbuf else len
    Except.ok ((List.range bytes_copied).map (fun i => m (dofs + szdata + i)),
               bytes_copied, len)

/-- avstor_update_string: measure the NUL-terminated value, reject
when strlen reaches MAX_STRING_LEN + 1, store strlen+1 bytes
(terminator included) as a string node. -/
def avstor_update_string (pg : AvPage) (slot : Nat) (value : List Nat) :
    Except Nat AvPage :=
  let len := strlen_l value (MAX_STRING_LEN + 1) + 1
  if len = MAX_STRING_LEN + 1 then Except.error AVSTOR_PARAM
  else update_var_value pg slot (value.take len) 4

/-- avstor_update_binary: reject payloads above MAX_BINARY_LEN. -/
def avstor_update_binary (pg : AvPage) (slot : Nat) (value : List Nat) :
    Except Nat AvPage :=
  if value.length > MAX_BINARY_LEN then Except.error AVSTOR_PARAM
  else update_var_value pg slot value 5

/-- avstor_get_string: fetch the var value, NUL-terminate in the
caller buffer and return the string length (stored length minus the
terminator).  Returns (buffer bytes up to and including the
terminator, out_length). -/
def avstor_get_string (pg : AvPage) (slot szbuf : Nat) :
    Except Nat (List Nat × Nat) :=
  match get_var_value pg slot szbuf 4 with
  | Except.error e => Except.error e
  | Except.ok (bytes, out_bytes, out_length) =>
    if 0 < szbuf then
      let out_bytes1 := if out_bytes = szbuf then szbuf - 1 else out_bytes
      Except.ok (bytes.take out_bytes1 ++ [0], out_length - 1)
    else
      Except.ok (bytes, out_length - 1)

/-- avstor_get_binary: the raw var-value fetch. -/
def avstor_get_binary (pg : AvPage) (slot szbuf : Nat) :
    Except Nat (List Nat × Nat × Nat) :=
  get_var_value pg slot szbuf 5

lemma store8_at (m : Mem) (a v : Nat) : store8 m a v a = v := by
  simp [store8]

lemma store8_other (m : Mem) (a v x : Nat) (h : x ≠ a) : store8 m a v x = m x := by
  simp [store8, h]

lemma store16_other (m : Mem) (a v x : Nat) (h1 : x ≠ a) (h2 : x ≠ a + 1) :
    store16 m a v x = m x := by
  simp [store16, store8, h1, h2]

lemma load16_store16_self (m : Mem) (a v : Nat) :
    load16 (store16 m a v) a = v % 65536 := by
  have e1 : (store16 m a v) a = v % 256 := by
    simp only [store16]
    rw [store8_other _ _ _ _ (by omega : a ≠ a + 1)]
    exact store8_at _ _ _
  have e2 : (store16 m a v) (a + 1) = v / 256 % 256 := store8_at _ _ _
  simp only [load16, e1, e2]
  omega

lemma load16_store16_other (m : Mem) (a v x : Nat)
    (h : x + 2 ≤ a ∨ a + 2 ≤ x) :
    load16 (store16 m a v) x = load16 m x := by
  have h1 : x ≠ a := by omega
  have h2 : x ≠ a + 1 := by omega
  have h3 : x + 1 ≠ a := by omega
  have h4 : x + 1 ≠ a + 1 := by omega
  simp only [load16, store16_other _ _ _ _ h1 h2, store16_other _ _ _ _ h3 h4]

lemma load16_congr (m m2 : Mem) (x : Nat) (h0 : m2 x = m x) (h1 : m2 (x + 1) = m (x + 1)) :
    load16 m2 x = load16 m x := by
  simp only [load16, h0, h1]

lemma load16_congr2 (m m2 : Mem) (a b : Nat) (h0 : m2 a = m b)
    (h1 : m2 (a + 1) = m (b + 1)) : load16 m2 a = load16 m b := by
  simp only [load16, h0, h1]

lemma get_node_size_congr (m m2 : Mem) (a b : Nat) (h0 : m2 a = m b)
    (h1 : m2 (a + 1) = m (b + 1)) : get_node_size m2 a = get_node_size m b := by
  simp only [get_node_size, load16, h0, h1]

lemma NODE_TYPE_congr (m m2 : Mem) (a b : Nat) (h0 : m2 a = m b)
    (h1 : m2 (a + 1) = m (b + 1)) : NODE_TYPE m2 a = NODE_TYPE m b := by
  simp only [NODE_TYPE, load16, h0, h1]

/-- Bits 6..15 of the header hold the new size after set_node_size. -/
lemma hdr_set_get_size (h sz : Nat) (h4 : sz % 4 = 0) (hlt : sz < 4096) :
    (((((h &&& 0x3F) ||| ((sz <<< 4) % 65536)) % 65536) &&& 0xFFC0) >>> 4) = sz := by
  refine Nat.eq_of_testBit_eq fun i => ?_
  simp only [Nat.testBit_shiftRight, Nat.testBit_land, Nat.testBit_lor,
    show (65536 : Nat) = 2 ^ 16 from rfl, Nat.testBit_mod_two_pow,
    Nat.testBit_shiftLeft, show (63 : Nat) = 2 ^ 6 - 1 from rfl,
    show (65472 : Nat) = 1023 <<< 6 from rfl, show (1023 : Nat) = 2 ^ 10 - 1 from rfl,
    Nat.testBit_two_pow_sub_one]
  rcases Nat.lt_or_ge i 2 with hi | hi
  · interval_cases i
    · have h1 : Nat.testBit sz 0 = false := by
        rw [Nat.testBit_to_div_mod]
        simp only [decide_eq_false_iff_not]
        omega
      simp [h1]
    · have h1 : Nat.testBit sz 1 = false := by
        rw [Nat.testBit_to_div_mod]
        simp only [decide_eq_false_iff_not]
        omega
      simp [h1]
  · rcases Nat.lt_or_ge i 12 with hi2 | hi2
    · have c1 : (decide (4 + i < 6) : Bool) = false := by
        simp only [decide_eq_false_iff_not]; omega
      have c2 : (decide (4 ≤ 4 + i) : Bool) = true := by simp
      have c3 : (decide (4 + i < 16) : Bool) = true := by
        simp only [decide_eq_true_eq]; omega
      have c4 : (decide (6 ≤ 4 + i) : Bool) = true := by
        simp only [decide_eq_true_eq]; omega
      have c5 : (decide (4 + i - 6 < 10) : Bool) = true := by
        simp only [decide_eq_true_eq]; omega
      simp [c1, c2, c3, c4, c5, show 4 + i - 4 = i from by omega]
    · have c1 : Nat.testBit sz i = false := by
        apply Nat.testBit_lt_two_pow
        calc sz < 4096 := hlt
          _ = 2 ^ 12 := rfl
          _ ≤ 2 ^ i := Nat.pow_le_pow_right (by omega) hi2
      have c5 : (decide (4 + i - 6 < 10) : Bool) = false := by
        simp only [decide_eq_false_iff_not]; omega
      simp [c1, c5]

/-- Bits 2..5 of the header (the node type) survive set_node_size. -/
lemma hdr_set_type (h sz : Nat) (h4 : sz % 4 = 0) :
    (((((h &&& 0x3F) ||| ((sz <<< 4) % 65536)) % 65536) &&& 0x3C) >>> 2)
      = (h &&& 0x3C) >>> 2 := by
  refine Nat.eq_of_testBit_eq fun i => ?_
  simp only [Nat.testBit_shiftRight, Nat.testBit_land, Nat.testBit_lor,
    show (65536 : Nat) = 2 ^ 16 from rfl, Nat.testBit_mod_two_pow,
    Nat.testBit_shiftLeft, show (63 : Nat) = 2 ^ 6 - 1 from rfl,
    show (60 : Nat) = 15 <<< 2 from rfl, show (15 : Nat) = 2 ^ 4 - 1 from rfl,
    Nat.testBit_two_pow_sub_one]
  rcases Nat.lt_or_ge i 4 with hi | hi
  · have c2 : (decide (2 + i < 16) : Bool) = true := by
      simp only [decide_eq_true_eq]; omega
    have c3 : (decide (2 + i < 6) : Bool) = true := by
      simp only [decide_eq_true_eq]; omega
    have c4 : (decide (2 ≤ 2 + i) : Bool) = true := by simp
    rcases Nat.lt_or_ge i 2 with hj | hj
    · have c6 : (decide (4 ≤ 2 + i) : Bool) = false := by
        simp only [decide_eq_false_iff_not]; omega
      simp [c2, c3, c4, c6]
    · have c6 : Nat.testBit sz (2 + i - 4) = false := by
        rw [Nat.testBit_to_div_mod]
        simp only [decide_eq_false_iff_not]
        have h0 : 2 + i - 4 = 0 ∨ 2 + i - 4 = 1 := by omega
        rcases h0 with h0 | h0 <;> rw [h0] <;> simp <;> omega
      simp [c2, c3, c4, c6]
  · have c5 : (decide (i < 4) : Bool) = false := by
      simp only [decide_eq_false_iff_not]; omega
    simp [c5]

lemma get_node_size_mod4 (m : Mem) (a : Nat) : get_node_size m a % 4 = 0 := by
  rw [show (4 : Nat) = 2 ^ 2 from rfl, ← Nat.and_pow_two_sub_one_eq_mod]
  refine Nat.eq_of_testBit_eq fun i => ?_
  simp only [Nat.testBit_land, Nat.testBit_shiftRight, get_node_size,
    show (65472 : Nat) = 1023 <<< 6 from rfl, show (1023 : Nat) = 2 ^ 10 - 1 from rfl,
    Nat.testBit_shiftLeft, Nat.testBit_two_pow_sub_one, Nat.zero_testBit]
  rcases Nat.lt_or_ge i 2 with hi | hi
  · have c1 : (decide (6 ≤ 4 + i) : Bool) = false := by
      simp only [decide_eq_false_iff_not]; omega
    simp [c1]
  · have c2 : (decide (i < 2) : Bool) = false := by
      simp only [decide_eq_false_iff_not]; omega
    simp [c2]

/-- After set_node_size the stored size reads back (size below 4096,
4-aligned). -/
lemma get_set_node_size (m : Mem) (a sz : Nat) (h4 : sz % 4 = 0) (hlt : sz < 4096) :
    get_node_size (set_node_size m a sz) a = sz := by
  have mm : ∀ x : Nat, x % 65536 % 65536 = x % 65536 := fun x =>
    Nat.mod_mod_of_dvd x dvd_rfl
  simp only [get_node_size, set_node_size, load16_store16_self, mm]
  exact hdr_set_get_size (load16 m a) sz h4 hlt

/-- set_node_size keeps the node type. -/
lemma type_set_node_size (m : Mem) (a sz : Nat) (h4 : sz % 4 = 0) :
    NODE_TYPE (set_node_size m a sz) a = NODE_TYPE m a := by
  have mm : ∀ x : Nat, x % 65536 % 65536 = x % 65536 := fun x =>
    Nat.mod_mod_of_dvd x dvd_rfl
  simp only [NODE_TYPE, set_node_size, load16_store16_self, mm]
  exact hdr_set_type (load16 m a) sz h4

lemma set_node_size_other (m : Mem) (a sz x : Nat) (h : x ≠ a) (h2 : x ≠ a + 1) :
    set_node_size m a sz x = m x := by
  simp only [set_node_size]
  exact store16_other _ _ _ _ h h2

/-- Layout of the moved region as the adjust loop sees it: a chain of
nodes from `cur`, each carrying its stored size and its slot offset in
the index field, ending at the resized node at `tofs` whose stored
size is `newsize` and whose index field is `s`.  `B` bounds the slot
area from above. -/
def walk_wf (B s newsize : Nat) : Mem → Nat → List (Nat × Nat) → Nat → Prop
  | m, cur, [], tofs =>
      cur = tofs ∧ get_node_size m tofs = newsize ∧ load16 m (tofs + 2) = s
  | m, cur, (sl, sz) :: rest, tofs =>
      get_node_size m cur = sz ∧ load16 m (cur + 2) = sl ∧ 4 ≤ sz ∧
      sl + 2 ≤ B ∧ (sl + 2 ≤ s ∨ s + 2 ≤ sl) ∧
      walk_wf B s newsize m (cur + sz) rest tofs

lemma walk_wf_le (B s n : Nat) :
    ∀ (lower : List (Nat × Nat)) (m : Mem) (cur tofs : Nat),
      walk_wf B s n m cur lower tofs → cur ≤ tofs := by
  intro lower
  induction lower with
  | nil =>
    intro m cur tofs h
    exact le_of_eq h.1
  | cons p rest ih =>
    intro m cur tofs h
    obtain ⟨sl, sz⟩ := p
    obtain ⟨_, _, h4, _, _, h6⟩ := h
    have := ih m (cur + sz) tofs h6
    omega

lemma walk_wf_congr (B s n : Nat) (m m2 : Mem) (hagree : ∀ a, B ≤ a → m2 a = m a) :
    ∀ (lower : List (Nat × Nat)) (cur tofs : Nat), B ≤ cur →
      walk_wf B s n m cur lower tofs → walk_wf B s n m2 cur lower tofs := by
  intro lower
  induction lower with
  | nil =>
    intro cur tofs hB h
    obtain ⟨h1, h2, h3⟩ := h
    subst h1
    refine ⟨rfl, ?_, ?_⟩
    · rw [get_node_size_congr m m2 cur cur (hagree cur hB) (hagree (cur + 1) (by omega))]
      exact h2
    · rw [load16_congr m m2 (cur + 2) (hagree (cur + 2) (by omega))
        (hagree (cur + 3) (by omega))]
      exact h3
  | cons p rest ih =>
    intro cur tofs hB h
    obtain ⟨sl, sz⟩ := p
    obtain ⟨h1, h2, h3, h4, h5, h6⟩ := h
    refine ⟨?_, ?_, h3, h4, h5, ih (cur + sz) tofs (by omega) h6⟩
    · rw [get_node_size_congr m m2 cur cur (hagree cur hB) (hagree (cur + 1) (by omega))]
      exact h1
    · rw [load16_congr m m2 (cur + 2) (hagree (cur + 2) (by omega))
        (hagree (cur + 3) (by omega))]
      exact h2

lemma resize_adjust_stop (o n next : Nat) :
    ∀ (f : Nat) (m : Mem), resize_adjust o n next f m next = m := by
  intro f m
  cases f with
  | zero => rfl
  | succ f => simp [resize_adjust]

lemma resize_adjust_step (o n next f : Nat) (m : Mem) (cur : Nat) (h : cur < next) :
    resize_adjust o n next (f + 1) m cur
      = resize_adjust o n next f
          (store16 m (load16 m (cur + 2))
            ((load16 m (load16 m (cur + 2)) + o + 65536 - n) % 65536))
          (cur + get_node_size
            (store16 m (load16 m (cur + 2))
              ((load16 m (load16 m (cur + 2)) + o + 65536 - n) % 65536)) cur) := by
  simp only [resize_adjust]
  rw [if_pos h]

/-- The adjust loop touches only slot bytes (below `B`) and ends up
having added oldsize - newsize (as a u16) to the resized node's slot,
exactly once. -/
lemma resize_adjust_spec (old B s n : Nat) (hn : 1 ≤ n) (hsB : s + 2 ≤ B) :
    ∀ (lower : List (Nat × Nat)) (fuel : Nat) (m : Mem) (cur tofs : Nat),
      walk_wf B s n m cur lower tofs → B ≤ cur →
      lower.length + 1 ≤ fuel →
      (∀ a, B ≤ a → resize_adjust old n (tofs + n) fuel m cur a = m a) ∧
      load16 (resize_adjust old n (tofs + n) fuel m cur) s
        = (load16 m s + old + 65536 - n) % 65536 := by
  intro lower
  induction lower with
  | nil =>
    intro fuel m cur tofs hw hB hf
    obtain ⟨hcur, hsize, hidx⟩ := hw
    subst hcur
    obtain ⟨f, rfl⟩ : ∃ f, fuel = f + 1 := ⟨fuel - 1, by omega⟩
    rw [resize_adjust_step old n (cur + n) f m cur (by omega)]
    rw [hidx]
    set v := (load16 m s + old + 65536 - n) % 65536 with hv
    have hcs : ∀ a, B ≤ a → store16 m s v a = m a := by
      intro a ha
      exact store16_other m s v a (by omega) (by omega)
    have hsz2 : get_node_size (store16 m s v) cur = n := by
      rw [get_node_size_congr m (store16 m s v) cur cur (hcs cur hB)
        (hcs (cur + 1) (by omega))]
      exact hsize
    rw [hsz2, resize_adjust_stop]
    refine ⟨hcs, ?_⟩
    rw [load16_store16_self]
    rw [hv]
    exact Nat.mod_mod_of_dvd _ dvd_rfl
  | cons p rest ih =>
    intro fuel m cur tofs hw hB hf
    obtain ⟨sl, sz⟩ := p
    obtain ⟨hsz, hsl, h4, hslB, hdisj, hrest⟩ := hw
    obtain ⟨f, rfl⟩ : ∃ f, fuel = f + 1 := ⟨fuel - 1, by omega⟩
    have hle := walk_wf_le B s n rest m (cur + sz) tofs hrest
    rw [resize_adjust_step old n (tofs + n) f m cur (by omega)]
    rw [hsl]
    set v := (load16 m sl + old + 65536 - n) % 65536 with hv
    have hcs : ∀ a, B ≤ a → store16 m sl v a = m a := by
      intro a ha
      exact store16_other m sl v a (by omega) (by omega)
    have hsz2 : get_node_size (store16 m sl v) cur = sz := by
      rw [get_node_size_congr m (store16 m sl v) cur cur (hcs cur hB)
        (hcs (cur + 1) (by omega))]
      exact hsz
    rw [hsz2]
    have hw2 : walk_wf B s n (store16 m sl v) (cur + sz) rest tofs :=
      walk_wf_congr B s n m (store16 m sl v) hcs rest (cur + sz) tofs (by omega) hrest
    obtain ⟨ih1, ih2⟩ := ih f (store16 m sl v) (cur + sz) tofs hw2 (by omega)
      (by simpa using Nat.le_of_succ_le_succ hf)
    refine ⟨?_, ?_⟩
    · intro a ha
      rw [ih1 a ha]
      exact hcs a ha
    · rw [ih2]
      rw [load16_store16_other m sl v s (by omega)]

lemma walk_wf_target (B s n : Nat) :
    ∀ (lower : List (Nat × Nat)) (m : Mem) (cur tofs : Nat),
      walk_wf B s n m cur lower tofs →
      get_node_size m tofs = n ∧ load16 m (tofs + 2) = s := by
  intro lower
  induction lower with
  | nil =>
    intro m cur tofs h
    exact ⟨h.2.1, h.2.2⟩
  | cons p rest ih =>
    intro m cur tofs h
    obtain ⟨sl, sz⟩ := p
    exact ih m (cur + sz) tofs h.2.2.2.2.2

/-- Writing the new size into the target header preserves the chain
shape, with the target clause now carrying the new size. -/
lemma walk_wf_resize_target (B s old new : Nat) (m : Mem) (nofs : Nat)
    (hnew4 : new % 4 = 0) (hnew4096 : new < 4096) :
    ∀ (lower : List (Nat × Nat)) (cur : Nat),
      walk_wf B s old m cur lower nofs →
      walk_wf B s new (set_node_size m nofs new) cur lower nofs := by
  intro lower
  induction lower with
  | nil =>
    intro cur h
    obtain ⟨h1, h2, h3⟩ := h
    subst h1
    refine ⟨rfl, get_set_node_size m cur new hnew4 hnew4096, ?_⟩
    rw [load16_congr m (set_node_size m cur new) (cur + 2)
      (set_node_size_other m cur new (cur + 2) (by omega) (by omega))
      (set_node_size_other m cur new (cur + 3) (by omega) (by omega))]
    exact h3
  | cons p rest ih =>
    intro cur h
    obtain ⟨sl, sz⟩ := p
    obtain ⟨h1, h2, h3, h4, h5, h6⟩ := h
    have hle := walk_wf_le B s old rest m (cur + sz) nofs h6
    refine ⟨?_, ?_, h3, h4, h5, ih (cur + sz) h6⟩
    · rw [get_node_size_congr m (set_node_size m nofs new) cur cur
        (set_node_size_other m nofs new cur (by omega) (by omega))
        (set_node_size_other m nofs new (cur + 1) (by omega) (by omega))]
      exact h1
    · rw [load16_congr m (set_node_size m nofs new) (cur + 2)
        (set_node_size_other m nofs new (cur + 2) (by omega) (by omega))
        (set_node_size_other m nofs new (cur + 3) (by omega) (by omega))]
      exact h2

/-- The chain relocates verbatim under the memmove: reading the moved
image at the shifted position gives the original bytes. -/
lemma walk_wf_move (B s new : Nat) (m1 m2 : Mem) (top newtop nofs mn : Nat)
    (hmn : 14 ≤ mn)
    (K1 : ∀ a, top ≤ a → a < nofs + mn → m2 (newtop + (a - top)) = m1 a) :
    ∀ (lower : List (Nat × Nat)) (cur : Nat), top ≤ cur →
      walk_wf B s new m1 cur lower nofs →
      walk_wf B s new m2 (newtop + (cur - top)) lower (newtop + (nofs - top)) := by
  intro lower
  induction lower with
  | nil =>
    intro cur hcur h
    obtain ⟨h1, h2, h3⟩ := h
    subst h1
    refine ⟨rfl, ?_, ?_⟩
    · rw [get_node_size_congr m1 m2 (newtop + (cur - top)) cur
        (K1 cur hcur (by omega))
        (by
          have e : newtop + (cur - top) + 1 = newtop + (cur + 1 - top) := by omega
          rw [e]
          exact K1 (cur + 1) (by omega) (by omega))]
      exact h2
    · have e2 : newtop + (cur - top) + 2 = newtop + (cur + 2 - top) := by omega
      have e3 : newtop + (cur - top) + 2 + 1 = newtop + (cur + 2 + 1 - top) := by omega
      rw [load16_congr2 m1 m2 (newtop + (cur - top) + 2) (cur + 2)
        (by rw [e2]; exact K1 (cur + 2) (by omega) (by omega))
        (by rw [e3]; exact K1 (cur + 2 + 1) (by omega) (by omega))]
      exact h3
  | cons p rest ih =>
    intro cur hcur h
    obtain ⟨sl, sz⟩ := p
    obtain ⟨h1, h2, h3, h4, h5, h6⟩ := h
    have hle := walk_wf_le B s new rest m1 (cur + sz) nofs h6
    refine ⟨?_, ?_, h3, h4, h5, ?_⟩
    · rw [get_node_size_congr m1 m2 (newtop + (cur - top)) cur
        (K1 cur hcur (by omega))
        (by
          have e : newtop + (cur - top) + 1 = newtop + (cur + 1 - top) := by omega
          rw [e]
          exact K1 (cur + 1) (by omega) (by omega))]
      exact h1
    · have e2 : newtop + (cur - top) + 2 = newtop + (cur + 2 - top) := by omega
      have e3 : newtop + (cur - top) + 2 + 1 = newtop + (cur + 2 + 1 - top) := by omega
      rw [load16_congr2 m1 m2 (newtop + (cur - top) + 2) (cur + 2)
        (by rw [e2]; exact K1 (cur + 2) (by omega) (by omega))
        (by rw [e3]; exact K1 (cur + 2 + 1) (by omega) (by omega))]
      exact h2
    · have e : newtop + (cur - top) + sz = newtop + (cur + sz - top) := by omega
      rw [e]
      exact ih (cur + sz) (by omega) h6

/-- resize_node on a wellformed node region: the node moves by
oldsize - newsize, its slot is retargeted, size updated, type and name
preserved. -/
lemma resize_node_spec (pg : AvPage) (lower : List (Nat × Nat))
    (s nofs oldsize newsize szname type B : Nat)
    (hchain : walk_wf B s oldsize pg.mem pg.top lower nofs)
    (hslot : load16 pg.mem s = nofs)
    (hsn : pg.mem (nofs + 12) = szname)
    (htype : NODE_TYPE pg.mem nofs = type)
    (hsB : s + 2 ≤ B)
    (hBtop : B ≤ pg.top)
    (hroom : B + newsize ≤ pg.top + oldsize)
    (hguard : newsize ≤ oldsize + get_page_free_space pg)
    (hnew4096 : newsize < 4096)
    (hnew4 : newsize % 4 = 0)
    (holdlb : 14 + szname ≤ oldsize)
    (hnewlb : 14 + szname ≤ newsize)
    (hpage : nofs + oldsize ≤ PAGE_SIZE)
    (hlen : lower.length + 1 ≤ PAGE_SIZE) :
    ∃ m3 : Mem,
      resize_node pg nofs newsize
        = some ({ pg with top := pg.top + oldsize - newsize, mem := m3 },
                nofs + oldsize - newsize) ∧
      load16 m3 s = nofs + oldsize - newsize ∧
      get_node_size m3 (nofs + oldsize - newsize) = newsize ∧
      NODE_TYPE m3 (nofs + oldsize - newsize) = type ∧
      m3 (nofs + oldsize - newsize + 12) = szname := by
  obtain ⟨hold, hidx⟩ := walk_wf_target B s oldsize lower pg.mem pg.top nofs hchain
  have htopn : pg.top ≤ nofs := walk_wf_le B s oldsize lower pg.mem pg.top nofs hchain
  by_cases hne : newsize = oldsize
  · subst hne
    refine ⟨pg.mem, ?_, ?_, ?_, ?_, ?_⟩
    · rw [show resize_node pg nofs newsize = some (pg, nofs) from by
        simp only [resize_node, hold, eq_self_iff_true, if_true]]
      have e1 : pg.top + newsize - newsize = pg.top := by omega
      have e2 : nofs + newsize - newsize = nofs := by omega
      rw [e1, e2]
    · rw [show nofs + newsize - newsize = nofs from by omega]
      exact hslot
    · rw [show nofs + newsize - newsize = nofs from by omega]
      exact hold
    · rw [show nofs + newsize - newsize = nofs from by omega]
      exact htype
    · rw [show nofs + newsize - newsize + 12 = nofs + 12 from by omega]
      exact hsn
  · set newtop := pg.top + oldsize - newsize with hnewtop
    set nofs1 := nofs + oldsize - newsize with hnofs1
    set m1 := set_node_size pg.mem nofs newsize with hm1
    set m2 := (if newsize < oldsize then
        memset (memmove m1 newtop pg.top ((nofs - pg.top) + newsize)) pg.top 0
          (oldsize - newsize)
      else
        memset (memmove m1 newtop pg.top ((nofs - pg.top) + oldsize))
          (nofs + oldsize - (newsize - oldsize)) 0 (newsize - oldsize)) with hm2
    set m3 := resize_adjust oldsize newsize (nofs + oldsize) PAGE_SIZE m2 newtop with hm3
    have heq : resize_node pg nofs newsize
        = some ({ pg with top := newtop, mem := m3 }, nofs1) := by
      simp only [resize_node, hold]
      rw [if_neg hne]
      rw [if_neg (show ¬(newsize > oldsize ∧ newsize - oldsize > get_page_free_space pg)
        from by omega)]
      rw [if_neg (show ¬(newsize = 0) from by omega)]
    -- byte transport for the moved block
    have hmn : 14 + szname ≤ min oldsize newsize := by
      rcases Nat.le_total oldsize newsize with h | h
      · rw [min_eq_left h]; omega
      · rw [min_eq_right h]; omega
    have K1 : ∀ a, pg.top ≤ a → a < nofs + min oldsize newsize →
        m2 (newtop + (a - pg.top)) = m1 a := by
      intro a ha hb
      rw [hm2]
      by_cases hlt : newsize < oldsize
      · rw [if_pos hlt]
        have hmin : min oldsize newsize = newsize := by omega
        rw [hmin] at hb
        simp only [memset, memmove]
        rw [if_neg (show ¬(pg.top ≤ newtop + (a - pg.top) ∧
            newtop + (a - pg.top) < pg.top + (oldsize - newsize)) from by omega)]
        rw [if_pos (show newtop ≤ newtop + (a - pg.top) ∧
            newtop + (a - pg.top) < newtop + ((nofs - pg.top) + newsize) from by omega)]
        congr 1
        omega
      · rw [if_neg hlt]
        have hmin : min oldsize newsize = oldsize := by omega
        rw [hmin] at hb
        simp only [memset, memmove]
        rw [if_neg (show ¬(nofs + oldsize - (newsize - oldsize) ≤ newtop + (a - pg.top) ∧
            newtop + (a - pg.top) < nofs + oldsize - (newsize - oldsize)
              + (newsize - oldsize)) from by omega)]
        rw [if_pos (show newtop ≤ newtop + (a - pg.top) ∧
            newtop + (a - pg.top) < newtop + ((nofs - pg.top) + oldsize) from by omega)]
        congr 1
        omega
    have K2 : ∀ a, a < B → m2 a = pg.mem a := by
      intro a ha
      have e1 : m1 a = pg.mem a := by
        rw [hm1]
        exact set_node_size_other pg.mem nofs newsize a (by omega) (by omega)
      rw [hm2]
      by_cases hlt : newsize < oldsize
      · rw [if_pos hlt]
        simp only [memset, memmove]
        rw [if_neg (show ¬(pg.top ≤ a ∧ a < pg.top + (oldsize - newsize)) from by omega)]
        rw [if_neg (show ¬(newtop ≤ a ∧ a < newtop + ((nofs - pg.top) + newsize))
          from by omega)]
        exact e1
      · rw [if_neg hlt]
        simp only [memset, memmove]
        rw [if_neg (show ¬(nofs + oldsize - (newsize - oldsize) ≤ a ∧
            a < nofs + oldsize - (newsize - oldsize) + (newsize - oldsize)) from by omega)]
        rw [if_neg (show ¬(newtop ≤ a ∧ a < newtop + ((nofs - pg.top) + oldsize))
          from by omega)]
        exact e1
    -- the chain after size write and move
    have hw1 : walk_wf B s newsize m1 pg.top lower nofs :=
      walk_wf_resize_target B s oldsize newsize pg.mem nofs hnew4 hnew4096 lower pg.top
        hchain
    have hw2 : walk_wf B s newsize m2 newtop lower nofs1 := by
      have h0 := walk_wf_move B s newsize m1 m2 pg.top newtop nofs
        (min oldsize newsize) (by omega) K1 lower pg.top (le_refl _) hw1
      have e1 : newtop + (pg.top - pg.top) = newtop := by omega
      have e2 : newtop + (nofs - pg.top) = nofs1 := by omega
      rw [e1, e2] at h0
      exact h0
    -- run the adjust loop
    have hloop := resize_adjust_spec oldsize B s newsize (by omega) hsB lower PAGE_SIZE
      m2 newtop nofs1 hw2 (by omega) hlen
    have enext : nofs1 + newsize = nofs + oldsize := by omega
    rw [enext] at hloop
    obtain ⟨hL1, hL2⟩ := hloop
    rw [← hm3] at hL1 hL2
    have hps : PAGE_SIZE = 4096 := rfl
    refine ⟨m3, heq, ?_, ?_, ?_, ?_⟩
    · rw [hL2]
      have e1 : load16 m2 s = nofs := by
        rw [load16_congr2 pg.mem m2 s s (K2 s (by omega)) (K2 (s + 1) (by omega))]
        exact hslot
      rw [e1]
      omega
    · obtain ⟨ht1, ht2⟩ := walk_wf_target B s newsize lower m2 newtop nofs1 hw2
      rw [get_node_size_congr m2 m3 nofs1 nofs1 (hL1 nofs1 (by omega))
        (hL1 (nofs1 + 1) (by omega))]
      exact ht1
    · have e0 : m3 nofs1 = m1 nofs := by
        rw [hL1 nofs1 (by omega)]
        have e : newtop + (nofs - pg.top) = nofs1 := by omega
        rw [← e]
        exact K1 nofs (by omega) (by omega)
      have e1 : m3 (nofs1 + 1) = m1 (nofs + 1) := by
        rw [hL1 (nofs1 + 1) (by omega)]
        have e : newtop + (nofs + 1 - pg.top) = nofs1 + 1 := by omega
        rw [← e]
        exact K1 (nofs + 1) (by omega) (by omega)
      rw [NODE_TYPE_congr m1 m3 nofs1 nofs e0 e1]
      rw [hm1, type_set_node_size pg.mem nofs newsize hnew4]
      exact htype
    · have e0 : m3 (nofs1 + 12) = m1 (nofs + 12) := by
        rw [hL1 (nofs1 + 12) (by omega)]
        have e : newtop + (nofs + 12 - pg.top) = nofs1 + 12 := by omega
        rw [← e]
        exact K1 (nofs + 12) (by omega) (by omega)
      rw [e0, hm1]
      rw [set_node_size_other pg.mem nofs newsize (nofs + 12) (by omega) (by omega)]
      exact hsn

lemma align_node_spec (x : Nat) (h : x + 3 < U32) :
    x ≤ align_node x ∧ align_node x ≤ x + 3 ∧ align_node x % 4 = 0 := by
  simp only [align_node]
  rw [Nat.mod_eq_of_lt h]
  omega

lemma memcpy_in (m : Mem) (dest : Nat) (buf : List Nat) (a : Nat)
    (h1 : dest ≤ a) (h2 : a < dest + buf.length) :
    memcpy m dest buf a = buf.getD (a - dest) 0 := by
  simp [memcpy, h1, h2]

lemma memcpy_out (m : Mem) (dest : Nat) (buf : List Nat) (a : Nat)
    (h : a < dest ∨ dest + buf.length ≤ a) :
    memcpy m dest buf a = m a := by
  simp only [memcpy]
  rw [if_neg]
  omega

lemma range_map_getD (l : List Nat) :
    (List.range l.length).map (fun i => l.getD i 0) = l := by
  apply List.ext_getElem
  · simp
  · intro i h1 h2
    simp only [List.getElem_map, List.getElem_range]
    rw [List.getD_eq_getElem l 0 h2]

/-- update_var_value followed by get_var_value returns the new payload
exactly, for any new size (resize in place included). -/
lemma update_get_var_spec (pg : AvPage) (lower : List (Nat × Nat))
    (s nofs oldsize szname type B : Nat) (buf : List Nat)
    (hchain : walk_wf B s oldsize pg.mem pg.top lower nofs)
    (hslot : load16 pg.mem s = nofs)
    (hsn : pg.mem (nofs + 12) = szname)
    (htype : NODE_TYPE pg.mem nofs = type)
    (hsB : s + 2 ≤ B)
    (hBtop : B ≤ pg.top)
    (holdlb : SIZE_NODE_HDR + szname + 1 ≤ oldsize)
    (hpage : nofs + oldsize ≤ PAGE_SIZE)
    (hlen : lower.length + 1 ≤ PAGE_SIZE)
    (hbuf : buf.length ≤ 255)
    (hsz255 : szname ≤ 255)
    (hguard : align_node (SIZE_NODE_HDR + szname + 1 + buf.length)
        ≤ oldsize + get_page_free_space pg)
    (hroom : B + align_node (SIZE_NODE_HDR + szname + 1 + buf.length)
        ≤ pg.top + oldsize) :
    ∃ pg1, update_var_value pg s buf type = Except.ok pg1 ∧
      ∀ szq, buf.length ≤ szq →
        get_var_value pg1 s szq type = Except.ok (buf, buf.length, buf.length) := by
  have h13 : SIZE_NODE_HDR = 13 := rfl
  have hps : PAGE_SIZE = 4096 := rfl
  obtain ⟨hold, hidx⟩ := walk_wf_target B s oldsize lower pg.mem pg.top nofs hchain
  have htopn : pg.top ≤ nofs := walk_wf_le B s oldsize lower pg.mem pg.top nofs hchain
  have hnz : ¬(nofs = 0) := by omega
  have hntype : ¬(type ≠ type) := fun hh => hh rfl
  obtain ⟨hal1, hal2, hal3⟩ := align_node_spec (SIZE_NODE_HDR + szname + 1 + buf.length)
    (by simp only [U32]; omega)
  set newsize := align_node (SIZE_NODE_HDR + szname + 1 + buf.length) with hnewsize
  by_cases hsame : buf.length = pg.mem (nofs + SIZE_NODE_HDR + szname)
  · -- no resize: the payload is overwritten in place
    refine ⟨{ pg with mem := memcpy pg.mem (nofs + SIZE_NODE_HDR + szname + 1) buf }, ?_, ?_⟩
    · simp only [update_var_value, hslot, hsn]
      rw [if_neg hnz, htype, if_neg hntype, if_neg (show ¬(buf.length ≠
        pg.mem (nofs + SIZE_NODE_HDR + szname)) from fun hh => hh hsame)]
    · intro szq hq
      set d := nofs + SIZE_NODE_HDR + szname with hd
      set m5 := memcpy pg.mem (d + 1) buf with hm5
      have hout : ∀ a, a < d → m5 a = pg.mem a := by
        intro a ha
        rw [hm5]
        exact memcpy_out pg.mem (d + 1) buf a (by omega)
      have g1 : load16 m5 s = nofs := by
        rw [load16_congr2 pg.mem m5 s s (hout s (by omega)) (hout (s + 1) (by omega))]
        exact hslot
      have g2 : NODE_TYPE m5 nofs = type := by
        rw [NODE_TYPE_congr pg.mem m5 nofs nofs (hout nofs (by omega))
          (hout (nofs + 1) (by omega))]
        exact htype
      have g3 : m5 (nofs + 12) = szname := by
        rw [hout (nofs + 12) (by omega)]
        exact hsn
      have g4 : m5 d = pg.mem d := by
        rw [hm5]
        exact memcpy_out pg.mem (d + 1) buf d (by omega)
      simp only [get_var_value, g1]
      rw [if_neg hnz, g2, if_neg hntype, g3]
      rw [← hd, g4, ← hsame]
      rw [if_neg (show ¬(buf.length > szq) from by omega)]
      have hpoint : ∀ i, i < buf.length → m5 (d + 1 + i) = buf.getD i 0 := by
        intro i hi
        rw [hm5, memcpy_in pg.mem (d + 1) buf (d + 1 + i) (by omega) (by omega)]
        congr 1
        omega
      have hmap : (List.range buf.length).map (fun i => m5 (d + 1 + i)) = buf :=
        calc (List.range buf.length).map (fun i => m5 (d + 1 + i))
            = (List.range buf.length).map (fun i => buf.getD i 0) :=
              List.map_congr_left (fun i hi => hpoint i (by simpa using hi))
          _ = buf := range_map_getD buf
      rw [hmap]
  · -- resize path
    obtain ⟨m3, heq, hc1, hc2, hc3, hc4⟩ := resize_node_spec pg lower s nofs oldsize
      newsize szname type B hchain hslot hsn htype hsB hBtop hroom hguard
      (by omega) hal3 (by omega) (by omega) hpage hlen
    set nofs1 := nofs + oldsize - newsize with hnofs1
    set d := nofs1 + SIZE_NODE_HDR + szname with hd
    set m4 := store8 m3 d (buf.length % 256) with hm4
    set m5 := memcpy m4 (d + 1) buf with hm5
    have hnewtop : B ≤ pg.top + oldsize - newsize := by omega
    have hn1 : pg.top + oldsize - newsize ≤ nofs1 := by omega
    have hout : ∀ a, a < d → m5 a = m4 a := by
      intro a ha
      rw [hm5]
      exact memcpy_out m4 (d + 1) buf a (by omega)
    have hout4 : ∀ a, a ≠ d → m4 a = m3 a := by
      intro a ha
      rw [hm4]
      exact store8_other m3 d (buf.length % 256) a ha
    have hout5 : ∀ a, a < d → m5 a = m3 a := by
      intro a ha
      rw [hout a ha, hout4 a (by omega)]
    refine ⟨{ pg with top := pg.top + oldsize - newsize, mem := m5 }, ?_, ?_⟩
    · simp only [update_var_value, hslot, hsn]
      rw [if_neg hnz, htype, if_neg hntype, if_pos (show buf.length ≠
        pg.mem (nofs + SIZE_NODE_HDR + szname) from hsame)]
      rw [heq]
      simp only [hc4, hm5, hm4, hd, hnofs1]
    · intro szq hq
      have g1 : load16 m5 s = nofs1 := by
        rw [load16_congr2 m3 m5 s s (hout5 s (by omega)) (hout5 (s + 1) (by omega))]
        exact hc1
      have g2 : NODE_TYPE m5 nofs1 = type := by
        rw [NODE_TYPE_congr m3 m5 nofs1 nofs1 (hout5 nofs1 (by omega))
          (hout5 (nofs1 + 1) (by omega))]
        exact hc3
      have g3 : m5 (nofs1 + 12) = szname := by
        rw [hout5 (nofs1 + 12) (by omega)]
        exact hc4
      have g4 : m5 d = buf.length := by
        rw [hm5, memcpy_out m4 (d + 1) buf d (by omega), hm4, store8_at]
        omega
      have hnz1 : ¬(nofs1 = 0) := by omega
      simp only [get_var_value, g1]
      rw [if_neg hnz1, g2, if_neg hntype, g3]
      rw [← hd, g4]
      rw [if_neg (show ¬(buf.length > szq) from by omega)]
      have hpoint : ∀ i, i < buf.length → m5 (d + 1 + i) = buf.getD i 0 := by
        intro i hi
        rw [hm5, memcpy_in m4 (d + 1) buf (d + 1 + i) (by omega) (by omega)]
        congr 1
        omega
      have hmap : (List.range buf.length).map (fun i => m5 (d + 1 + i)) = buf :=
        calc (List.range buf.length).map (fun i => m5 (d + 1 + i))
            = (List.range buf.length).map (fun i => buf.getD i 0) :=
              List.map_congr_left (fun i hi => hpoint i (by simpa using hi))
          _ = buf := range_map_getD buf
      rw [hmap]

lemma memchr0_append_zero :
    ∀ (sv : List Nat) (n : Nat), (∀ c ∈ sv, c ≠ 0) → sv.length < n →
      memchr0 (sv ++ [0]) n = some sv.length := by
  intro sv
  induction sv with
  | nil =>
    intro n _ hl
    obtain ⟨k, rfl⟩ : ∃ k, n = k + 1 := ⟨n - 1, by omega⟩
    simp [memchr0]
  | cons c cs ih =>
    intro n hz hl
    obtain ⟨k, rfl⟩ : ∃ k, n = k + 1 := ⟨n - 1, by omega⟩
    have hc : ¬(c = 0) := hz c (by simp)
    simp only [List.cons_append, memchr0, if_neg hc, List.append_eq]
    rw [ih k (fun x hx => hz x (by simp [hx])) (by simpa using Nat.lt_of_succ_lt_succ hl)]
    simp

lemma strlen_append_zero (sv : List Nat) (n : Nat) (h : ∀ c ∈ sv, c ≠ 0)
    (hl : sv.length < n) : strlen_l (sv ++ [0]) n = sv.length := by
  simp [strlen_l, memchr0_append_zero sv n h hl]

/-- C4: for an existing string or binary value node and a new value
within the size limits (page space permitting), avstor_update_binary /
avstor_update_string followed by avstor_get_binary / avstor_get_string
with a large-enough buffer returns the new value exactly, also when
the size differs (the node is resized in place: the page top moves by
the size delta and the node handle, its slot, stays valid). -/
theorem c4_update_get_roundtrip (pg : AvPage) (lower : List (Nat × Nat))
    (s nofs oldsize szname type B : Nat)
    (hchain : walk_wf B s oldsize pg.mem pg.top lower nofs)
    (hslot : load16 pg.mem s = nofs)
    (hsn : pg.mem (nofs + 12) = szname)
    (htype : NODE_TYPE pg.mem nofs = type)
    (hsB : s + 2 ≤ B)
    (hBtop : B ≤ pg.top)
    (holdlb : SIZE_NODE_HDR + szname + 1 ≤ oldsize)
    (hpage : nofs + oldsize ≤ PAGE_SIZE)
    (hlen : lower.length + 1 ≤ PAGE_SIZE)
    (hsz255 : szname ≤ 255) :
    (∀ bval : List Nat, type = 5 → bval.length ≤ MAX_BINARY_LEN →
       align_node (SIZE_NODE_HDR + szname + 1 + bval.length)
           ≤ oldsize + get_page_free_space pg →
       B + align_node (SIZE_NODE_HDR + szname + 1 + bval.length) ≤ pg.top + oldsize →
       ∃ pg1, avstor_update_binary pg s bval = Except.ok pg1 ∧
         ∀ szq, bval.length ≤ szq →
           avstor_get_binary pg1 s szq = Except.ok (bval, bval.length, bval.length)) ∧
    (∀ sval : List Nat, type = 4 → sval.length + 1 ≤ MAX_STRING_LEN →
       (∀ c ∈ sval, c ≠ 0) →
       align_node (SIZE_NODE_HDR + szname + 1 + (sval ++ [0]).length)
           ≤ oldsize + get_page_free_space pg →
       B + align_node (SIZE_NODE_HDR + szname + 1 + (sval ++ [0]).length)
           ≤ pg.top + oldsize →
       ∃ pg1, avstor_update_string pg s (sval ++ [0]) = Except.ok pg1 ∧
         ∀ szq, sval.length + 1 < szq →
           avstor_get_string pg1 s szq
             = Except.ok (sval ++ [0, 0], sval.length)) := by
  have hml : MAX_BINARY_LEN = 250 := rfl
  have hms : MAX_STRING_LEN = 250 := rfl
  constructor
  · intro bval ht5 hbl hsp1 hsp2
    rw [ht5] at htype
    obtain ⟨pg1, hupd, hget⟩ := update_get_var_spec pg lower s nofs oldsize szname 5 B
      bval hchain hslot hsn htype hsB hBtop holdlb hpage hlen (by omega) hsz255
      hsp1 hsp2
    refine ⟨pg1, ?_, ?_⟩
    · simp only [avstor_update_binary]
      rw [if_neg (show ¬(bval.length > MAX_BINARY_LEN) from by omega)]
      exact hupd
    · intro szq hq
      simp only [avstor_get_binary]
      exact hget szq hq
  · intro sval ht4 hsl hnz0 hsp1 hsp2
    rw [ht4] at htype
    have hstr : strlen_l (sval ++ [0]) (MAX_STRING_LEN + 1) = sval.length :=
      strlen_append_zero sval (MAX_STRING_LEN + 1) hnz0 (by omega)
    have htake : (sval ++ [0]).take (sval.length + 1) = sval ++ [0] := by
      rw [show sval.length + 1 = (sval ++ [0]).length from by simp]
      exact List.take_length (sval ++ [0])
    obtain ⟨pg1, hupd, hget⟩ := update_get_var_spec pg lower s nofs oldsize szname 4 B
      (sval ++ [0]) hchain hslot hsn htype hsB hBtop holdlb hpage hlen
      (by simp; omega) hsz255 hsp1 hsp2
    refine ⟨pg1, ?_, ?_⟩
    · simp only [avstor_update_string, hstr]
      rw [if_neg (show ¬(sval.length + 1 = MAX_STRING_LEN + 1) from by omega)]
      rw [htake]
      exact hupd
    · intro szq hq
      have hg := hget szq (by simp; omega)
      simp only [avstor_get_string, hg]
      have h0 : 0 < szq := by omega
      have hne : ¬(sval.length + 1 = szq) := by omega
      simp [h0, hne, htake]

/-- C4 witness: a concrete page holding a 3-byte string node (and one
node below it); updating to the 5-byte payload "wxyz" resizes the node
in place and reading it back returns exactly "wxyz". -/
theorem c4_update_get_roundtrip_witness :
    ∃ pg1, avstor_update_string
        { top := 4056, index_freelist := 0, index_count := 2,
          mem := fun a =>
            if a = 26 then 236 else if a = 27 then 15 else
            if a = 28 then 216 else if a = 29 then 15 else
            if a = 4056 then 69 else if a = 4057 then 1 else
            if a = 4058 then 28 else
            if a = 4068 then 3 else if a = 4069 then 107 else
            if a = 4076 then 81 else if a = 4077 then 1 else
            if a = 4078 then 26 else
            if a = 4088 then 3 else if a = 4089 then 107 else
            if a = 4092 then 3 else if a = 4093 then 97 else
            if a = 4094 then 98 else 0 } 26 [119, 120, 121, 122, 0] = Except.ok pg1 ∧
      avstor_get_string pg1 26 100 = Except.ok ([119, 120, 121, 122, 0, 0], 4) := by
  have h := c4_update_get_roundtrip
    { top := 4056, index_freelist := 0, index_count := 2,
      mem := fun a =>
        if a = 26 then 236 else if a = 27 then 15 else
        if a = 28 then 216 else if a = 29 then 15 else
        if a = 4056 then 69 else if a = 4057 then 1 else
        if a = 4058 then 28 else
        if a = 4068 then 3 else if a = 4069 then 107 else
        if a = 4076 then 81 else if a = 4077 then 1 else
        if a = 4078 then 26 else
        if a = 4088 then 3 else if a = 4089 then 107 else
        if a = 4092 then 3 else if a = 4093 then 97 else
        if a = 4094 then 98 else 0 }
    [(28, 20)] 26 4076 20 3 4 30
    (by simp only [walk_wf]; decide)
    (by decide) (by decide) (by decide) (by decide) (by decide) (by decide)
    (by decide) (by decide) (by decide)
  obtain ⟨pg1, hupd, hget⟩ := h.2 [119, 120, 121, 122] rfl (by decide) (by decide)
    (by decide) (by decide)
  exact ⟨pg1, hupd, hget 100 (by decide)⟩

end Avstor